import Mathlib

/-!
# Verification of the freeze_dried_data storage engine

A shallow embedding of the core of `freeze_dried_data` (files
`freeze_dried_data/efficient_index.py` and
`freeze_dried_data/freeze_dried_data.py`) together with proofs about it.

Modelling conventions:
* A file / byte buffer is a `List Nat`; writers only ever produce entries
  `< 256`, and the well-formedness predicates record that where needed.
* Python `bytes`/`bytearray` slicing (which clamps out-of-range indices) is
  modelled by `chunk` and `setSlice` below.
* A Python function that can raise returns `Option` (or an `Except` that
  carries the partially-mutated state when the source mutates before
  raising, as `bytearray.extend` inside `FDDIndexGeneral.__setitem__` does).
* User-supplied and system (pickle) codecs are external collaborators: the
  spec only contracts that they are pure `bytes ↔ value` pairs with
  `decode (encode v) = v`.  They appear as function parameters, and the
  theorems carry the round-trip facts they need as hypotheses.
* Python `None` is `Option.none`; a cell value is an `Option V`.
-/

namespace FDD

abbrev Bytes := List Nat

/-- Little-endian encoding of `n` into exactly `w` bytes
(`int.to_bytes(w, 'little')`, with the overflow check made by callers). -/
def natToLE (w n : Nat) : Bytes :=
  (List.range w).map fun i => n / 256 ^ i % 256

/-- Little-endian decoding (`int.from_bytes(buf, 'little')`). -/
def leToNat (bs : Bytes) : Nat :=
  bs.foldr (fun b acc => b + 256 * acc) 0

/-- `f[a:b]` for a Python bytes object (also `seek(a); read(b - a)`):
clamps at the end of the buffer. -/
def chunk (f : Bytes) (a b : Nat) : Bytes :=
  (f.drop a).take (b - a)

/-- Python `buf[a:b] = repl` slice assignment on a `bytearray`
(non-negative indices; clamping semantics of CPython). -/
def setSlice (buf : Bytes) (a b : Nat) (repl : Bytes) : Bytes :=
  buf.take (min a buf.length) ++ repl ++
    buf.drop (max (min a buf.length) (min b buf.length))

/-- `file.seek(pos); file.write(bs)` on a file opened for update:
overwrites in place, extends (zero-filling any gap) past the end. -/
def writeAt (f : Bytes) (pos : Nat) (bs : Bytes) : Bytes :=
  f.take pos ++ List.replicate (pos - f.length) 0 ++ bs ++ f.drop (pos + bs.length)

/-! ## `FDDIntList` (efficient_index.py) -/

/-- The read-only view of `length` packed little-endian integers starting at
`start_in_buffer`, `byte_width` bytes each. -/
structure FDDIntList where
  length : Nat
  buffer : Bytes
  byte_width : Nat
  start_in_buffer : Nat
  deriving DecidableEq, Repr

/-- `FDDIntList.__getitem__`: a negative index has the length added to it
first; an index that is still out of `[0, length)` raises `IndexError`
(modelled as `none`). -/
def FDDIntList.getI (l : FDDIntList) (idx : Int) : Option Nat :=
  let j : Int := if idx < 0 then (l.length : Int) + idx else idx
  if (l.length : Int) ≤ j ∨ j < 0 then none
  else some (leToNat (chunk l.buffer
    (l.start_in_buffer + j.toNat * l.byte_width)
    (l.start_in_buffer + (j.toNat + 1) * l.byte_width)))

/-- The sequence of integers an `FDDIntList` denotes (Python iteration over
`__getitem__` yields exactly these values). -/
def FDDIntList.toList (l : FDDIntList) : List Nat :=
  (List.range l.length).map fun i => leToNat (chunk l.buffer
    (l.start_in_buffer + i * l.byte_width)
    (l.start_in_buffer + (i + 1) * l.byte_width))

/-! ## Packed buffer helpers shared by the three index variants -/

/-- `buffer.extend(v.to_bytes(byte_width, 'little'))` over a list of values;
a value `≥ 256 ^ w` makes `to_bytes` raise `OverflowError`, and the buffer
mutated so far is carried by the error. -/
def extendLE (w : Nat) : Bytes → List Nat → Except Bytes Bytes
  | buf, [] => .ok buf
  | buf, v :: t =>
    if 256 ^ w ≤ v then .error buf
    else extendLE w (buf ++ natToLE w v) t

/-- The in-place rewrite loop
`buffer[base + i*w : base + (i+1)*w] = v.to_bytes(w, 'little')`. -/
def rewriteLE (w base : Nat) : Bytes → Nat → List Nat → Except Bytes Bytes
  | buf, _, [] => .ok buf
  | buf, i, v :: t =>
    if 256 ^ w ≤ v then .error buf
    else rewriteLE w base (setSlice buf (base + i * w) (base + (i + 1) * w) (natToLE w v)) (i + 1) t

/-- A packed row: the bytes of one offsets tuple. -/
def packRow (w : Nat) (r : List Nat) : Bytes :=
  (r.map (natToLE w)).flatten

/-! ## `FDDIndexKeyless` -/

structure FDDIndexKeyless where
  buffer : Bytes
  num_vals : Nat
  byte_width : Nat
  deriving DecidableEq, Repr

/-- `FDDIndexKeyless.__len__`. -/
def FDDIndexKeyless.size (k : FDDIndexKeyless) : Nat :=
  k.buffer.length / (k.num_vals * k.byte_width)

/-- `FDDIndexKeyless.__getitem__` (non-negative indices, as used by the
library itself; there is no negative normalisation in this method). -/
def FDDIndexKeyless.getIdx (k : FDDIndexKeyless) (idx : Nat) : Option FDDIntList :=
  if k.size ≤ idx then none
  else some ⟨k.num_vals, k.buffer, k.byte_width, idx * k.num_vals * k.byte_width⟩

/-- `FDDIndexKeyless.keys` is `range(len(self))`. -/
def FDDIndexKeyless.keysList (k : FDDIndexKeyless) : List Nat :=
  List.range k.size

/-- The denotation of entry `idx`. -/
def FDDIndexKeyless.entry (k : FDDIndexKeyless) (idx : Nat) : List Nat :=
  FDDIntList.toList ⟨k.num_vals, k.buffer, k.byte_width, idx * k.num_vals * k.byte_width⟩

/-- `values()` materialised. -/
def FDDIndexKeyless.valuesList (k : FDDIndexKeyless) : List (List Nat) :=
  (List.range k.size).map k.entry

/-- `FDDIndexKeyless.__setitem__`: appends at `idx == len(self)`, rewrites in
place at `idx < len(self)`, raises at `idx > len(self)`.  An error carries
the (possibly partially mutated) state. -/
def FDDIndexKeyless.setIdx (k : FDDIndexKeyless) (idx : Nat) (val : List Nat) :
    Except FDDIndexKeyless FDDIndexKeyless :=
  if idx = k.size then
    match extendLE k.byte_width k.buffer val with
    | .ok b => .ok { k with buffer := b }
    | .error b => .error { k with buffer := b }
  else if k.size < idx then .error k
  else
    match rewriteLE k.byte_width (idx * k.num_vals * k.byte_width) k.buffer 0 val with
    | .ok b => .ok { k with buffer := b }
    | .error b => .error { k with buffer := b }

/-! ## `FDDIndexGeneral`

The Python object holds a dict `key -> slot` whose values are always the
dense range `0 .. len-1` in insertion order, plus the packed buffer.  We
represent the dict by the list of its keys in slot order. -/

structure FDDIndexGeneral (K : Type) where
  index : List K
  buffer : Bytes
  num_vals : Nat
  byte_width : Nat
  deriving DecidableEq, Repr

variable {K : Type} [DecidableEq K]

/-- The slot of a key (`self.index[key]`); meaningful when `key ∈ index`. -/
def FDDIndexGeneral.slot (g : FDDIndexGeneral K) (key : K) : Nat :=
  g.index.findIdx fun x => decide (x = key)

/-- `FDDIndexGeneral.__getitem__`: `KeyError` when absent, otherwise the
`FDDIntList` view of the key's slot. -/
def FDDIndexGeneral.getK (g : FDDIndexGeneral K) (key : K) : Option FDDIntList :=
  if key ∈ g.index then
    some ⟨g.num_vals, g.buffer, g.byte_width, g.slot key * g.num_vals * g.byte_width⟩
  else none

/-- The offsets tuple stored for a key, materialised. -/
def FDDIndexGeneral.lookupVals (g : FDDIndexGeneral K) (key : K) : Option (List Nat) :=
  (g.getK key).map FDDIntList.toList

/-- `values()` materialised (iteration over `self.index` in slot order). -/
def FDDIndexGeneral.valuesList (g : FDDIndexGeneral K) : List (List Nat) :=
  (List.range g.index.length).map fun i =>
    FDDIntList.toList ⟨g.num_vals, g.buffer, g.byte_width, i * g.num_vals * g.byte_width⟩

/-- `FDDIndexGeneral.__setitem__`.  The length check raises before any
mutation; a new key is put into the dict *before* the buffer-extending
loop runs (so an `OverflowError` from `to_bytes` leaves the key inserted),
exactly as in the source. -/
def FDDIndexGeneral.setK (g : FDDIndexGeneral K) (key : K) (val : List Nat) :
    Except (FDDIndexGeneral K) (FDDIndexGeneral K) :=
  if val.length ≠ g.num_vals then .error g
  else if key ∈ g.index then
    match rewriteLE g.byte_width (g.slot key * g.num_vals * g.byte_width) g.buffer 0 val with
    | .ok b => .ok { g with buffer := b }
    | .error b => .error { g with buffer := b }
  else
    match extendLE g.byte_width g.buffer val with
    | .ok b => .ok { g with index := g.index ++ [key], buffer := b }
    | .error b => .error { g with index := g.index ++ [key], buffer := b }

/-! ## `FDDIndexComparableKey` -/

/-- First-match association-list lookup (a Python dict read). -/
def alookup {α β : Type} [DecidableEq α] : List (α × β) → α → Option β
  | [], _ => none
  | p :: t, a => if p.1 = a then some p.2 else alookup t a

/-- A Python dict assignment `d[k] = v`: replaces in place if the key is
present (keeping its position), appends otherwise. -/
def dictAssign {α β : Type} [DecidableEq α] (d : List (α × β)) (k : α) (v : β) :
    List (α × β) :=
  if k ∈ d.map Prod.fst then d.map fun p => if p.1 = k then (k, v) else p
  else d ++ [(k, v)]

structure FDDIndexComparableKey (K : Type) where
  skeys : List K
  buffer : Bytes
  num_vals : Nat
  byte_width : Nat
  deriving DecidableEq, Repr

variable [LinearOrder K]

/-- Pack the rows of a dict in sorted-key order
(the constructor's `for k in self._keys: for i in dict_index[k]: extend`). -/
def packDict (w : Nat) (d : List (K × List Nat)) : List K → Except Bytes Bytes
  | [] => .ok []
  | k :: t =>
    match extendLE w [] ((alookup d k).getD []) with
    | .error b => .error b
    | .ok b =>
      match packDict w d t with
      | .ok rest => .ok (b ++ rest)
      | .error rest => .error (b ++ rest)

/-- `FDDIndexComparableKey.__init__` from a dict: sorts the keys, takes
`num_vals` from the first sorted key's tuple, packs the buffer.  Raises
(`none`) on an empty dict (`self._keys[0]` is an `IndexError`) or on a
`to_bytes` overflow. -/
def FDDIndexComparableKey.fromDict (d : List (K × List Nat)) (w : Nat) :
    Option (FDDIndexComparableKey K) :=
  let ks := List.insertionSort (· ≤ ·) (d.map Prod.fst)
  match ks with
  | [] => none
  | k0 :: _ =>
    let nv := ((alookup d k0).getD []).length
    match packDict w d ks with
    | .ok b => some ⟨ks, b, nv, w⟩
    | .error _ => none

/-- `bisect_left` on the sorted key list: the first position whose key is
not `< k` (returns the length when every key is `< k`). -/
def bisectLeft (l : List K) (k : K) : Nat :=
  l.findIdx fun x => decide (¬ x < k)

/-- `FDDIndexComparableKey.__getitem__` via binary search. -/
def FDDIndexComparableKey.getC (c : FDDIndexComparableKey K) (k : K) : Option FDDIntList :=
  let i := bisectLeft c.skeys k
  if h : i < c.skeys.length then
    if c.skeys.get ⟨i, h⟩ = k then
      some ⟨c.num_vals, c.buffer, c.byte_width, i * c.num_vals * c.byte_width⟩
    else none
  else none

def FDDIndexComparableKey.lookupVals (c : FDDIndexComparableKey K) (k : K) :
    Option (List Nat) :=
  (c.getC k).map FDDIntList.toList

/-- `values()` in key order, materialised. -/
def FDDIndexComparableKey.valuesList (c : FDDIndexComparableKey K) : List (List Nat) :=
  (List.range c.skeys.length).map fun i =>
    FDDIntList.toList ⟨c.num_vals, c.buffer, c.byte_width, i * c.num_vals * c.byte_width⟩

/-! ## Split union (`RFDDImpl.load_new_split`, the `+` operator) -/

/-- The comparable branch: accumulate `dct[k] = v` over `s.items()` of every
operand in order, then rebuild with `FDDIndexComparableKey(dct)` (which uses
the default `byte_width=6`). -/
def unionComparable (ss : List (FDDIndexComparableKey K)) :
    Option (FDDIndexComparableKey K) :=
  let dct := ss.foldl
    (fun d s => (s.skeys.zip s.valuesList).foldl (fun d kv => dictAssign d kv.1 kv.2) d)
    []
  FDDIndexComparableKey.fromDict dct 6

/-- `self.index[k] = v` as an `Option` (an exception aborts the caller). -/
def setKOpt (g : FDDIndexGeneral K) (k : K) (v : List Nat) :
    Option (FDDIndexGeneral K) :=
  match g.setK k v with
  | .ok g' => some g'
  | .error _ => none

/-- Replay `self.index[k] = v` over a list of items. -/
def foldItems (g : Option (FDDIndexGeneral K)) (its : List (K × List Nat)) :
    Option (FDDIndexGeneral K) :=
  its.foldl (fun og kv => og.bind fun g => setKOpt g kv.1 kv.2) g

/-- The general branch: start from the first operand's object and replay
`self.index[k] = v` for the items of the later operands (an exception
aborts `load_new_split`, hence `none`). -/
def unionGeneral (ss : List (FDDIndexGeneral K)) : Option (FDDIndexGeneral K) :=
  match ss with
  | [] => none
  | g0 :: rest =>
    rest.foldl (fun og s => foldItems og (s.index.zip s.valuesList)) (some g0)

/-- `rows[tuple(v)] = True` over all operand values: first-occurrence
deduplication in encounter order. -/
def dedupeRows (ts : List (List Nat)) : List (List Nat) :=
  ts.foldl (fun a t => if t ∈ a then a else a ++ [t]) []

/-- The keyless branch: deduplicate the offset tuples of all operands, then
refill a fresh `FDDIndexKeyless` with `self.index[i] = r` for
`i, r in enumerate(rows.keys())`. -/
def fillKeyless (k0 : FDDIndexKeyless) (rows : List (List Nat)) :
    Option FDDIndexKeyless :=
  rows.enum.foldl
    (fun ok p => ok.bind fun kk =>
      match kk.setIdx p.1 p.2 with
      | .ok k' => some k'
      | .error _ => none)
    (some k0)

def unionKeyless (ss : List FDDIndexKeyless) : Option FDDIndexKeyless :=
  match ss with
  | [] => none
  | k0 :: _ =>
    fillKeyless ⟨[], k0.num_vals, k0.byte_width⟩
      (dedupeRows (ss.foldl (fun a s => a ++ s.valuesList) []))

/-! ## `FDDReadRow` (freeze_dried_data.py)

A row view holds the offsets tuple, a per-cell cache initialised to
`[None] * (len(offsets) - 1)`, and reads through its parent's file.  The
cache entry `None` doubles as the not-loaded sentinel. -/

variable {V : Type}

/-- `FDDReadRow.__getitem__` by column position.  Returns the value and the
updated cache; `none` models a raised exception (cache index error, missing
offset, or a decoder exception). `deser i bs` is
`column_to_deserialize[i](bs)` and returns the decoded Python object
(`Option V`, since a cell can decode to `None`). -/
def rowGet (deser : Nat → Bytes → Option (Option V)) (file : Bytes)
    (offsets : List Nat) (cache : List (Option V)) (i : Nat) :
    Option (Option V × List (Option V)) :=
  match cache.get? i with
  | none => none
  | some (some v) => some (some v, cache)
  | some none =>
    match offsets.get? i, offsets.get? (i + 1) with
    | some a, some b =>
      if a = b then some (none, cache)
      else (deser i (chunk file a b)).map fun v => (v, cache.set i v)
    | _, _ => none

/-- `FDDReadRow.__setitem__` by column position: only updates the cache. -/
def rowSetIdx (cache : List (Option V)) (i : Nat) (v : Option V) :
    Option (List (Option V)) :=
  if i < cache.length then some (cache.set i v) else none

/-- `FDDReadRow.write_to_disk`: re-encode the value, and only when the
encoded length equals the existing cell's byte length overwrite it in place,
restoring the saved file position; otherwise raise `ValueError` (the file is
untouched, since the source raises before writing anything). -/
def writeToDisk {α : Type} (colSer : Nat → α → Bytes) (rowIndex : List Nat)
    (position : Nat) (value : α) (file : Bytes) (pos : Nat) :
    Option (Bytes × Nat) :=
  match rowIndex.get? position, rowIndex.get? (position + 1) with
  | some es, some ee =>
    let bs := colSer position value
    if bs.length = ee - es then some (writeAt file es bs, pos) else none
  | _, _ => none

/-- `FDDReadRow.__setattr__` for a column name, on a parent with
`allow_cell_modification` enabled: resolves the name, updates the cache and
then overwrites the cell on disk via `write_to_disk`. -/
def rowSetAttrMod {α : Type} (colSer : Nat → α → Bytes)
    (columns : List (String × Nat)) (rowIndex : List Nat)
    (cache : List (Option α)) (name : String) (value : α)
    (file : Bytes) (pos : Nat) :
    Option (List (Option α) × Bytes × Nat) :=
  match alookup columns name with
  | none => none
  | some i =>
    (writeToDisk colSer rowIndex i value file pos).map fun fp =>
      (cache.set i (some value), fp)

/-! ## `WFDD`, the writer -/

/-- Writer/reader configuration: the column schema and the codecs derived
from it (`column_to_serialize` / `column_to_deserialize`, and the
schemaless pickler pair).  Codecs are external collaborators; serialisation
may raise (`none`), e.g. an `int` column overflowing `to_bytes`. -/
structure WCfg (V : Type) where
  columns : Option (List String)
  colSer : Nat → V → Option Bytes
  noColSer : V → Option Bytes
  colDeser : Nat → Bytes → Option (Option V)
  noColDeser : Bytes → Option (Option V)
  colDefBytes : Bytes

/-- The shapes a value passed to `WFDD.__setitem__` can take.  `rowv` is an
`FDDReadRow` (offsets, cache, and its parent's file); `plain` is an
arbitrary object, the only shape we give to schemaless payloads (the value
type `V` is abstract, so this loses no generality). -/
inductive WItem (V : Type) where
  | rowv (offsets : List Nat) (cache : List (Option V)) (srcFile : Bytes)
  | dict (m : List (String × Option V))
  | tup (t : List (Option V))
  | obj (attrs : List (String × Option V))
  | plain (v : Option V)
  deriving DecidableEq

structure WFDD (K V : Type) where
  fileData : Bytes
  filePos : Nat
  index : FDDIndexGeneral K
  unfinished : List (K × List (String × Option V))
  props : List (String × Bytes)
  splits : List (String × FDDIndexGeneral K)
  deriving DecidableEq

/-- A fresh writer (`WFDD.__init__` without reopen): empty file, a
`FDDIndexGeneral` with `num_vals = len(columns)+1` (or 2 schemaless) and the
default `byte_width = 6`. -/
def WFDD.init (K V : Type) (cfg : WCfg V) : WFDD K V :=
  { fileData := []
    filePos := 0
    index := ⟨[], [], (match cfg.columns with | some cols => cols.length + 1 | none => 2), 6⟩
    unfinished := []
    props := []
    splits := [] }

/-- The write loop of `WFDD.__setitem__`: for each normalised cell value,
skip `None` values, otherwise serialise and append, recording
`file.tell()` after each cell.  Returns the new file, position, and the
positions recorded *after* each cell; an error carries the partially
written file (the raised exception aborts before the index is touched). -/
def writeCells (ser : Nat → V → Option Bytes) :
    Bytes → Nat → Nat → List (Option V) → Except (Bytes × Nat) (Bytes × Nat × List Nat)
  | f, pos, _, [] => .ok (f, pos, [])
  | f, pos, i, none :: t =>
    match writeCells ser f pos (i + 1) t with
    | .ok (f', p', ps) => .ok (f', p', pos :: ps)
    | .error e => .error e
  | f, pos, i, some v :: t =>
    match ser i v with
    | none => .error (f, pos)
    | some bs =>
      match writeCells ser (writeAt f pos bs) (pos + bs.length) (i + 1) t with
      | .ok (f', p', ps) => .ok (f', p', (pos + bs.length) :: ps)
      | .error e => .error e

/-- The `FDDReadRow` branch of `WFDD.__setitem__`: for each column position
`i` in `range(len(columns))`, a cached value (`cache[i] is not None`) is
re-encoded, otherwise the raw cell bytes
`read_chunk(offsets[i], offsets[i+1])` are copied from the source file.
The last argument counts the remaining columns. -/
def rowCopyCells (ser : Nat → V → Option Bytes) (srcFile : Bytes) (offsets : List Nat)
    (cache : List (Option V)) :
    Bytes → Nat → Nat → Nat → Except (Bytes × Nat) (Bytes × Nat × List Nat)
  | f, pos, _, 0 => .ok (f, pos, [])
  | f, pos, i, n + 1 =>
    let data? : Option Bytes :=
      match cache.get? i with
      | none => none
      | some (some v) => ser i v
      | some none =>
        match offsets.get? i, offsets.get? (i + 1) with
        | some a, some b => some (chunk srcFile a b)
        | _, _ => none
    match data? with
    | none => .error (f, pos)
    | some bs =>
      match rowCopyCells ser srcFile offsets cache (writeAt f pos bs) (pos + bs.length) (i + 1) n with
      | .ok (f', p', ps) => .ok (f', p', (pos + bs.length) :: ps)
      | .error e => .error e

/-- Normalise a dict / tuple / attribute-object item to the per-column value
tuple, mirroring the checks of `WFDD.__setitem__` in source order; `none`
is a raised `ValueError`. -/
def normalizeItem (cols : List String) : WItem V → Option (List (Option V))
  | .dict m =>
    if cols.all fun c => decide (c ∉ m.map Prod.fst) then none
    else if m.any fun p => decide (p.1 ∉ cols) then none
    else some (cols.map fun c => (alookup m c).bind id)
  | .tup t => if t.length = cols.length then some t else none
  | .obj attrs =>
    if cols.all fun c => decide (c ∈ attrs.map Prod.fst) then
      some (cols.map fun c => (alookup attrs c).bind id)
    else none
  | _ => none

/-- Record the freshly written row under `key`
(`self.index[key] = tuple(positions)`). -/
def recordRow [DecidableEq K] (s : WFDD K V) (key : K)
    (out : Bytes × Nat × List Nat) (startPos : Nat) :
    Except (WFDD K V) (WFDD K V) :=
  let s1 : WFDD K V := { s with fileData := out.1, filePos := out.2.1 }
  match s.index.setK key (startPos :: out.2.2) with
  | .ok idx => .ok { s1 with index := idx }
  | .error idx => .error { s1 with index := idx }

/-- `WFDD.__setitem__`.  A raised exception is an `.error` carrying the
state as mutated so far: payload bytes may already be appended, but the
index is only touched by the final `self.index[key] = positions`. -/
def WFDD.setitemR [DecidableEq K] (cfg : WCfg V) (s : WFDD K V) (key : K)
    (item : WItem V) : Except (WFDD K V) (WFDD K V) :=
  if key ∈ s.index.index then .error s
  else
    match cfg.columns with
    | none =>
      match item with
      | .plain v =>
        match writeCells (fun _ => cfg.noColSer) s.fileData s.filePos 0 [v] with
        | .error e => .error { s with fileData := e.1, filePos := e.2 }
        | .ok out => recordRow s key out s.filePos
      | _ => .error s
    | some cols =>
      match item with
      | .rowv offsets cache srcFile =>
        match rowCopyCells cfg.colSer srcFile offsets cache s.fileData s.filePos 0 cols.length with
        | .error e => .error { s with fileData := e.1, filePos := e.2 }
        | .ok out => recordRow s key out s.filePos
      | it =>
        match normalizeItem cols it with
        | none => .error s
        | some vals =>
          match writeCells cfg.colSer s.fileData s.filePos 0 vals with
          | .error e => .error { s with fileData := e.1, filePos := e.2 }
          | .ok out => recordRow s key out s.filePos

/-- Remove a key from an association list (`del d[k]`). -/
def removeKey {α β : Type} [DecidableEq α] (d : List (α × β)) (k : α) : List (α × β) :=
  d.filter fun p => decide (p.1 ≠ k)

/-- `FDDSetter.finalize`: write the accumulated partial dict through
`parent[key] = data`, then remove the setter; if the write raises, the
`del` never runs. -/
def finalizeSetter [DecidableEq K] (cfg : WCfg V) (s : WFDD K V) (key : K) :
    Except (WFDD K V) (WFDD K V) :=
  match alookup s.unfinished key with
  | none => .error s
  | some data =>
    match WFDD.setitemR cfg s key (.dict data) with
    | .ok s' => .ok { s' with unfinished := removeKey s'.unfinished key }
    | .error s' => .error s'

/-- `FDDSetter.__setattr__` on a live (unfinalised) setter: unknown columns
raise; once every column has a value the setter auto-finalizes. -/
def setterSet [DecidableEq K] (cfg : WCfg V) (s : WFDD K V) (key : K)
    (name : String) (v : Option V) : Except (WFDD K V) (WFDD K V) :=
  match cfg.columns with
  | none => .error s
  | some cols =>
    if name ∉ cols then .error s
    else
      match alookup s.unfinished key with
      | none => .error s
      | some data =>
        let data' := dictAssign data name v
        let s1 : WFDD K V :=
          { s with unfinished := dictAssign s.unfinished key data' }
        if data'.length = cols.length then finalizeSetter cfg s1 key else .ok s1

/-- Run a sequence of `__setitem__` calls; a raised exception leaves the
(partially mutated) state behind and the caller moves on. -/
def runOps [DecidableEq K] (cfg : WCfg V) (s : WFDD K V)
    (ops : List (K × WItem V)) : WFDD K V :=
  ops.foldl
    (fun st op =>
      match WFDD.setitemR cfg st op.1 op.2 with
      | .ok s' => s'
      | .error s' => s')
    s

/-! ## Close (trailer emission) and open (trailer parsing)

The system codec (pickle by default) serialises the section table, index
objects and the columns tuple; it is an external collaborator, so it enters
as a parameter and the round-trip theorems carry
`deserialize (serialize x) = x` hypotheses.  Custom properties are kept as
already-serialised blobs.  Splits here are general-index splits (the
default); the keyless on-disk variant is covered by the index-level
theorems. -/

structure SysCodec (K : Type) where
  serIdx : FDDIndexGeneral K → Bytes
  deserIdx : Bytes → Option (FDDIndexGeneral K)
  serTable : List (String × Nat × Nat) → Bytes
  deserTable : Bytes → Option (List (String × Nat × Nat))
  serCols : List String → Bytes
  deserCols : Bytes → Option (List String)

/-- Append one metadata section at the current position, returning the new
(file, pos) and the `(start, end)` range recorded in the section table. -/
def appendSec (f : Bytes × Nat) (bs : Bytes) : (Bytes × Nat) × (Nat × Nat) :=
  ((writeAt f.1 f.2 bs, f.2 + bs.length), (f.2, f.2 + bs.length))

/-- The metadata sections `WFDD.close` writes after the payload, in source
order: `_column_def_`, the `_prop_*`s, the `_split_*`s (with `all_rows`
assigned from the live row index), `_columns_`.  Returns the file state and
the section table. -/
def closeSections [DecidableEq K] (cfg : WCfg V) (sys : SysCodec K) (s : WFDD K V) :
    (Bytes × Nat) × List (String × Nat × Nat) :=
  let f0 := (s.fileData, s.filePos)
  let st1 :=
    match cfg.columns with
    | some _ =>
      let r := appendSec f0 cfg.colDefBytes
      (r.1, [("_column_def_", r.2)])
    | none => (f0, [])
  let st2 := s.props.foldl
    (fun acc p =>
      let r := appendSec acc.1 p.2
      (r.1, acc.2 ++ [("_prop_" ++ p.1, r.2)]))
    st1
  let st3 := (dictAssign s.splits "all_rows" s.index).foldl
    (fun acc p =>
      let r := appendSec acc.1 (sys.serIdx p.2)
      (r.1, acc.2 ++ [("_split_" ++ p.1, r.2)]))
    st2
  match cfg.columns with
  | some cols =>
    let r := appendSec st3.1 (sys.serCols cols)
    (r.1, st3.2 ++ [("_columns_", r.2)])
  | none => st3

/-- Flush all unfinished setters at close
(`for k in cpy: self.unfinished_setters[k].finalize()`); an exception
propagates out of `close`. -/
def closeFlush [DecidableEq K] (cfg : WCfg V) (s : WFDD K V) : Option (WFDD K V) :=
  (s.unfinished.map Prod.fst).foldl
    (fun os k => os.bind fun st =>
      match finalizeSetter cfg st k with
      | .ok st' => some st'
      | .error _ => none)
    (some s)

/-- `WFDD.close`: flush setters, write the sections, the serialized section
table, and its 8-byte little-endian length; the final `truncate` is a no-op
here because every write appends. -/
def WFDD.close [DecidableEq K] (cfg : WCfg V) (sys : SysCodec K) (s : WFDD K V) :
    Option Bytes :=
  (closeFlush cfg s).map fun s1 =>
    let st := closeSections cfg sys s1
    let tb := sys.serTable st.2
    let f5 := appendSec st.1 tb
    (appendSec f5.1 (natToLE 8 tb.length)).1.1

/-- A reader (`RFDDImpl`) as produced by `load_indices`: the file, the
loaded split index and the `name -> column position` map. -/
structure RFDD (K V : Type) where
  fileData : Bytes
  index : FDDIndexGeneral K
  columns : Option (List (String × Nat))

/-- `RFDDImpl.load_indices` + `load_new_split` for a plain split name on a
general-index split: read the 8-byte trailer, decode the section table,
decode `_columns_` if present, find the split section, dispatch on the
keyless marker byte, and deserialize the index.  (The keyless on-disk
branch needs `FDDOnDiskIndex`, which is not part of the sources; this
reader models the general-index path and fails on the marker.) -/
def openReader {V : Type} (sys : SysCodec K) (split : String) (f : Bytes) :
    Option (RFDD K V) :=
  if f.length < 8 then none
  else
    let L := leToNat (chunk f (f.length - 8) f.length)
    if f.length < 8 + L then none
    else
      (sys.deserTable (chunk f (f.length - 8 - L) (f.length - 8))).bind fun table =>
        let splitTable := table.filterMap fun p =>
          if "_split_".data.isPrefixOf p.1.data then some (p.1.drop 7, p.2) else none
        let colsStep : Option (Option (List (String × Nat))) :=
          match alookup table "_columns_" with
          | none => some none
          | some r =>
            (sys.deserCols (chunk f r.1 r.2)).map fun cs =>
              some (cs.enum.map fun p => (p.2, p.1))
        colsStep.bind fun cols? =>
          (alookup splitTable split).bind fun r =>
            if chunk f r.1 (r.1 + 1) = [1] then none
            else
              (sys.deserIdx (chunk f r.1 r.2)).map fun idx =>
                ⟨f, idx, cols?⟩

/-- What `RFDDImpl.__getitem__` returns: the decoded blob for a schemaless
file, or a fresh `FDDReadRow` (offsets plus an all-`None` cell cache). -/
inductive RRes (V : Type) where
  | plain (v : Option V)
  | view (offsets : List Nat) (cache : List (Option V))
  deriving DecidableEq

/-- `RFDDImpl.__getitem__` for a key present in the index (the
`(row, column)` tuple fallback is not modelled). -/
def RFDD.getit [DecidableEq K] (cfg : WCfg V) (r : RFDD K V) (key : K) :
    Option (RRes V) :=
  if key ∉ r.index.index then none
  else
    match r.columns with
    | none =>
      (r.index.lookupVals key).bind fun l =>
        match l with
        | [a, b] => (cfg.noColDeser (chunk r.fileData a b)).map .plain
        | _ => none
    | some _ =>
      (r.index.lookupVals key).map fun l =>
        .view l (List.replicate (l.length - 1) none)

/-- Named cell access on a row view (`view.name` / `view['name']`). -/
def viewGetName (cfg : WCfg V) (columns : Option (List (String × Nat)))
    (file : Bytes) (offsets : List Nat) (cache : List (Option V)) (name : String) :
    Option (Option V × List (Option V)) :=
  match columns with
  | none => none
  | some cm =>
    match alookup cm name with
    | none => none
    | some i => rowGet cfg.colDeser file offsets cache i

/-! ### Composite pipelines (set, close, reopen, read) -/

/-- The writer state after a successful `writer[key] = item`. -/
def afterSet [DecidableEq K] (cfg : WCfg V) (s : WFDD K V) (key : K)
    (item : WItem V) : Option (WFDD K V) :=
  match WFDD.setitemR cfg s key item with
  | .ok s' => some s'
  | .error _ => none

/-- `writer[key] = item; writer.close()`. -/
def setAndClose [DecidableEq K] (cfg : WCfg V) (sys : SysCodec K)
    (s : WFDD K V) (key : K) (item : WItem V) : Option Bytes :=
  (afterSet cfg s key item).bind (WFDD.close cfg sys)

/-- `writer[key] = item; writer.close(); reader = RFDD(path); reader[key]`. -/
def pipeline [DecidableEq K] (cfg : WCfg V) (sys : SysCodec K)
    (s : WFDD K V) (key : K) (item : WItem V) : Option (RRes V) :=
  (setAndClose cfg sys s key item).bind fun f =>
    (openReader sys "all_rows" f).bind fun r => r.getit cfg key

/-- The section table the close after `writer[key] = item` will emit (used
to phrase the codec round-trip hypotheses of the round-trip theorems). -/
def pipeTable [DecidableEq K] (cfg : WCfg V) (sys : SysCodec K)
    (s : WFDD K V) (key : K) (item : WItem V) : List (String × Nat × Nat) :=
  match afterSet cfg s key item with
  | some s' => (closeSections cfg sys s').2
  | none => []

/-- The index object that close will serialise into `_split_all_rows`. -/
def pipeIdx [DecidableEq K] (cfg : WCfg V) (s : WFDD K V) (key : K)
    (item : WItem V) : FDDIndexGeneral K :=
  match afterSet cfg s key item with
  | some s' => s'.index
  | none => s.index

/-! ### A concrete executable instantiation of the external codecs

The spec treats serializers as external pure `bytes ↔ value` pairs.  The
witnesses below instantiate them with a small executable codec over
`K = Nat` cell values, mirroring the relevant behaviour of pickle (in
particular `decode(b'') raises`, and serialized objects never start with
the keyless marker byte `0x01`). -/

/-- Witness cell codec: a value `v` encodes to the single byte `v + 1`. -/
def toySer (v : Nat) : Option Bytes := if v < 255 then some [v + 1] else none

/-- Witness cell decoder: one byte decodes back; anything else (including
the empty string, as with `pickle.loads(b'')`) raises. -/
def toyDeser (bs : Bytes) : Option (Option Nat) :=
  match bs with
  | [b] => if 0 < b then some (some (b - 1)) else some none
  | _ => none

def toyCfgNoCols : WCfg Nat :=
  { columns := none
    colSer := fun _ => toySer
    noColSer := toySer
    colDeser := fun _ => toyDeser
    noColDeser := toyDeser
    colDefBytes := [9] }

def toyCfgCols (cols : List String) : WCfg Nat :=
  { toyCfgNoCols with columns := some cols }

def strBytes (s : String) : Bytes := s.data.map Char.toNat

def bytesStr (bs : Bytes) : String := String.mk (bs.map Char.ofNat)

/-- Witness system codec, index objects (over `K = Nat`). -/
def serIdxN (g : FDDIndexGeneral Nat) : Bytes :=
  2 :: (natToLE 4 g.index.length ++ (g.index.map (natToLE 4)).flatten ++
    natToLE 4 g.buffer.length ++ g.buffer ++ natToLE 4 g.num_vals ++ natToLE 4 g.byte_width)

def deserIdxN (bs : Bytes) : Option (FDDIndexGeneral Nat) :=
  let t := bs.drop 1
  let n := leToNat (t.take 4)
  let keys := (List.range n).map fun i => leToNat (chunk t (4 + 4 * i) (8 + 4 * i))
  let o := 4 + 4 * n
  let bl := leToNat (chunk t o (o + 4))
  let buf := chunk t (o + 4) (o + 4 + bl)
  some ⟨keys, buf, leToNat (chunk t (o + 4 + bl) (o + 8 + bl)),
    leToNat (chunk t (o + 8 + bl) (o + 12 + bl))⟩

def serTableEntry (p : String × Nat × Nat) : Bytes :=
  natToLE 2 p.1.length ++ strBytes p.1 ++ natToLE 4 p.2.1 ++ natToLE 4 p.2.2

def serTableN (t : List (String × Nat × Nat)) : Bytes :=
  natToLE 2 t.length ++ (t.map serTableEntry).flatten

def parseEntries : Nat → Bytes → Option (List (String × Nat × Nat))
  | 0, _ => some []
  | n + 1, bs =>
    let sl := leToNat (bs.take 2)
    let s := bytesStr (chunk bs 2 (2 + sl))
    let a := leToNat (chunk bs (2 + sl) (6 + sl))
    let b := leToNat (chunk bs (6 + sl) (10 + sl))
    (parseEntries n (bs.drop (10 + sl))).map fun r => (s, a, b) :: r

def deserTableN (bs : Bytes) : Option (List (String × Nat × Nat)) :=
  parseEntries (leToNat (bs.take 2)) (bs.drop 2)

def serColsN (cs : List String) : Bytes :=
  natToLE 2 cs.length ++ (cs.map fun s => natToLE 2 s.length ++ strBytes s).flatten

def parseCols : Nat → Bytes → List String
  | 0, _ => []
  | n + 1, bs =>
    let sl := leToNat (bs.take 2)
    bytesStr (chunk bs 2 (2 + sl)) :: parseCols n (bs.drop (2 + sl))

def deserColsN (bs : Bytes) : Option (List String) :=
  some (parseCols (leToNat (bs.take 2)) (bs.drop 2))

def toySys : SysCodec Nat :=
  { serIdx := serIdxN
    deserIdx := deserIdxN
    serTable := serTableN
    deserTable := deserTableN
    serCols := serColsN
    deserCols := deserColsN }

/-! ### Specification-side helpers

Ghost functions and well-formedness predicates used to state and prove the
theorems; they introduce no behaviour of their own. -/

/-- The byte strings the write loop will emit for a normalised cell tuple:
`[]` for a `None` cell, the serialised bytes otherwise (`none` when a
serialiser raises). -/
def seqCells (ser : Nat → V → Option Bytes) : Nat → List (Option V) → Option (List Bytes)
  | _, [] => some []
  | i, none :: t => (seqCells ser (i + 1) t).map ([] :: ·)
  | i, some v :: t => (ser i v).bind fun bs => (seqCells ser (i + 1) t).map (bs :: ·)

/-- The byte strings the `FDDReadRow` copy loop will emit for the first `n`
columns. -/
def seqCellsRC (ser : Nat → V → Option Bytes) (srcFile : Bytes) (offsets : List Nat)
    (cache : List (Option V)) : Nat → Nat → Option (List Bytes)
  | _, 0 => some []
  | i, n + 1 =>
    (match cache.get? i with
      | none => none
      | some (some v) => ser i v
      | some none =>
        match offsets.get? i, offsets.get? (i + 1) with
        | some a, some b => some (chunk srcFile a b)
        | _, _ => none).bind fun bs =>
    (seqCellsRC ser srcFile offsets cache (i + 1) n).map (bs :: ·)

/-- `file.tell()` after each of a sequence of appends starting at `pos`. -/
def posScan (pos : Nat) : List Bytes → List Nat
  | [] => []
  | bs :: t => (pos + bs.length) :: posScan (pos + bs.length) t

/-- The materialised offsets tuple stored in slot `i` of a packed buffer. -/
def getSlot (nv w : Nat) (buf : Bytes) (i : Nat) : List Nat :=
  FDDIntList.toList ⟨nv, buf, w, i * nv * w⟩

/-- Uniform shape of a row set: every tuple has `nv` values, each encodable
in `w` bytes. -/
def PackedRows (nv w : Nat) (rows : List (List Nat)) : Prop :=
  (∀ r ∈ rows, r.length = nv) ∧ ∀ r ∈ rows, ∀ v ∈ r, v < 256 ^ w

/-- Well-formed `FDDIndexGeneral`: the packed buffer is exactly the
concatenation of the rows, slot per key. -/
def GWF [DecidableEq K] (g : FDDIndexGeneral K) (rows : List (List Nat)) : Prop :=
  g.buffer = (rows.map (packRow g.byte_width)).flatten ∧
  g.index.length = rows.length ∧
  PackedRows g.num_vals g.byte_width rows ∧
  g.index.Nodup ∧ 0 < g.num_vals ∧ 0 < g.byte_width

/-- Well-formed `FDDIndexKeyless`. -/
def KWF (k : FDDIndexKeyless) (rows : List (List Nat)) : Prop :=
  k.buffer = (rows.map (packRow k.byte_width)).flatten ∧
  PackedRows k.num_vals k.byte_width rows ∧
  0 < k.num_vals ∧ 0 < k.byte_width

/-- Well-formed `FDDIndexComparableKey`. -/
def CWF [LinearOrder K] (c : FDDIndexComparableKey K) (rows : List (List Nat)) : Prop :=
  c.buffer = (rows.map (packRow c.byte_width)).flatten ∧
  c.skeys.length = rows.length ∧
  PackedRows c.num_vals c.byte_width rows ∧
  c.skeys.Nodup ∧ c.skeys.Sorted (· ≤ ·) ∧ 0 < c.num_vals ∧ 0 < c.byte_width

/-- The key order a Python dict acquires from a sequence of insertions:
first-insertion order. -/
def insertKey {α : Type} [DecidableEq α] (l : List α) (a : α) : List α :=
  if a ∈ l then l else l ++ [a]

def dictKeys {α : Type} [DecidableEq α] (ks : List α) : List α :=
  ks.foldl insertKey []

/-- Replay a sequence of `__setitem__` calls on a general index, keeping the
state a raised exception leaves behind. -/
def buildG [DecidableEq K] (g : FDDIndexGeneral K) (ops : List (K × List Nat)) :
    FDDIndexGeneral K :=
  ops.foldl
    (fun g p =>
      match g.setK p.1 p.2 with
      | .ok g' => g'
      | .error g' => g')
    g

/-- The number of columns the writer's index expects
(`len(columns) + 1`, or 2 for a schemaless file). -/
def expectedNV (cfg : WCfg V) : Nat :=
  match cfg.columns with
  | some cols => cols.length + 1
  | none => 2

/-- The writer invariant: the cursor sits at the end of the appended file
and the live index is a packed, duplicate-free general index of the right
arity whose recorded tuples are non-decreasing. -/
def WriterWF [DecidableEq K] (cfg : WCfg V) (s : WFDD K V) : Prop :=
  s.filePos = s.fileData.length ∧
  s.index.num_vals = expectedNV cfg ∧
  ∃ rows, GWF s.index rows ∧ ∀ r ∈ rows, List.Chain' (· ≤ ·) r

/-! ## Lemmas: bytes and buffer primitives -/

theorem natToLE_length (w n : Nat) : (natToLE w n).length = w := by
  simp [natToLE]

theorem natToLE_lt256 (w n : Nat) : ∀ b ∈ natToLE w n, b < 256 := by
  intro b hb
  simp only [natToLE, List.mem_map] at hb
  obtain ⟨i, _, rfl⟩ := hb
  exact Nat.mod_lt _ (by norm_num)

theorem natToLE_succ (w n : Nat) : natToLE (w + 1) n = n % 256 :: natToLE w (n / 256) := by
  simp only [natToLE, List.range_succ_eq_map, List.map_cons, List.map_map]
  congr 1
  · simp
  · apply List.map_congr_left
    intro i _
    simp only [Function.comp_apply]
    rw [Nat.div_div_eq_div_mul, pow_succ, Nat.mul_comm 256 (256 ^ i)]

theorem leToNat_cons (b : Nat) (t : Bytes) :
    leToNat (b :: t) = b + 256 * leToNat t := rfl

theorem leToNat_natToLE (w n : Nat) (h : n < 256 ^ w) :
    leToNat (natToLE w n) = n := by
  induction w generalizing n with
  | zero =>
    interval_cases n
    rfl
  | succ w ih =>
    rw [natToLE_succ, leToNat_cons, ih (n / 256) ?_]
    · exact Nat.mod_add_div n 256
    · rw [pow_succ] at h
      exact Nat.div_lt_of_lt_mul (by linarith [h])

theorem chunk_nil_of_ge (f : Bytes) (a b : Nat) (h : b ≤ a) : chunk f a b = [] := by
  unfold chunk
  rw [Nat.sub_eq_zero_of_le h, List.take_zero]

theorem chunk_append_of_le (f t : Bytes) (a b : Nat) (hb : b ≤ f.length) :
    chunk (f ++ t) a b = chunk f a b := by
  rcases Nat.le_total b a with hba | hab
  · rw [chunk_nil_of_ge _ _ _ hba, chunk_nil_of_ge _ _ _ hba]
  · have ha : a ≤ f.length := le_trans hab hb
    unfold chunk
    rw [List.drop_append_eq_append_drop, List.take_append_eq_append_take]
    rw [Nat.sub_eq_zero_of_le ha, List.drop_zero, List.length_drop]
    have : b - a - (f.length - a) = 0 := by omega
    rw [this, List.take_zero, List.append_nil]

theorem chunk_at_append (f bs t : Bytes) :
    chunk (f ++ (bs ++ t)) f.length (f.length + bs.length) = bs := by
  unfold chunk
  rw [List.drop_left, Nat.add_sub_cancel_left, List.take_left]

theorem chunk_take (f : Bytes) (n a b : Nat) (hb : b ≤ n) :
    chunk (f.take n) a b = chunk f a b := by
  unfold chunk
  rw [List.drop_take, List.take_take, min_eq_left (by omega)]

theorem chunk_drop_add (f : Bytes) (n a b : Nat) :
    chunk (f.drop n) a b = chunk f (n + a) (n + b) := by
  unfold chunk
  rw [List.drop_drop, Nat.add_sub_add_left]


theorem writeAt_append (f bs : Bytes) : writeAt f f.length bs = f ++ bs := by
  unfold writeAt
  rw [List.take_length, Nat.sub_self, List.replicate_zero, List.drop_eq_nil_of_le (by omega)]
  simp

/-- An in-range `writeAt` is a three-way split. -/
theorem writeAt_eq_of_le (f bs : Bytes) (pos : Nat) (h : pos + bs.length ≤ f.length) :
    writeAt f pos bs = f.take pos ++ bs ++ f.drop (pos + bs.length) := by
  unfold writeAt
  rw [Nat.sub_eq_zero_of_le (by omega), List.replicate_zero]
  simp

theorem writeAt_length (f bs : Bytes) (pos : Nat) (h : pos + bs.length ≤ f.length) :
    (writeAt f pos bs).length = f.length := by
  rw [writeAt_eq_of_le _ _ _ h]
  simp only [List.length_append, List.length_take, List.length_drop]
  omega

/-- Bytes strictly before the written range are untouched. -/
theorem chunk_writeAt_left (f bs : Bytes) (pos a b : Nat)
    (hbd : pos + bs.length ≤ f.length) (h : b ≤ pos) :
    chunk (writeAt f pos bs) a b = chunk f a b := by
  rw [writeAt_eq_of_le _ _ _ hbd, List.append_assoc]
  rw [chunk_append_of_le _ _ _ _ (by rw [List.length_take]; omega)]
  rw [chunk_take _ _ _ _ h]

/-- Bytes at or past the end of the written range are untouched. -/
theorem chunk_writeAt_right (f bs : Bytes) (pos a b : Nat)
    (hbd : pos + bs.length ≤ f.length) (h : pos + bs.length ≤ a) :
    chunk (writeAt f pos bs) a b = chunk f a b := by
  rw [writeAt_eq_of_le _ _ _ hbd]
  have hlen : (f.take pos ++ bs).length = pos + bs.length := by
    simp only [List.length_append, List.length_take]
    omega
  unfold chunk
  have hdrop : ((f.take pos ++ bs) ++ f.drop (pos + bs.length)).drop a = f.drop a := by
    have h1 : a = (f.take pos ++ bs).length + (a - (pos + bs.length)) := by
      rw [hlen]; omega
    rw [h1, List.drop_append, List.drop_drop]
    congr 1
    omega
  rw [hdrop]

theorem setSlice_in_range (buf repl : Bytes) (a b : Nat) (ha : a ≤ b) (hb : b ≤ buf.length) :
    setSlice buf a b repl = buf.take a ++ repl ++ buf.drop b := by
  unfold setSlice
  rw [min_eq_left (le_trans ha hb), min_eq_left hb, max_eq_right ha]

/-! ## Lemmas: extracting rows from a packed buffer -/

theorem packRow_cons (w v : Nat) (r : List Nat) :
    packRow w (v :: r) = natToLE w v ++ packRow w r := by
  simp [packRow]

theorem packRow_length (w : Nat) (r : List Nat) :
    (packRow w r).length = r.length * w := by
  induction r with
  | nil => simp [packRow]
  | cons v t ih =>
    rw [packRow_cons, List.length_append, natToLE_length, ih, List.length_cons]
    ring

theorem range_map_getD {α : Type} (l : List α) (d : α) :
    (List.range l.length).map (fun i => l.getD i d) = l := by
  induction l with
  | nil => rfl
  | cons a t ih =>
    rw [List.length_cons, List.range_succ_eq_map, List.map_cons, List.map_map]
    have hcomp : ((fun i => (a :: t).getD i d) ∘ Nat.succ) = fun i => t.getD i d := by
      funext i
      simp [List.getD]
    rw [hcomp, ih]
    rfl

theorem chunk_append_right (P rest : Bytes) (a b : Nat) :
    chunk (P ++ rest) (P.length + a) (P.length + b) = chunk rest a b := by
  unfold chunk
  rw [List.drop_append, Nat.add_sub_add_left]

theorem chunk_prefix_of_len (A B : Bytes) : chunk (A ++ B) 0 A.length = A := by
  unfold chunk
  rw [List.drop_zero, Nat.sub_zero, List.take_left]

theorem chunk_pack (w : Nat) (r : List Nat) (rest : Bytes) (j : Nat) (hj : j < r.length) :
    chunk (packRow w r ++ rest) (j * w) ((j + 1) * w) = natToLE w (r.getD j 0) := by
  induction r generalizing j rest with
  | nil => simp at hj
  | cons v t ih =>
    rw [packRow_cons, List.append_assoc]
    match j with
    | 0 =>
      have h0 : (0 : Nat) * w = 0 := by ring
      have h1 : (0 + 1) * w = (natToLE w v).length + 0 := by
        rw [natToLE_length]; ring
      rw [h0, h1]
      have := chunk_prefix_of_len (natToLE w v) (packRow w t ++ rest)
      rw [show (natToLE w v).length + 0 = (natToLE w v).length by ring]
      simpa using this
    | j + 1 =>
      have h1 : (j + 1) * w = (natToLE w v).length + j * w := by
        rw [natToLE_length]; ring
      have h2 : (j + 1 + 1) * w = (natToLE w v).length + (j + 1) * w := by
        rw [natToLE_length]; ring
      rw [h1, h2, chunk_append_right]
      have hj' : j < t.length := by simpa using hj
      rw [ih rest j hj']
      rfl

theorem toList_pack (w nv : Nat) (r : List Nat) (rest : Bytes)
    (hr : r.length = nv) (hb : ∀ v ∈ r, v < 256 ^ w) :
    FDDIntList.toList ⟨nv, packRow w r ++ rest, w, 0⟩ = r := by
  unfold FDDIntList.toList
  simp only [Nat.zero_add]
  subst hr
  have h1 : ∀ i ∈ List.range r.length,
      leToNat (chunk (packRow w r ++ rest) (i * w) ((i + 1) * w)) = r.getD i 0 := by
    intro i hi
    rw [List.mem_range] at hi
    rw [chunk_pack w r rest i hi, leToNat_natToLE]
    rw [List.getD_eq_getElem r 0 hi]
    exact hb _ (List.getElem_mem hi)
  rw [List.map_congr_left h1, range_map_getD]

theorem getSlot_zero (nv w : Nat) (r : List Nat) (rest : Bytes)
    (hr : r.length = nv) (hb : ∀ v ∈ r, v < 256 ^ w) :
    getSlot nv w (packRow w r ++ rest) 0 = r := by
  unfold getSlot
  have h0 : (0 : Nat) * nv * w = 0 := by ring
  rw [h0]
  exact toList_pack w nv r rest hr hb

theorem toList_shift (nv w i : Nat) (P rest : Bytes) (hP : P.length = nv * w) :
    FDDIntList.toList ⟨nv, P ++ rest, w, (i + 1) * nv * w⟩ =
    FDDIntList.toList ⟨nv, rest, w, i * nv * w⟩ := by
  unfold FDDIntList.toList
  apply List.map_congr_left
  intro j _
  have h1 : (i + 1) * nv * w + j * w = P.length + (i * nv * w + j * w) := by
    rw [hP]; ring
  have h2 : (i + 1) * nv * w + (j + 1) * w = P.length + (i * nv * w + (j + 1) * w) := by
    rw [hP]; ring
  rw [h1, h2, chunk_append_right]

theorem getSlot_succ (nv w i : Nat) (r : List Nat) (rest : Bytes)
    (hr : r.length = nv) :
    getSlot nv w (packRow w r ++ rest) (i + 1) = getSlot nv w rest i := by
  unfold getSlot
  exact toList_shift nv w i _ rest (by rw [packRow_length, hr])

/-- Extraction: slot `i` of a packed buffer is row `i`. -/
theorem packed_extract (nv w : Nat) (rows : List (List Nat))
    (hp : PackedRows nv w rows) :
    ∀ i, i < rows.length →
      getSlot nv w ((rows.map (packRow w)).flatten) i = rows.getD i [] := by
  induction rows with
  | nil => intro i hi; simp at hi
  | cons r rows' ih =>
    intro i hi
    rw [List.map_cons, List.flatten_cons]
    obtain ⟨hlen, hbd⟩ := hp
    match i with
    | 0 =>
      rw [getSlot_zero nv w r _ (hlen r (by simp)) (hbd r (by simp))]
      rfl
    | i + 1 =>
      rw [getSlot_succ nv w i r _ (hlen r (by simp))]
      have hp' : PackedRows nv w rows' :=
        ⟨fun x hx => hlen x (List.mem_cons_of_mem _ hx),
         fun x hx => hbd x (List.mem_cons_of_mem _ hx)⟩
      rw [ih hp' i (by simpa using hi)]
      rfl

/-! ## Lemmas: buffer mutation -/

theorem extendLE_ok (w : Nat) (buf : Bytes) (val : List Nat)
    (hb : ∀ v ∈ val, v < 256 ^ w) :
    extendLE w buf val = .ok (buf ++ packRow w val) := by
  induction val generalizing buf with
  | nil => simp [extendLE, packRow]
  | cons v t ih =>
    unfold extendLE
    rw [if_neg (by push_neg; exact hb v (by simp))]
    rw [ih _ (fun x hx => hb x (List.mem_cons_of_mem _ hx))]
    rw [packRow_cons, List.append_assoc]

/-- `extendLE` only fails on an oversized value. -/
theorem extendLE_ok_of_lt (w : Nat) (buf : Bytes) (val : List Nat)
    (hb : ∀ v ∈ val, v < 256 ^ w) : ∃ b, extendLE w buf val = .ok b :=
  ⟨_, extendLE_ok w buf val hb⟩

theorem rewriteLE_ok (w base : Nat) (val : List Nat) :
    ∀ (buf : Bytes) (i : Nat), (∀ v ∈ val, v < 256 ^ w) →
    base + (i + val.length) * w ≤ buf.length →
    rewriteLE w base buf i val =
      .ok (buf.take (base + i * w) ++ packRow w val ++
        buf.drop (base + (i + val.length) * w)) := by
  induction val with
  | nil =>
    intro buf i _ _
    simp only [rewriteLE, List.length_nil, Nat.add_zero, packRow]
    rw [List.map_nil, List.flatten_nil, List.append_nil, List.take_append_drop]
  | cons v t ih =>
    intro buf i hb hle
    unfold rewriteLE
    rw [if_neg (by push_neg; exact hb v (by simp))]
    have hw1 : (i + 1) * w = i * w + w := by ring
    have hw2 : (i + (v :: t).length) * w = i * w + w + t.length * w := by
      simp only [List.length_cons]
      ring
    have hw3 : ((i + 1) + t.length) * w = i * w + w + t.length * w := by ring
    have hab : base + i * w ≤ base + (i + 1) * w := by omega
    have hbb : base + (i + 1) * w ≤ buf.length := by omega
    rw [setSlice_in_range _ _ _ _ hab hbb]
    set A := buf.take (base + i * w) with hA
    set E := natToLE w v with hE
    set D := buf.drop (base + (i + 1) * w) with hD
    have hAlen : A.length = base + i * w := by
      rw [hA, List.length_take]
      omega
    have hElen : E.length = w := natToLE_length w v
    have hADlen : (A ++ E ++ D).length = buf.length := by
      simp only [List.length_append, hAlen, hElen, hD, List.length_drop]
      omega
    have hle' : base + ((i + 1) + t.length) * w ≤ (A ++ E ++ D).length := by
      rw [hADlen]
      omega
    rw [ih (A ++ E ++ D) (i + 1) (fun x hx => hb x (List.mem_cons_of_mem _ hx)) hle']
    have hAE : (A ++ E ++ D).take (base + (i + 1) * w) = A ++ E := by
      have : base + (i + 1) * w = (A ++ E).length := by
        rw [List.length_append, hAlen, hElen]
        ring
      rw [this, List.take_left]
    have hDrop : (A ++ E ++ D).drop (base + ((i + 1) + t.length) * w) =
        buf.drop (base + (i + (t.length + 1)) * w) := by
      have h1 : base + ((i + 1) + t.length) * w = (A ++ E).length + t.length * w := by
        rw [List.length_append, hAlen, hElen]
        ring
      rw [h1, List.drop_append, hD, List.drop_drop]
      congr 1
      ring
    rw [hAE, hDrop, packRow_cons]
    simp only [List.length_cons, List.append_assoc]

theorem flatten_pack_take (w nv : Nat) (rows : List (List Nat))
    (hu : ∀ r ∈ rows, r.length = nv) :
    ∀ i, i ≤ rows.length →
      ((rows.map (packRow w)).flatten).take (i * (nv * w)) =
        ((rows.take i).map (packRow w)).flatten := by
  induction rows with
  | nil => intro i hi; simp
  | cons r rows' ih =>
    intro i hi
    match i with
    | 0 => simp
    | i + 1 =>
      rw [List.map_cons, List.flatten_cons, List.take_succ_cons, List.map_cons,
        List.flatten_cons]
      have hL : (packRow w r).length = nv * w := by
        rw [packRow_length, hu r (by simp)]
      have h1 : (i + 1) * (nv * w) = (packRow w r).length + i * (nv * w) := by
        rw [hL]; ring
      rw [h1, List.take_append, ih (fun x hx => hu x (List.mem_cons_of_mem _ hx)) i
        (by simpa using hi)]

theorem flatten_pack_drop (w nv : Nat) (rows : List (List Nat))
    (hu : ∀ r ∈ rows, r.length = nv) :
    ∀ i, i ≤ rows.length →
      ((rows.map (packRow w)).flatten).drop (i * (nv * w)) =
        ((rows.drop i).map (packRow w)).flatten := by
  induction rows with
  | nil => intro i hi; simp
  | cons r rows' ih =>
    intro i hi
    match i with
    | 0 => simp
    | i + 1 =>
      rw [List.map_cons, List.flatten_cons]
      have hL : (packRow w r).length = nv * w := by
        rw [packRow_length, hu r (by simp)]
      have h1 : (i + 1) * (nv * w) = (packRow w r).length + i * (nv * w) := by
        rw [hL]; ring
      rw [h1, List.drop_append, ih (fun x hx => hu x (List.mem_cons_of_mem _ hx)) i
        (by simpa using hi)]
      rfl

theorem flatten_pack_length (w nv : Nat) (rows : List (List Nat))
    (hu : ∀ r ∈ rows, r.length = nv) :
    ((rows.map (packRow w)).flatten).length = rows.length * (nv * w) := by
  induction rows with
  | nil => simp
  | cons r rows' ih =>
    rw [List.map_cons, List.flatten_cons, List.length_append, packRow_length,
      hu r (by simp), ih (fun x hx => hu x (List.mem_cons_of_mem _ hx)),
      List.length_cons]
    ring

/-! ## Lemmas: the general index -/

section GeneralIndex

variable {K : Type} [DecidableEq K]

theorem slot_lt (g : FDDIndexGeneral K) (key : K) (h : key ∈ g.index) :
    g.slot key < g.index.length :=
  List.findIdx_lt_length_of_exists ⟨key, h, by simp⟩

theorem index_slot_self (g : FDDIndexGeneral K) (key : K) (h : key ∈ g.index) :
    g.index.getD (g.slot key) key = key := by
  have hlt := slot_lt g key h
  rw [List.getD_eq_getElem _ _ hlt]
  have := @List.findIdx_getElem _ (fun x => decide (x = key)) g.index hlt
  simpa using this

theorem slot_ne_of_ne (g : FDDIndexGeneral K) (k1 k2 : K)
    (h1 : k1 ∈ g.index) (h2 : k2 ∈ g.index) (hne : k1 ≠ k2) :
    g.slot k1 ≠ g.slot k2 := by
  intro heq
  apply hne
  have e1 := index_slot_self g k1 h1
  have e2 := index_slot_self g k2 h2
  rw [heq] at e1
  rw [List.getD_eq_getElem _ _ (slot_lt g k2 h2)] at e1 e2
  exact e1.symm.trans e2

theorem findIdx_append_cons_self (idx : List K) (key : K) (h : key ∉ idx) (t : List K) :
    (idx ++ key :: t).findIdx (fun x => decide (x = key)) = idx.length := by
  induction idx with
  | nil => simp [List.findIdx_cons]
  | cons a idx ih =>
    rw [List.cons_append, List.findIdx_cons]
    have ha : ¬ (a = key) := fun h' => h (h' ▸ List.mem_cons_self a idx)
    rw [decide_eq_false ha, cond_false, ih (fun hx => h (List.mem_cons_of_mem _ hx))]
    rfl

theorem slot_append_new (g : FDDIndexGeneral K) (key : K) (h : key ∉ g.index) :
    (g.index ++ [key]).findIdx (fun x => decide (x = key)) = g.index.length :=
  findIdx_append_cons_self g.index key h []

theorem slot_append_mem (g : FDDIndexGeneral K) (key : K) (h : key ∈ g.index) (t : List K) :
    (g.index ++ t).findIdx (fun x => decide (x = key)) = g.slot key := by
  unfold FDDIndexGeneral.slot
  rw [List.findIdx_append]
  rw [if_pos (List.findIdx_lt_length_of_exists ⟨key, h, by simp⟩)]

theorem gwf_lookup (g : FDDIndexGeneral K) (rows : List (List Nat))
    (hg : GWF g rows) (key : K) (hk : key ∈ g.index) :
    g.lookupVals key = some (rows.getD (g.slot key) []) := by
  obtain ⟨hbuf, hlen, hp, _, _, _⟩ := hg
  unfold FDDIndexGeneral.lookupVals FDDIndexGeneral.getK
  rw [if_pos hk, Option.map_some']
  congr 1
  have hslot : g.slot key < rows.length := hlen ▸ slot_lt g key hk
  have := packed_extract g.num_vals g.byte_width rows hp (g.slot key) hslot
  rw [← this, getSlot, hbuf]

theorem gwf_valuesList (g : FDDIndexGeneral K) (rows : List (List Nat))
    (hg : GWF g rows) : g.valuesList = rows := by
  obtain ⟨hbuf, hlen, hp, _, _, _⟩ := hg
  unfold FDDIndexGeneral.valuesList
  rw [hlen]
  have h1 : ∀ i ∈ List.range rows.length,
      FDDIntList.toList ⟨g.num_vals, g.buffer, g.byte_width, i * g.num_vals * g.byte_width⟩ =
        rows.getD i [] := by
    intro i hi
    rw [List.mem_range] at hi
    rw [hbuf]
    exact packed_extract g.num_vals g.byte_width rows hp i hi
  rw [List.map_congr_left h1, range_map_getD]

theorem setK_new_ok (g : FDDIndexGeneral K) (key : K) (val : List Nat)
    (hk : key ∉ g.index) (hv : val.length = g.num_vals)
    (hb : ∀ v ∈ val, v < 256 ^ g.byte_width) :
    g.setK key val =
      .ok ⟨g.index ++ [key], g.buffer ++ packRow g.byte_width val,
        g.num_vals, g.byte_width⟩ := by
  unfold FDDIndexGeneral.setK
  rw [if_neg (by rw [hv]; exact fun h => h rfl), if_neg hk,
    extendLE_ok _ _ _ hb]

theorem setK_mem_ok (g : FDDIndexGeneral K) (rows : List (List Nat))
    (hg : GWF g rows) (key : K) (val : List Nat)
    (hk : key ∈ g.index) (hv : val.length = g.num_vals)
    (hb : ∀ v ∈ val, v < 256 ^ g.byte_width) :
    g.setK key val =
      .ok { g with buffer :=
        ((rows.set (g.slot key) val).map (packRow g.byte_width)).flatten } := by
  obtain ⟨hbuf, hlen, hp, hnd, hnv, hw⟩ := hg
  have hslot : g.slot key < rows.length := hlen ▸ slot_lt g key hk
  unfold FDDIndexGeneral.setK
  rw [if_neg (by rw [hv]; exact fun h => h rfl), if_pos hk]
  have hbound : g.slot key * g.num_vals * g.byte_width + (0 + val.length) * g.byte_width ≤
      g.buffer.length := by
    rw [hbuf, flatten_pack_length _ _ _ hp.1, hv]
    have : g.slot key * g.num_vals * g.byte_width + (0 + g.num_vals) * g.byte_width =
        (g.slot key + 1) * (g.num_vals * g.byte_width) := by ring
    rw [this]
    exact Nat.mul_le_mul_right _ (by omega)
  rw [rewriteLE_ok _ _ _ _ _ hb hbound]
  have e1 : g.slot key * g.num_vals * g.byte_width + 0 * g.byte_width =
      g.slot key * (g.num_vals * g.byte_width) := by ring
  have e2 : g.slot key * g.num_vals * g.byte_width + (0 + val.length) * g.byte_width =
      (g.slot key + 1) * (g.num_vals * g.byte_width) := by rw [hv]; ring
  rw [e1, e2, hbuf]
  rw [flatten_pack_take _ _ _ hp.1 _ (le_of_lt hslot)]
  rw [flatten_pack_drop _ _ _ hp.1 _ hslot]
  have hset : rows.set (g.slot key) val =
      rows.take (g.slot key) ++ val :: rows.drop (g.slot key + 1) := by
    rw [List.set_eq_take_append_cons_drop, if_pos hslot]
  rw [hset, List.map_append, List.flatten_append, List.map_cons, List.flatten_cons,
    List.append_assoc]

/-- `GWF` is preserved when a fresh key's row is appended. -/
theorem gwf_append (g : FDDIndexGeneral K) (rows : List (List Nat))
    (hg : GWF g rows) (key : K) (val : List Nat)
    (hk : key ∉ g.index) (hv : val.length = g.num_vals)
    (hb : ∀ v ∈ val, v < 256 ^ g.byte_width) :
    GWF (⟨g.index ++ [key], g.buffer ++ packRow g.byte_width val,
      g.num_vals, g.byte_width⟩ : FDDIndexGeneral K) (rows ++ [val]) := by
  obtain ⟨hbuf, hlen, hp, hnd, hnv, hw⟩ := hg
  refine ⟨?_, ?_, ⟨?_, ?_⟩, ?_, hnv, hw⟩
  · rw [hbuf, List.map_append, List.flatten_append]
    simp
  · simp [hlen]
  · intro r hr
    rcases List.mem_append.mp hr with h | h
    · exact hp.1 r h
    · simp at h
      rw [h, hv]
  · intro r hr
    rcases List.mem_append.mp hr with h | h
    · exact hp.2 r h
    · simp at h
      rw [h]
      exact hb
  · rw [List.nodup_append]
    exact ⟨hnd, List.nodup_singleton key, by simpa using hk⟩

/-- `GWF` is preserved when an existing key's row is rewritten in place. -/
theorem gwf_set (g : FDDIndexGeneral K) (rows : List (List Nat))
    (hg : GWF g rows) (key : K) (val : List Nat)
    (hv : val.length = g.num_vals)
    (hb : ∀ v ∈ val, v < 256 ^ g.byte_width) :
    GWF ({ g with buffer :=
        ((rows.set (g.slot key) val).map (packRow g.byte_width)).flatten } :
      FDDIndexGeneral K) (rows.set (g.slot key) val) := by
  obtain ⟨hbuf, hlen, hp, hnd, hnv, hw⟩ := hg
  refine ⟨rfl, by simpa using hlen, ⟨?_, ?_⟩, hnd, hnv, hw⟩
  · intro r hr
    rcases List.mem_or_eq_of_mem_set hr with h | h
    · exact hp.1 r h
    · rw [h, hv]
  · intro r hr
    rcases List.mem_or_eq_of_mem_set hr with h | h
    · exact hp.2 r h
    · rw [h]
      exact hb

/-- The appended-key form of `setK`, with its effect on every lookup. -/
theorem setK_new_spec (g : FDDIndexGeneral K) (rows : List (List Nat))
    (hg : GWF g rows) (key : K) (val : List Nat)
    (hk : key ∉ g.index) (hv : val.length = g.num_vals)
    (hb : ∀ v ∈ val, v < 256 ^ g.byte_width) :
    ∃ g', g.setK key val = .ok g' ∧ GWF g' (rows ++ [val]) ∧
      g'.index = g.index ++ [key] ∧
      g'.num_vals = g.num_vals ∧ g'.byte_width = g.byte_width ∧
      g'.lookupVals key = some val ∧
      ∀ k', k' ∈ g.index → g'.lookupVals k' = g.lookupVals k' := by
  refine ⟨_, setK_new_ok g key val hk hv hb, gwf_append g rows hg key val hk hv hb,
    rfl, rfl, rfl, ?_, ?_⟩
  · set g' : FDDIndexGeneral K :=
      ⟨g.index ++ [key], g.buffer ++ packRow g.byte_width val, g.num_vals, g.byte_width⟩
      with hg'
    have hmem : key ∈ g'.index := by
      rw [hg']
      simp
    rw [gwf_lookup g' (rows ++ [val]) (gwf_append g rows hg key val hk hv hb) key hmem]
    have hslot : g'.slot key = rows.length := by
      rw [hg']
      show (g.index ++ [key]).findIdx _ = rows.length
      rw [slot_append_new g key hk, hg.2.1]
    rw [hslot, List.getD_append_right _ _ _ _ (le_refl _), Nat.sub_self]
    rfl
  · intro k' hk'
    set g' : FDDIndexGeneral K :=
      ⟨g.index ++ [key], g.buffer ++ packRow g.byte_width val, g.num_vals, g.byte_width⟩
      with hg'
    have hmem : k' ∈ g'.index := by
      rw [hg']
      exact List.mem_append_left _ hk'
    rw [gwf_lookup g' (rows ++ [val]) (gwf_append g rows hg key val hk hv hb) k' hmem,
      gwf_lookup g rows hg k' hk']
    have hslot : g'.slot k' = g.slot k' := by
      rw [hg']
      exact slot_append_mem g k' hk' [key]
    rw [hslot, List.getD_append _ _ _ _ (hg.2.1 ▸ slot_lt g k' hk')]

/-- The rewrite-in-place form of `setK`, with its effect on every lookup. -/
theorem setK_mem_spec (g : FDDIndexGeneral K) (rows : List (List Nat))
    (hg : GWF g rows) (key : K) (val : List Nat)
    (hk : key ∈ g.index) (hv : val.length = g.num_vals)
    (hb : ∀ v ∈ val, v < 256 ^ g.byte_width) :
    ∃ g', g.setK key val = .ok g' ∧ GWF g' (rows.set (g.slot key) val) ∧
      g'.index = g.index ∧
      g'.num_vals = g.num_vals ∧ g'.byte_width = g.byte_width ∧
      g'.lookupVals key = some val ∧
      ∀ k', k' ∈ g.index → k' ≠ key → g'.lookupVals k' = g.lookupVals k' := by
  have hgset := gwf_set g rows hg key val hv hb
  refine ⟨_, setK_mem_ok g rows hg key val hk hv hb, hgset, rfl, rfl, rfl, ?_, ?_⟩
  · set g' : FDDIndexGeneral K :=
      { g with buffer := ((rows.set (g.slot key) val).map (packRow g.byte_width)).flatten }
      with hg'
    have hmem : key ∈ g'.index := hk
    rw [gwf_lookup g' _ hgset key hmem]
    have hslot : g'.slot key = g.slot key := rfl
    have hlt : g.slot key < rows.length := hg.2.1 ▸ slot_lt g key hk
    rw [hslot, List.getD_eq_getElem?_getD, List.getElem?_set,
      if_pos rfl, if_pos hlt]
    rfl
  · intro k' hk' hne
    set g' : FDDIndexGeneral K :=
      { g with buffer := ((rows.set (g.slot key) val).map (packRow g.byte_width)).flatten }
      with hg'
    rw [gwf_lookup g' _ hgset k' hk', gwf_lookup g rows hg k' hk']
    have hslot : g'.slot k' = g.slot k' := rfl
    rw [hslot, List.getD_eq_getElem?_getD,
      List.getElem?_set_ne (slot_ne_of_ne g key k' hk hk' (Ne.symm hne)),
      ← List.getD_eq_getElem?_getD]

/-- Replaying a duplicate-free item list on a well-formed general index:
every replayed key ends at its replayed value, untouched keys keep their
value, and the key set is the union. -/
theorem foldItems_spec (its : List (K × List Nat)) :
    ∀ (g : FDDIndexGeneral K) (rows : List (List Nat)), GWF g rows →
    (∀ p ∈ its, p.2.length = g.num_vals) →
    (∀ p ∈ its, ∀ v ∈ p.2, v < 256 ^ g.byte_width) →
    (its.map Prod.fst).Nodup →
    ∃ g', foldItems (some g) its = some g' ∧
      (∃ rows', GWF g' rows') ∧
      g'.num_vals = g.num_vals ∧ g'.byte_width = g.byte_width ∧
      (∀ k, k ∈ g'.index ↔ k ∈ g.index ∨ k ∈ its.map Prod.fst) ∧
      (∀ k v, (k, v) ∈ its → g'.lookupVals k = some v) ∧
      (∀ k, k ∉ its.map Prod.fst → k ∈ g.index → g'.lookupVals k = g.lookupVals k) := by
  induction its with
  | nil =>
    intro g rows hg _ _ _
    exact ⟨g, rfl, ⟨rows, hg⟩, rfl, rfl,
      fun k => by simp, fun k v h => by simp at h, fun k _ _ => rfl⟩
  | cons p rest ih =>
    intro g rows hg hlen hbd hnd
    obtain ⟨k, v⟩ := p
    have hvlen : v.length = g.num_vals := hlen (k, v) (by simp)
    have hvbd : ∀ x ∈ v, x < 256 ^ g.byte_width := hbd (k, v) (by simp)
    have hknd : k ∉ rest.map Prod.fst := by
      have := hnd
      rw [List.map_cons, List.nodup_cons] at this
      exact this.1
    have hndrest : (rest.map Prod.fst).Nodup := by
      have := hnd
      rw [List.map_cons, List.nodup_cons] at this
      exact this.2
    by_cases hk : k ∈ g.index
    · obtain ⟨g1, hset, hg1, hidx1, hnv1, hw1, hlook1, hpres1⟩ :=
        setK_mem_spec g rows hg k v hk hvlen hvbd
      have hstep : foldItems (some g) ((k, v) :: rest) = foldItems (some g1) rest := by
        unfold foldItems
        rw [List.foldl_cons]
        congr 1
        show (some g).bind (fun g => setKOpt g k v) = some g1
        simp [setKOpt, hset]
      obtain ⟨g', hfold, hrows', hnv', hw', hmem', hlook', hpres'⟩ :=
        ih g1 _ hg1 (fun q hq => hnv1 ▸ hlen q (List.mem_cons_of_mem _ hq))
          (fun q hq => hw1 ▸ hbd q (List.mem_cons_of_mem _ hq)) hndrest
      refine ⟨g', by rw [hstep]; exact hfold, hrows', by rw [hnv', hnv1],
        by rw [hw', hw1], ?_, ?_, ?_⟩
      · intro k0
        rw [hmem' k0, hidx1, List.map_cons]
        constructor
        · rintro (h | h)
          · exact Or.inl h
          · exact Or.inr (List.mem_cons_of_mem _ h)
        · rintro (h | h)
          · exact Or.inl h
          · rcases List.mem_cons.mp h with h | h
            · rw [h]; exact Or.inl hk
            · exact Or.inr h
      · intro k0 v0 h0
        rcases List.mem_cons.mp h0 with h0 | h0
        · injection h0 with h0a h0b
          rw [h0a, h0b, hpres' k hknd (hidx1 ▸ hk)]
          exact hlook1
        · exact hlook' k0 v0 h0
      · intro k0 hk0 hk0g
        have hk0rest : k0 ∉ rest.map Prod.fst := by
          intro h
          exact hk0 (List.mem_cons_of_mem _ h)
        have hk0ne : k0 ≠ k := by
          intro h
          apply hk0
          rw [h, List.map_cons]
          exact List.mem_cons_self _ _
        rw [hpres' k0 hk0rest (hidx1 ▸ hk0g), hpres1 k0 hk0g hk0ne]
    · obtain ⟨g1, hset, hg1, hidx1, hnv1, hw1, hlook1, hpres1⟩ :=
        setK_new_spec g rows hg k v hk hvlen hvbd
      have hstep : foldItems (some g) ((k, v) :: rest) = foldItems (some g1) rest := by
        unfold foldItems
        rw [List.foldl_cons]
        congr 1
        show (some g).bind (fun g => setKOpt g k v) = some g1
        simp [setKOpt, hset]
      obtain ⟨g', hfold, hrows', hnv', hw', hmem', hlook', hpres'⟩ :=
        ih g1 _ hg1 (fun q hq => hnv1 ▸ hlen q (List.mem_cons_of_mem _ hq))
          (fun q hq => hw1 ▸ hbd q (List.mem_cons_of_mem _ hq)) hndrest
      refine ⟨g', by rw [hstep]; exact hfold, hrows', by rw [hnv', hnv1],
        by rw [hw', hw1], ?_, ?_, ?_⟩
      · intro k0
        rw [hmem' k0, hidx1, List.map_cons, List.mem_append]
        constructor
        · rintro ((h | h) | h)
          · exact Or.inl h
          · simp at h
            exact Or.inr (h ▸ List.mem_cons_self _ _)
          · exact Or.inr (List.mem_cons_of_mem _ h)
        · rintro (h | h)
          · exact Or.inl (Or.inl h)
          · rcases List.mem_cons.mp h with h | h
            · rw [h]
              exact Or.inl (Or.inr (by simp))
            · exact Or.inr h
      · intro k0 v0 h0
        rcases List.mem_cons.mp h0 with h0 | h0
        · injection h0 with h0a h0b
          have hkmem : k ∈ g1.index := by
            rw [hidx1]
            simp
          rw [h0a, h0b, hpres' k hknd hkmem]
          exact hlook1
        · exact hlook' k0 v0 h0
      · intro k0 hk0 hk0g
        have hk0rest : k0 ∉ rest.map Prod.fst := by
          intro h
          exact hk0 (List.mem_cons_of_mem _ h)
        have hk0mem : k0 ∈ g1.index := by
          rw [hidx1]
          exact List.mem_append_left _ hk0g
        rw [hpres' k0 hk0rest hk0mem, hpres1 k0 hk0g]

/-- The `A+B` law for two general-index splits. -/
theorem unionGeneral_pair (A B : FDDIndexGeneral K) (rowsA rowsB : List (List Nat))
    (hA : GWF A rowsA) (hB : GWF B rowsB)
    (hnv : B.num_vals = A.num_vals) (hw : B.byte_width = A.byte_width) :
    ∃ U, unionGeneral [A, B] = some U ∧
      (∀ k, k ∈ U.index ↔ k ∈ A.index ∨ k ∈ B.index) ∧
      (∀ k, k ∈ B.index → U.lookupVals k = B.lookupVals k) ∧
      (∀ k, k ∈ A.index → k ∉ B.index → U.lookupVals k = A.lookupVals k) := by
  have hzip : B.index.zip B.valuesList = B.index.zip rowsB := by
    rw [gwf_valuesList B rowsB hB]
  have hlen : B.index.length = rowsB.length := hB.2.1
  have hfst : (B.index.zip rowsB).map Prod.fst = B.index :=
    List.map_fst_zip _ _ (le_of_eq hlen)
  obtain ⟨U, hfold, _, _, _, hmem, hlook, hpres⟩ :=
    foldItems_spec (B.index.zip rowsB) A rowsA hA
      (fun p hp => by
        have := (List.of_mem_zip hp).2
        rw [(hB.2.2.1).1 _ this, hnv])
      (fun p hp v hv => by
        have := (List.of_mem_zip hp).2
        have := (hB.2.2.1).2 _ this v hv
        rw [hw] at this
        exact this)
      (by rw [hfst]; exact hB.2.2.2.1)
  have hun : unionGeneral [A, B] = foldItems (some A) (B.index.zip rowsB) := by
    show List.foldl (fun og s => foldItems og (s.index.zip s.valuesList))
      (some A) [B] = foldItems (some A) (B.index.zip rowsB)
    rw [List.foldl_cons, List.foldl_nil, hzip]
  refine ⟨U, by rw [hun]; exact hfold, ?_, ?_, ?_⟩
  · intro k
    rw [hmem k, hfst]
  · intro k hk
    have hklt : B.slot k < B.index.length := slot_lt B k hk
    have hpair : (k, rowsB.getD (B.slot k) []) ∈ B.index.zip rowsB := by
      have hzlen : B.slot k < (B.index.zip rowsB).length := by
        rw [List.length_zip]
        omega
      have hget := @List.getElem_zip _ _ B.index rowsB (B.slot k) hzlen
      have hk1 : B.index[B.slot k] = k := by
        have := index_slot_self B k hk
        rw [List.getD_eq_getElem _ _ hklt] at this
        exact this
      have hk2 : rowsB[B.slot k] = rowsB.getD (B.slot k) [] := by
        rw [List.getD_eq_getElem _ _ (by omega : B.slot k < rowsB.length)]
      have := List.getElem_mem hzlen
      rw [hget, hk1, hk2] at this
      exact this
    rw [hlook k _ hpair, gwf_lookup B rowsB hB k hk]
  · intro k hkA hkB
    rw [hpres k (by rw [hfst]; exact hkB) hkA]

/-- The `A+A` law for a general-index split: the key set is unchanged and
every key keeps its value. -/
theorem unionGeneral_self (A A2 : FDDIndexGeneral K) (rowsA : List (List Nat))
    (hA : GWF A rowsA) (hA2 : GWF A2 rowsA)
    (hidx : A2.index = A.index) (hnv : A2.num_vals = A.num_vals)
    (hw : A2.byte_width = A.byte_width) :
    ∃ U, unionGeneral [A, A2] = some U ∧
      (∀ k, k ∈ U.index ↔ k ∈ A.index) ∧
      (∀ k, k ∈ A.index → U.lookupVals k = A.lookupVals k) := by
  obtain ⟨U, hfold, hmem, hlookB, _⟩ :=
    unionGeneral_pair A A2 rowsA rowsA hA hA2 hnv hw
  refine ⟨U, hfold, ?_, ?_⟩
  · intro k
    rw [hmem k, hidx]
    exact ⟨fun h => h.elim id id, fun h => Or.inl h⟩
  · intro k hk
    rw [hlookB k (hidx ▸ hk), gwf_lookup A2 rowsA hA2 k (hidx ▸ hk),
      gwf_lookup A rowsA hA k hk]
    have : A2.slot k = A.slot k := by
      unfold FDDIndexGeneral.slot
      rw [hidx]
    rw [this]

end GeneralIndex

/-! ## Lemmas: the keyless index -/

theorem kwf_size (k : FDDIndexKeyless) (rows : List (List Nat)) (hk : KWF k rows) :
    k.size = rows.length := by
  obtain ⟨hbuf, hp, hnv, hw⟩ := hk
  unfold FDDIndexKeyless.size
  rw [hbuf, flatten_pack_length _ _ _ hp.1]
  exact Nat.mul_div_cancel _ (Nat.mul_pos hnv hw)

theorem kwf_entry (k : FDDIndexKeyless) (rows : List (List Nat)) (hk : KWF k rows)
    (i : Nat) (hi : i < rows.length) : k.entry i = rows.getD i [] := by
  obtain ⟨hbuf, hp, _, _⟩ := hk
  show FDDIntList.toList _ = _
  have := packed_extract k.num_vals k.byte_width rows hp i hi
  rw [← this, getSlot, hbuf]

theorem kwf_valuesList (k : FDDIndexKeyless) (rows : List (List Nat)) (hk : KWF k rows) :
    k.valuesList = rows := by
  unfold FDDIndexKeyless.valuesList
  rw [kwf_size k rows hk]
  have h1 : ∀ i ∈ List.range rows.length, k.entry i = rows.getD i [] := by
    intro i hi
    exact kwf_entry k rows hk i (List.mem_range.mp hi)
  rw [List.map_congr_left h1, range_map_getD]

theorem setIdx_append_spec (k : FDDIndexKeyless) (rows : List (List Nat))
    (hk : KWF k rows) (val : List Nat) (hv : val.length = k.num_vals)
    (hb : ∀ v ∈ val, v < 256 ^ k.byte_width) :
    k.setIdx rows.length val =
      .ok ⟨k.buffer ++ packRow k.byte_width val, k.num_vals, k.byte_width⟩ ∧
    KWF ⟨k.buffer ++ packRow k.byte_width val, k.num_vals, k.byte_width⟩
      (rows ++ [val]) := by
  obtain ⟨hbuf, hp, hnv, hw⟩ := hk
  constructor
  · unfold FDDIndexKeyless.setIdx
    rw [if_pos (kwf_size k rows ⟨hbuf, hp, hnv, hw⟩).symm, extendLE_ok _ _ _ hb]
  · refine ⟨?_, ⟨?_, ?_⟩, hnv, hw⟩
    · rw [hbuf, List.map_append, List.flatten_append]
      simp
    · intro r hr
      rcases List.mem_append.mp hr with h | h
      · exact hp.1 r h
      · simp at h
        rw [h, hv]
    · intro r hr
      rcases List.mem_append.mp hr with h | h
      · exact hp.2 r h
      · simp at h
        rw [h]
        exact hb

/-- Filling an empty keyless index with enumerated rows. -/
theorem fillKeyless_fold (todo : List (List Nat)) :
    ∀ (k : FDDIndexKeyless) (done : List (List Nat)), KWF k done →
    (∀ r ∈ todo, r.length = k.num_vals) →
    (∀ r ∈ todo, ∀ v ∈ r, v < 256 ^ k.byte_width) →
    ∃ k', (List.enumFrom done.length todo).foldl
        (fun ok p => ok.bind fun kk =>
          match kk.setIdx p.1 p.2 with
          | .ok k' => some k'
          | .error _ => none)
        (some k) = some k' ∧ KWF k' (done ++ todo) := by
  induction todo with
  | nil =>
    intro k done hk _ _
    exact ⟨k, rfl, by simpa using hk⟩
  | cons r todo' ih =>
    intro k done hk hlen hbd
    have hset := setIdx_append_spec k done hk r (hlen r (by simp))
      (hbd r (by simp))
    rw [List.enumFrom_cons, List.foldl_cons]
    have hstep : (some k).bind (fun kk =>
        match kk.setIdx done.length r with
        | .ok k' => some k'
        | .error _ => none) =
        some ⟨k.buffer ++ packRow k.byte_width r, k.num_vals, k.byte_width⟩ := by
      simp [hset.1]
    rw [hstep]
    obtain ⟨k', hfold, hkwf⟩ := ih
      ⟨k.buffer ++ packRow k.byte_width r, k.num_vals, k.byte_width⟩ (done ++ [r])
      hset.2 (fun x hx => hlen x (List.mem_cons_of_mem _ hx))
      (fun x hx => hbd x (List.mem_cons_of_mem _ hx))
    refine ⟨k', ?_, by simpa [List.append_assoc] using hkwf⟩
    have he : (done ++ [r]).length = done.length + 1 := by simp
    rw [he] at hfold
    exact hfold

theorem fillKeyless_spec (rows : List (List Nat)) (nv w : Nat)
    (hnv : 0 < nv) (hw : 0 < w)
    (hlen : ∀ r ∈ rows, r.length = nv)
    (hbd : ∀ r ∈ rows, ∀ v ∈ r, v < 256 ^ w) :
    ∃ k', fillKeyless ⟨[], nv, w⟩ rows = some k' ∧ KWF k' rows := by
  have hk0 : KWF ⟨[], nv, w⟩ [] := by
    refine ⟨by simp, ⟨by simp, by simp⟩, hnv, hw⟩
  obtain ⟨k', hfold, hkwf⟩ := fillKeyless_fold rows ⟨[], nv, w⟩ [] hk0 hlen hbd
  refine ⟨k', ?_, by simpa using hkwf⟩
  unfold fillKeyless
  rw [show List.enum rows = List.enumFrom 0 rows from rfl] at *
  simpa using hfold

/-! ## Lemmas: first-occurrence deduplication -/

theorem dedupe_fold_spec (ts : List (List Nat)) :
    ∀ acc : List (List Nat), acc.Nodup →
    (ts.foldl (fun a t => if t ∈ a then a else a ++ [t]) acc).Nodup ∧
    (∀ x, x ∈ ts.foldl (fun a t => if t ∈ a then a else a ++ [t]) acc ↔
      x ∈ acc ∨ x ∈ ts) := by
  induction ts with
  | nil =>
    intro acc hacc
    exact ⟨hacc, fun x => by simp⟩
  | cons t ts' ih =>
    intro acc hacc
    rw [List.foldl_cons]
    by_cases ht : t ∈ acc
    · rw [if_pos ht]
      obtain ⟨h1, h2⟩ := ih acc hacc
      refine ⟨h1, fun x => ?_⟩
      rw [h2 x]
      constructor
      · rintro (h | h)
        · exact Or.inl h
        · exact Or.inr (List.mem_cons_of_mem _ h)
      · rintro (h | h)
        · exact Or.inl h
        · rcases List.mem_cons.mp h with h | h
          · rw [h]; exact Or.inl ht
          · exact Or.inr h
    · rw [if_neg ht]
      have hacc' : (acc ++ [t]).Nodup := by
        rw [List.nodup_append]
        exact ⟨hacc, List.nodup_singleton t, by simpa using ht⟩
      obtain ⟨h1, h2⟩ := ih (acc ++ [t]) hacc'
      refine ⟨h1, fun x => ?_⟩
      rw [h2 x, List.mem_append]
      constructor
      · rintro ((h | h) | h)
        · exact Or.inl h
        · simp at h
          exact Or.inr (h ▸ List.mem_cons_self _ _)
        · exact Or.inr (List.mem_cons_of_mem _ h)
      · rintro (h | h)
        · exact Or.inl (Or.inl h)
        · rcases List.mem_cons.mp h with h | h
          · rw [h]
            exact Or.inl (Or.inr (by simp))
          · exact Or.inr h

theorem dedupeRows_nodup (ts : List (List Nat)) : (dedupeRows ts).Nodup :=
  (dedupe_fold_spec ts [] (List.nodup_nil)).1

theorem mem_dedupeRows (ts : List (List Nat)) (x : List Nat) :
    x ∈ dedupeRows ts ↔ x ∈ ts := by
  rw [dedupeRows, (dedupe_fold_spec ts [] (List.nodup_nil)).2 x]
  simp

/-- The keyless branch of the `+` operator: the result holds each distinct
offset tuple of the operands exactly once, re-keyed `0 .. N-1`. -/
theorem unionKeyless_pair (A B : FDDIndexKeyless) (rowsA rowsB : List (List Nat))
    (hA : KWF A rowsA) (hB : KWF B rowsB)
    (hnv : B.num_vals = A.num_vals) (hw : B.byte_width = A.byte_width) :
    ∃ U, unionKeyless [A, B] = some U ∧
      U.valuesList = dedupeRows (rowsA ++ rowsB) ∧
      U.keysList = List.range (dedupeRows (rowsA ++ rowsB)).length ∧
      (dedupeRows (rowsA ++ rowsB)).Nodup ∧
      (∀ t, t ∈ U.valuesList ↔ t ∈ rowsA ∨ t ∈ rowsB) := by
  have hvals : [A, B].foldl (fun a s => a ++ s.valuesList) [] = rowsA ++ rowsB := by
    rw [List.foldl_cons, List.foldl_cons, List.foldl_nil,
      kwf_valuesList A rowsA hA, kwf_valuesList B rowsB hB, List.nil_append]
  have hdl : ∀ r ∈ dedupeRows (rowsA ++ rowsB), r.length = A.num_vals := by
    intro r hr
    rcases List.mem_append.mp ((mem_dedupeRows _ r).mp hr) with h | h
    · exact hA.2.1.1 r h
    · rw [hB.2.1.1 r h, hnv]
  have hdb : ∀ r ∈ dedupeRows (rowsA ++ rowsB), ∀ v ∈ r, v < 256 ^ A.byte_width := by
    intro r hr v hv
    rcases List.mem_append.mp ((mem_dedupeRows _ r).mp hr) with h | h
    · exact hA.2.1.2 r h v hv
    · have := hB.2.1.2 r h v hv
      rw [hw] at this
      exact this
  obtain ⟨U, hfill, hUk⟩ := fillKeyless_spec (dedupeRows (rowsA ++ rowsB))
    A.num_vals A.byte_width hA.2.2.1 hA.2.2.2 hdl hdb
  have hU : unionKeyless [A, B] = some U := by
    show fillKeyless ⟨[], A.num_vals, A.byte_width⟩ _ = some U
    rw [hvals]
    exact hfill
  refine ⟨U, hU, kwf_valuesList U _ hUk, ?_, dedupeRows_nodup _, ?_⟩
  · show List.range U.size = _
    rw [kwf_size U _ hUk]
  · intro t
    rw [kwf_valuesList U _ hUk, mem_dedupeRows, List.mem_append]

/-! ## Lemmas: association lists (Python dicts) -/

section AList

variable {K : Type} [DecidableEq K] {α : Type}

theorem alookup_append_right (d e : List (K × α)) (k : K) (h : k ∉ d.map Prod.fst) :
    alookup (d ++ e) k = alookup e k := by
  induction d with
  | nil => rfl
  | cons p t ih =>
    rw [List.cons_append]
    show (if p.1 = k then some p.2 else alookup (t ++ e) k) = _
    rw [if_neg (fun he => h (by rw [List.map_cons, he]; exact List.mem_cons_self _ _)),
      ih (fun ht => h (List.mem_cons_of_mem _ ht))]

theorem alookup_mapAssign_self (d : List (K × α)) (k : K) (v : α)
    (hk : k ∈ d.map Prod.fst) :
    alookup (d.map fun p => if p.1 = k then (k, v) else p) k = some v := by
  induction d with
  | nil => simp at hk
  | cons p t ih =>
    rw [List.map_cons]
    by_cases hp : p.1 = k
    · rw [if_pos hp]
      show (if k = k then some v else _) = some v
      rw [if_pos rfl]
    · rw [if_neg hp]
      show (if p.1 = k then some p.2 else _) = some v
      rw [if_neg hp]
      apply ih
      rcases List.mem_cons.mp hk with h | h
      · exact absurd h.symm hp
      · exact h

theorem alookup_mapAssign_ne (d : List (K × α)) (k k' : K) (v : α) (h : k' ≠ k) :
    alookup (d.map fun p => if p.1 = k then (k, v) else p) k' = alookup d k' := by
  induction d with
  | nil => rfl
  | cons p t ih =>
    rw [List.map_cons]
    by_cases hp : p.1 = k
    · rw [if_pos hp]
      show (if k = k' then _ else _) = (if p.1 = k' then some p.2 else _)
      rw [if_neg (fun he => h he.symm),
        if_neg (fun he : p.1 = k' => h (by rw [← he, hp]))]
      exact ih
    · rw [if_neg hp]
      show (if p.1 = k' then some p.2 else _) = (if p.1 = k' then some p.2 else _)
      by_cases hp' : p.1 = k'
      · rw [if_pos hp', if_pos hp']
      · rw [if_neg hp', if_neg hp']
        exact ih

theorem alookup_dictAssign_self (d : List (K × α)) (k : K) (v : α) :
    alookup (dictAssign d k v) k = some v := by
  unfold dictAssign
  by_cases hk : k ∈ d.map Prod.fst
  · rw [if_pos hk]
    exact alookup_mapAssign_self d k v hk
  · rw [if_neg hk, alookup_append_right d _ k hk]
    show (if k = k then some v else none) = some v
    rw [if_pos rfl]

theorem alookup_dictAssign_ne (d : List (K × α)) (k k' : K) (v : α) (h : k' ≠ k) :
    alookup (dictAssign d k v) k' = alookup d k' := by
  unfold dictAssign
  by_cases hk : k ∈ d.map Prod.fst
  · rw [if_pos hk]
    exact alookup_mapAssign_ne d k k' v h
  · rw [if_neg hk]
    induction d with
    | nil =>
      show (if k = k' then _ else _) = _
      rw [if_neg (fun he => h he.symm)]
    | cons p t ih =>
      rw [List.cons_append]
      show (if p.1 = k' then some p.2 else _) = (if p.1 = k' then some p.2 else _)
      by_cases hp' : p.1 = k'
      · rw [if_pos hp', if_pos hp']
      · rw [if_neg hp', if_neg hp']
        exact ih (fun ht => hk (List.mem_cons_of_mem _ ht))

theorem map_fst_dictAssign (d : List (K × α)) (k : K) (v : α) (k' : K) :
    k' ∈ (dictAssign d k v).map Prod.fst ↔ k' ∈ d.map Prod.fst ∨ k' = k := by
  unfold dictAssign
  by_cases hk : k ∈ d.map Prod.fst
  · rw [if_pos hk, List.map_map]
    constructor
    · intro h
      obtain ⟨p, hp, he⟩ := List.mem_map.mp h
      by_cases hpk : p.1 = k
      · simp only [Function.comp_apply, if_pos hpk] at he
        exact Or.inr he.symm
      · simp only [Function.comp_apply, if_neg hpk] at he
        exact Or.inl (he ▸ List.mem_map_of_mem Prod.fst hp)
    · rintro (h | h)
      · obtain ⟨p, hp, he⟩ := List.mem_map.mp h
        apply List.mem_map.mpr
        refine ⟨p, hp, ?_⟩
        by_cases hpk : p.1 = k
        · simp only [Function.comp_apply, if_pos hpk]
          rw [← he, hpk]
        · simp only [Function.comp_apply, if_neg hpk]
          exact he
      · obtain ⟨p, hp, he⟩ := List.mem_map.mp hk
        apply List.mem_map.mpr
        refine ⟨p, hp, ?_⟩
        simp only [Function.comp_apply, if_pos he]
        exact h.symm ▸ rfl
  · rw [if_neg hk, List.map_append]
    rw [List.mem_append]
    simp

theorem nodup_fst_dictAssign (d : List (K × α)) (k : K) (v : α)
    (hd : (d.map Prod.fst).Nodup) :
    ((dictAssign d k v).map Prod.fst).Nodup := by
  unfold dictAssign
  by_cases hk : k ∈ d.map Prod.fst
  · rw [if_pos hk, List.map_map]
    have : (d.map fun p => ((if p.1 = k then (k, v) else p) : K × α).1) = d.map Prod.fst := by
      apply List.map_congr_left
      intro p _
      by_cases hpk : p.1 = k
      · rw [if_pos hpk, hpk]
      · rw [if_neg hpk]
    rw [show (List.map (Prod.fst ∘ fun p => if p.1 = k then (k, v) else p) d) =
      (d.map fun p => ((if p.1 = k then (k, v) else p) : K × α).1) from rfl, this]
    exact hd
  · rw [if_neg hk, List.map_append, List.nodup_append]
    exact ⟨hd, List.nodup_singleton k, by simpa using hk⟩

/-- Folding Python dict assignments from an item list with distinct keys. -/
theorem dictAssign_fold_spec (its : List (K × α)) :
    ∀ d : List (K × α), (d.map Prod.fst).Nodup → (its.map Prod.fst).Nodup →
    ((its.foldl (fun d kv => dictAssign d kv.1 kv.2) d).map Prod.fst).Nodup ∧
    (∀ k, k ∈ (its.foldl (fun d kv => dictAssign d kv.1 kv.2) d).map Prod.fst ↔
      k ∈ d.map Prod.fst ∨ k ∈ its.map Prod.fst) ∧
    (∀ k v, (k, v) ∈ its →
      alookup (its.foldl (fun d kv => dictAssign d kv.1 kv.2) d) k = some v) ∧
    (∀ k, k ∉ its.map Prod.fst →
      alookup (its.foldl (fun d kv => dictAssign d kv.1 kv.2) d) k = alookup d k) := by
  induction its with
  | nil =>
    intro d hd _
    exact ⟨hd, fun k => by simp, fun k v h => by simp at h, fun k _ => rfl⟩
  | cons p its' ih =>
    intro d hd hnd
    obtain ⟨k, v⟩ := p
    rw [List.map_cons, List.nodup_cons] at hnd
    rw [List.foldl_cons]
    obtain ⟨h1, h2, h3, h4⟩ := ih (dictAssign d k v) (nodup_fst_dictAssign d k v hd) hnd.2
    refine ⟨h1, ?_, ?_, ?_⟩
    · intro k0
      rw [h2 k0, map_fst_dictAssign, List.map_cons]
      constructor
      · rintro ((h | h) | h)
        · exact Or.inl h
        · exact Or.inr (h ▸ List.mem_cons_self _ _)
        · exact Or.inr (List.mem_cons_of_mem _ h)
      · rintro (h | h)
        · exact Or.inl (Or.inl h)
        · rcases List.mem_cons.mp h with h | h
          · exact Or.inl (Or.inr h)
          · exact Or.inr h
    · intro k0 v0 h0
      rcases List.mem_cons.mp h0 with h0 | h0
      · injection h0 with h0a h0b
        rw [h0a, h0b, h4 k hnd.1, alookup_dictAssign_self]
      · exact h3 k0 v0 h0
    · intro k0 hk0
      have hk0' : k0 ∉ its'.map Prod.fst := fun h => hk0 (List.mem_cons_of_mem _ h)
      have hk0ne : k0 ≠ k := fun h => hk0 (by rw [List.map_cons, h]; exact List.mem_cons_self _ _)
      rw [h4 k0 hk0', alookup_dictAssign_ne d k k0 v hk0ne]

end AList

/-! ## Lemmas: the sorted-comparable index -/

section ComparableIndex

variable {K : Type} [DecidableEq K] [LinearOrder K]

theorem bisectLeft_mem (l : List K) (k : K) (hs : l.Sorted (· ≤ ·)) (hk : k ∈ l) :
    bisectLeft l k < l.length ∧ l.getD (bisectLeft l k) k = k := by
  induction l with
  | nil => simp at hk
  | cons a t ih =>
    rw [List.sorted_cons] at hs
    by_cases ha : a < k
    · have hne : k ≠ a := fun he => absurd (he ▸ ha) (lt_irrefl _)
      have hkt : k ∈ t := by
        rcases List.mem_cons.mp hk with h | h
        · exact absurd h hne
        · exact h
      obtain ⟨hlt, hget⟩ := ih hs.2 hkt
      have hb : bisectLeft (a :: t) k = bisectLeft t k + 1 := by
        unfold bisectLeft
        rw [List.findIdx_cons]
        have : (decide (¬ a < k)) = false := by
          simp [ha]
        rw [this, cond_false]
      refine ⟨by rw [hb, List.length_cons]; omega, ?_⟩
      rw [hb]
      show t.getD (bisectLeft t k) k = k
      exact hget
    · have hb : bisectLeft (a :: t) k = 0 := by
        unfold bisectLeft
        rw [List.findIdx_cons]
        have : (decide (¬ a < k)) = true := by
          simp [ha]
        rw [this, cond_true]
      have hak : a = k := by
        rcases List.mem_cons.mp hk with h | h
        · exact h.symm
        · exact le_antisymm (hs.1 k h) (not_lt.mp ha)
      refine ⟨by rw [hb]; simp, ?_⟩
      rw [hb]
      show a = k
      exact hak

theorem cwf_lookup (c : FDDIndexComparableKey K) (rows : List (List Nat))
    (hc : CWF c rows) (k : K) (hk : k ∈ c.skeys) :
    bisectLeft c.skeys k < c.skeys.length ∧
      c.lookupVals k = some (rows.getD (bisectLeft c.skeys k) []) := by
  obtain ⟨hbuf, hlen, hp, hnd, hsort, hnv, hw⟩ := hc
  obtain ⟨hlt, hget⟩ := bisectLeft_mem c.skeys k hsort hk
  have hget' : c.skeys.get ⟨bisectLeft c.skeys k, hlt⟩ = k := by
    rw [List.get_eq_getElem, ← List.getD_eq_getElem c.skeys k hlt]
    exact hget
  refine ⟨hlt, ?_⟩
  unfold FDDIndexComparableKey.lookupVals FDDIndexComparableKey.getC
  rw [dif_pos hlt, if_pos hget', Option.map_some']
  congr 1
  have := packed_extract c.num_vals c.byte_width rows hp (bisectLeft c.skeys k)
    (hlen ▸ hlt)
  rw [← this, getSlot, hbuf]

theorem cwf_valuesList (c : FDDIndexComparableKey K) (rows : List (List Nat))
    (hc : CWF c rows) : c.valuesList = rows := by
  obtain ⟨hbuf, hlen, hp, _, _, _, _⟩ := hc
  unfold FDDIndexComparableKey.valuesList
  rw [hlen]
  have h1 : ∀ i ∈ List.range rows.length,
      FDDIntList.toList ⟨c.num_vals, c.buffer, c.byte_width, i * c.num_vals * c.byte_width⟩ =
        rows.getD i [] := by
    intro i hi
    rw [List.mem_range] at hi
    rw [hbuf]
    exact packed_extract c.num_vals c.byte_width rows hp i hi
  rw [List.map_congr_left h1, range_map_getD]

theorem packDict_ok (w : Nat) (d : List (K × List Nat)) (ks : List K)
    (hb : ∀ k ∈ ks, ∀ v ∈ (alookup d k).getD [], v < 256 ^ w) :
    packDict w d ks =
      .ok ((ks.map fun k => packRow w ((alookup d k).getD [])).flatten) := by
  induction ks with
  | nil => rfl
  | cons k t ih =>
    unfold packDict
    rw [extendLE_ok _ _ _ (hb k (by simp)), ih (fun x hx => hb x (List.mem_cons_of_mem _ hx))]
    rw [List.map_cons, List.flatten_cons, List.nil_append]

theorem alookup_eq_some_of_mem_fst {α : Type} (d : List (K × α)) (k : K)
    (h : k ∈ d.map Prod.fst) : ∃ v, alookup d k = some v ∧ (k, v) ∈ d := by
  induction d with
  | nil => simp at h
  | cons p t ih =>
    by_cases hp : p.1 = k
    · refine ⟨p.2, ?_, ?_⟩
      · show (if p.1 = k then some p.2 else _) = _
        rw [if_pos hp]
      · rw [← hp]
        exact List.mem_cons_self _ _
    · rcases List.mem_cons.mp h with h1 | h1
      · exact absurd h1.symm hp
      · obtain ⟨v, hv, hmem⟩ := ih h1
        refine ⟨v, ?_, List.mem_cons_of_mem _ hmem⟩
        show (if p.1 = k then some p.2 else _) = _
        rw [if_neg hp]
        exact hv

theorem mem_fst_of_alookup {α : Type} (d : List (K × α)) (k : K) (v : α)
    (h : alookup d k = some v) : k ∈ d.map Prod.fst := by
  induction d with
  | nil => exact absurd h (by simp [alookup])
  | cons p t ih =>
    by_cases hp : p.1 = k
    · rw [List.map_cons, hp]
      exact List.mem_cons_self _ _
    · rw [List.map_cons]
      apply List.mem_cons_of_mem
      apply ih
      show alookup t k = some v
      rw [show alookup (p :: t) k = if p.1 = k then some p.2 else alookup t k from rfl,
        if_neg hp] at h
      exact h

/-- `FDDIndexComparableKey.__init__` on a non-empty dict with uniform row
shape: the keys come out sorted and the buffer packs the dict's rows in
sorted-key order. -/
theorem fromDict_spec (d : List (K × List Nat)) (w nv : Nat)
    (hw : 0 < w) (hnv : 0 < nv)
    (hne : d ≠ [])
    (hnd : (d.map Prod.fst).Nodup)
    (hlen : ∀ k ∈ d.map Prod.fst, ((alookup d k).getD []).length = nv)
    (hbd : ∀ k ∈ d.map Prod.fst, ∀ v ∈ (alookup d k).getD [], v < 256 ^ w) :
    ∃ c, FDDIndexComparableKey.fromDict d w = some c ∧
      c.skeys = List.insertionSort (· ≤ ·) (d.map Prod.fst) ∧
      c.num_vals = nv ∧ c.byte_width = w ∧
      CWF c (c.skeys.map fun k => (alookup d k).getD []) ∧
      ∀ k v, alookup d k = some v → c.lookupVals k = some v := by
  set ks := List.insertionSort (· ≤ ·) (d.map Prod.fst) with hks
  have hperm : ks.Perm (d.map Prod.fst) := List.perm_insertionSort _ _
  have hmemks : ∀ k, k ∈ ks ↔ k ∈ d.map Prod.fst := fun k => hperm.mem_iff
  have hvals : ∀ k ∈ ks, ((alookup d k).getD []).length = nv ∧
      ∀ v ∈ (alookup d k).getD [], v < 256 ^ w := by
    intro k hk
    exact ⟨hlen k ((hmemks k).mp hk), hbd k ((hmemks k).mp hk)⟩
  have hpack : packDict w d ks =
      .ok ((ks.map fun k => packRow w ((alookup d k).getD [])).flatten) :=
    packDict_ok w d ks (fun k hk => (hvals k hk).2)
  have hkne : ks ≠ [] := by
    intro h
    apply hne
    have := hperm.symm
    rw [h] at this
    rcases d with _ | ⟨p, t⟩
    · exact absurd rfl hne
    · rw [List.map_cons] at this
      exact absurd (this.mem_iff.mp (List.mem_cons_self _ _)) (by simp)
  obtain ⟨k0, kt, hks0⟩ : ∃ k0 kt, ks = k0 :: kt := by
    rcases ks with _ | ⟨a, t⟩
    · exact absurd rfl hkne
    · exact ⟨a, t, rfl⟩
  have hnv0 : ((alookup d k0).getD []).length = nv :=
    (hvals k0 (by rw [hks0]; exact List.mem_cons_self _ _)).1
  set c : FDDIndexComparableKey K :=
    ⟨ks, (ks.map fun k => packRow w ((alookup d k).getD [])).flatten,
      ((alookup d k0).getD []).length, w⟩ with hc
  have hsort_eq : List.insertionSort (· ≤ ·) (d.map Prod.fst) = k0 :: kt := by
    rw [← hks]
    exact hks0
  have hpack' : packDict w d (k0 :: kt) =
      .ok (((k0 :: kt).map fun k => packRow w ((alookup d k).getD [])).flatten) := by
    rw [← hks0]
    exact hpack
  have hfrom : FDDIndexComparableKey.fromDict d w = some c := by
    unfold FDDIndexComparableKey.fromDict
    simp only [hsort_eq, hpack']
    rw [hc, hks0]
  have hcwf : CWF c (c.skeys.map fun k => (alookup d k).getD []) := by
    refine ⟨?_, ?_, ⟨?_, ?_⟩, ?_, ?_, ?_, hw⟩
    · rw [hc, List.map_map]
      rfl
    · rw [hc]
      simp
    · intro r hr
      obtain ⟨k, hk, he⟩ := List.mem_map.mp hr
      rw [← he, hc]
      rw [hc] at hk
      rw [(hvals k hk).1, hnv0]
    · intro r hr v hv
      obtain ⟨k, hk, he⟩ := List.mem_map.mp hr
      rw [hc] at hk
      exact (hvals k hk).2 v (he ▸ hv)
    · exact hperm.symm.nodup hnd
    · exact List.sorted_insertionSort _ _
    · rw [hc, hnv0]
      exact hnv
  refine ⟨c, hfrom, rfl, by rw [hc, hnv0], rfl, hcwf, ?_⟩
  intro k v hkv
  have hkmem : k ∈ c.skeys := (hmemks k).mpr (mem_fst_of_alookup d k v hkv)
  obtain ⟨hlt, hlook⟩ := cwf_lookup c _ hcwf k hkmem
  rw [hlook]
  have hrows : (c.skeys.map fun k => (alookup d k).getD []).getD
      (bisectLeft c.skeys k) [] = (alookup d k).getD [] := by
    have hlt' : bisectLeft c.skeys k <
        (c.skeys.map fun k => (alookup d k).getD []).length := by
      rw [List.length_map]
      exact hlt
    rw [List.getD_eq_getElem _ _ hlt', List.getElem_map]
    obtain ⟨_, hget⟩ := bisectLeft_mem c.skeys k
      (by exact hcwf.2.2.2.2.1) hkmem
    rw [List.getD_eq_getElem _ _ hlt] at hget
    rw [hget]
  rw [hrows, hkv]
  rfl

theorem zip_pair_mem_at (l : List K) (r : List (List Nat)) (k : K) (i : Nat)
    (hi : i < l.length) (hik : l.getD i k = k) (hlen : l.length = r.length) :
    (k, r.getD i []) ∈ l.zip r := by
  have hzlen : i < (l.zip r).length := by
    rw [List.length_zip]
    omega
  have hget := @List.getElem_zip _ _ l r i hzlen
  have hk1 : l[i] = k := by
    rw [List.getD_eq_getElem _ _ hi] at hik
    exact hik
  have hk2 : r[i] = r.getD i [] := by
    rw [List.getD_eq_getElem _ _ (by omega : i < r.length)]
  have := List.getElem_mem hzlen
  rw [hget, hk1, hk2] at this
  exact this

theorem getD_mem_of_lt {α : Type} (l : List α) (i : Nat) (d : α) (hi : i < l.length) :
    l.getD i d ∈ l := by
  rw [List.getD_eq_getElem _ _ hi]
  exact List.getElem_mem hi

/-- The `A+B` law for two sorted-comparable splits (with the default
`byte_width = 6` the constructor re-packs with). -/
theorem unionComparable_pair (A B : FDDIndexComparableKey K)
    (rowsA rowsB : List (List Nat))
    (hA : CWF A rowsA) (hB : CWF B rowsB)
    (hnv : B.num_vals = A.num_vals)
    (hwA : A.byte_width = 6) (hwB : B.byte_width = 6)
    (hAne : A.skeys ≠ []) :
    ∃ U, unionComparable [A, B] = some U ∧
      (∀ k, k ∈ U.skeys ↔ k ∈ A.skeys ∨ k ∈ B.skeys) ∧
      U.skeys.Sorted (· ≤ ·) ∧
      (∀ k, k ∈ B.skeys → U.lookupVals k = B.lookupVals k) ∧
      (∀ k, k ∈ A.skeys → k ∉ B.skeys → U.lookupVals k = A.lookupVals k) := by
  have hlenA : A.skeys.length = rowsA.length := hA.2.1
  have hlenB : B.skeys.length = rowsB.length := hB.2.1
  have hfstA : (A.skeys.zip rowsA).map Prod.fst = A.skeys :=
    List.map_fst_zip _ _ (le_of_eq hlenA)
  have hfstB : (B.skeys.zip rowsB).map Prod.fst = B.skeys :=
    List.map_fst_zip _ _ (le_of_eq hlenB)
  obtain ⟨hndA, hmemA, hlookA, _⟩ :=
    dictAssign_fold_spec (A.skeys.zip rowsA) [] (by simp)
      (by rw [hfstA]; exact hA.2.2.2.1)
  set dA := (A.skeys.zip rowsA).foldl (fun d kv => dictAssign d kv.1 kv.2)
    ([] : List (K × List Nat)) with hdA
  obtain ⟨hndD, hmemD, hlookD, hpresD⟩ :=
    dictAssign_fold_spec (B.skeys.zip rowsB) dA hndA
      (by rw [hfstB]; exact hB.2.2.2.1)
  set dct := (B.skeys.zip rowsB).foldl (fun d kv => dictAssign d kv.1 kv.2) dA
    with hdct
  have hkeysD : ∀ k, k ∈ dct.map Prod.fst ↔ k ∈ A.skeys ∨ k ∈ B.skeys := by
    intro k
    rw [hmemD k, hmemA k, hfstA, hfstB]
    simp
  -- the value stored in dct for each key
  have hvalB : ∀ k ∈ B.skeys,
      alookup dct k = some (rowsB.getD (bisectLeft B.skeys k) []) := by
    intro k hk
    obtain ⟨hlt, _⟩ := bisectLeft_mem B.skeys k hB.2.2.2.2.1 hk
    obtain ⟨_, hgetD⟩ := bisectLeft_mem B.skeys k hB.2.2.2.2.1 hk
    exact hlookD k _ (zip_pair_mem_at B.skeys rowsB k _ hlt hgetD hlenB)
  have hvalA : ∀ k ∈ A.skeys, k ∉ B.skeys →
      alookup dct k = some (rowsA.getD (bisectLeft A.skeys k) []) := by
    intro k hk hkB
    obtain ⟨hlt, hgetD⟩ := bisectLeft_mem A.skeys k hA.2.2.2.2.1 hk
    rw [hpresD k (by rw [hfstB]; exact hkB)]
    exact hlookA k _ (zip_pair_mem_at A.skeys rowsA k _ hlt hgetD hlenA)
  have hvlen : ∀ k ∈ dct.map Prod.fst,
      ((alookup dct k).getD []).length = A.num_vals := by
    intro k hk
    rcases Classical.em (k ∈ B.skeys) with hkB | hkB
    · rw [hvalB k hkB]
      have hlt : bisectLeft B.skeys k < rowsB.length :=
        hlenB ▸ (bisectLeft_mem B.skeys k hB.2.2.2.2.1 hkB).1
      have hmem := getD_mem_of_lt rowsB _ ([] : List Nat) hlt
      rw [show ((some (rowsB.getD (bisectLeft B.skeys k) [])).getD []) =
        rowsB.getD (bisectLeft B.skeys k) [] from rfl]
      rw [hB.2.2.1.1 _ hmem, hnv]
    · have hkA : k ∈ A.skeys := by
        rcases (hkeysD k).mp hk with h | h
        · exact h
        · exact absurd h hkB
      rw [hvalA k hkA hkB]
      have hlt : bisectLeft A.skeys k < rowsA.length :=
        hlenA ▸ (bisectLeft_mem A.skeys k hA.2.2.2.2.1 hkA).1
      exact hA.2.2.1.1 _ (getD_mem_of_lt rowsA _ ([] : List Nat) hlt)
  have hvbd : ∀ k ∈ dct.map Prod.fst,
      ∀ v ∈ (alookup dct k).getD [], v < 256 ^ 6 := by
    intro k hk v hv
    rcases Classical.em (k ∈ B.skeys) with hkB | hkB
    · rw [hvalB k hkB] at hv
      have hlt : bisectLeft B.skeys k < rowsB.length :=
        hlenB ▸ (bisectLeft_mem B.skeys k hB.2.2.2.2.1 hkB).1
      have := hB.2.2.1.2 _ (getD_mem_of_lt rowsB _ ([] : List Nat) hlt) v hv
      rw [hwB] at this
      exact this
    · have hkA : k ∈ A.skeys := by
        rcases (hkeysD k).mp hk with h | h
        · exact h
        · exact absurd h hkB
      rw [hvalA k hkA hkB] at hv
      have hlt : bisectLeft A.skeys k < rowsA.length :=
        hlenA ▸ (bisectLeft_mem A.skeys k hA.2.2.2.2.1 hkA).1
      have := hA.2.2.1.2 _ (getD_mem_of_lt rowsA _ ([] : List Nat) hlt) v hv
      rw [hwA] at this
      exact this
  have hdne : dct ≠ [] := by
    intro h
    obtain ⟨k0, tk, hk0⟩ := List.exists_cons_of_ne_nil hAne
    have : k0 ∈ dct.map Prod.fst :=
      (hkeysD k0).mpr (Or.inl (by rw [hk0]; exact List.mem_cons_self _ _))
    rw [h] at this
    simp at this
  obtain ⟨U, hfrom, hUkeys, hUnv, hUw, hUcwf, hUlook⟩ :=
    fromDict_spec dct 6 A.num_vals (by norm_num) hA.2.2.2.2.2.1 hdne hndD
      hvlen hvbd
  have hun : unionComparable [A, B] = some U := by
    show FDDIndexComparableKey.fromDict
      ([A, B].foldl (fun d s =>
        (s.skeys.zip s.valuesList).foldl (fun d kv => dictAssign d kv.1 kv.2) d) []) 6 =
      some U
    rw [List.foldl_cons, List.foldl_cons, List.foldl_nil,
      cwf_valuesList A rowsA hA, cwf_valuesList B rowsB hB]
    exact hfrom
  have hUmem : ∀ k, k ∈ U.skeys ↔ k ∈ A.skeys ∨ k ∈ B.skeys := by
    intro k
    rw [hUkeys]
    rw [(List.perm_insertionSort (· ≤ ·) (dct.map Prod.fst)).mem_iff]
    exact hkeysD k
  refine ⟨U, hun, hUmem, hUkeys ▸ List.sorted_insertionSort _ _, ?_, ?_⟩
  · intro k hk
    rw [hUlook k _ (hvalB k hk), (cwf_lookup B rowsB hB k hk).2]
  · intro k hkA hkB
    rw [hUlook k _ (hvalA k hkA hkB), (cwf_lookup A rowsA hA k hkA).2]

end ComparableIndex

/-! ## Lemmas: the writer's cell loop -/

section WriterCells

variable {V : Type}

theorem posScan_length (pos : Nat) (bss : List Bytes) :
    (posScan pos bss).length = bss.length := by
  induction bss generalizing pos with
  | nil => rfl
  | cons b t ih =>
    show (posScan (pos + b.length) t).length + 1 = t.length + 1
    rw [ih]

theorem posScan_chain (pos : Nat) (bss : List Bytes) :
    List.Chain' (· ≤ ·) (pos :: posScan pos bss) := by
  induction bss generalizing pos with
  | nil =>
    rw [show posScan pos [] = [] from rfl]
    simp
  | cons b t ih =>
    show List.Chain' (· ≤ ·) (pos :: (pos + b.length) :: posScan (pos + b.length) t)
    rw [List.chain'_cons]
    exact ⟨by omega, ih (pos + b.length)⟩

theorem posScan_mem_le (pos : Nat) (bss : List Bytes) :
    ∀ x ∈ posScan pos bss, pos ≤ x ∧ x ≤ pos + bss.flatten.length := by
  induction bss generalizing pos with
  | nil =>
    intro x hx
    rw [show posScan pos [] = [] from rfl] at hx
    simp at hx
  | cons b t ih =>
    intro x hx
    rw [show posScan pos (b :: t) = (pos + b.length) :: posScan (pos + b.length) t
      from rfl] at hx
    rw [List.flatten_cons, List.length_append]
    rcases List.mem_cons.mp hx with h | h
    · omega
    · have := ih (pos + b.length) x h
      omega

theorem chunk_posScan (bss : List Bytes) :
    ∀ (f : Bytes) (j : Nat), j < bss.length →
    chunk (f ++ bss.flatten) ((f.length :: posScan f.length bss).getD j 0)
      ((posScan f.length bss).getD j 0) = bss.getD j [] := by
  induction bss with
  | nil => intro f j hj; simp at hj
  | cons b t ih =>
    intro f j hj
    rw [show posScan f.length (b :: t) =
      (f.length + b.length) :: posScan (f.length + b.length) t from rfl]
    match j with
    | 0 =>
      show chunk (f ++ (b :: t).flatten) f.length (f.length + b.length) = b
      rw [List.flatten_cons]
      exact chunk_at_append f b t.flatten
    | j + 1 =>
      show chunk (f ++ (b :: t).flatten)
        (((f.length + b.length) :: posScan (f.length + b.length) t).getD j 0)
        ((posScan (f.length + b.length) t).getD j 0) = t.getD j []
      rw [List.flatten_cons, ← List.append_assoc]
      have hfb : (f ++ b).length = f.length + b.length := by simp
      have := ih (f ++ b) j (by simpa using hj)
      rw [hfb] at this
      exact this

theorem seqCells_length (ser : Nat → V → Option Bytes) (vals : List (Option V)) :
    ∀ (i : Nat) (bss : List Bytes), seqCells ser i vals = some bss →
    bss.length = vals.length := by
  induction vals with
  | nil =>
    intro i bss h
    rw [show seqCells ser i [] = some [] from rfl] at h
    injection h with h
    rw [← h]
    rfl
  | cons v t ih =>
    intro i bss h
    match v with
    | none =>
      rw [show seqCells ser i (none :: t) =
        (seqCells ser (i + 1) t).map ([] :: ·) from rfl] at h
      match ht : seqCells ser (i + 1) t with
      | none => rw [ht] at h; exact absurd h (by simp)
      | some bs' =>
        rw [ht] at h
        injection h with h
        rw [← h, List.length_cons, List.length_cons, ih (i + 1) bs' ht]
    | some v =>
      rw [show seqCells ser i (some v :: t) =
        (ser i v).bind fun bs => (seqCells ser (i + 1) t).map (bs :: ·) from rfl] at h
      match hv : ser i v with
      | none => rw [hv] at h; exact absurd h (by simp)
      | some bs =>
        rw [hv] at h
        match ht : seqCells ser (i + 1) t with
        | none => rw [ht] at h; exact absurd h (by simp)
        | some bs' =>
          rw [ht] at h
          injection h with h
          rw [← h, List.length_cons, List.length_cons, ih (i + 1) bs' ht]

theorem seqCells_get (ser : Nat → V → Option Bytes) (vals : List (Option V)) :
    ∀ (i : Nat) (bss : List Bytes), seqCells ser i vals = some bss →
    ∀ j, j < vals.length →
      (vals.getD j none = none → bss.getD j [] = []) ∧
      (∀ v, vals.getD j none = some v → ser (i + j) v = some (bss.getD j [])) := by
  induction vals with
  | nil => intro i bss _ j hj; simp at hj
  | cons v t ih =>
    intro i bss h j hj
    match v with
    | none =>
      rw [show seqCells ser i (none :: t) =
        (seqCells ser (i + 1) t).map ([] :: ·) from rfl] at h
      match ht : seqCells ser (i + 1) t with
      | none => rw [ht] at h; exact absurd h (by simp)
      | some bs' =>
        rw [ht] at h
        injection h with h
        match j with
        | 0 => exact ⟨fun _ => by rw [← h]; rfl, fun v hv => by simp at hv⟩
        | j + 1 =>
          have := ih (i + 1) bs' ht j (by simpa using hj)
          rw [← h]
          refine ⟨this.1, fun v0 hv0 => ?_⟩
          have := this.2 v0 hv0
          rw [show i + 1 + j = i + (j + 1) by ring] at this
          exact this
    | some v =>
      rw [show seqCells ser i (some v :: t) =
        (ser i v).bind fun bs => (seqCells ser (i + 1) t).map (bs :: ·) from rfl] at h
      match hv : ser i v with
      | none => rw [hv] at h; exact absurd h (by simp)
      | some bs =>
        rw [hv] at h
        match ht : seqCells ser (i + 1) t with
        | none => rw [ht] at h; exact absurd h (by simp)
        | some bs' =>
          rw [ht] at h
          injection h with h
          match j with
          | 0 =>
            refine ⟨fun hc => by simp at hc, fun v0 hv0 => ?_⟩
            have : v0 = v := by
              rw [show (some v :: t).getD 0 none = some v from rfl] at hv0
              injection hv0 with hv0
              exact hv0.symm
            rw [this, Nat.add_zero, hv, ← h]
            rfl
          | j + 1 =>
            have := ih (i + 1) bs' ht j (by simpa using hj)
            rw [← h]
            refine ⟨this.1, fun v0 hv0 => ?_⟩
            have := this.2 v0 hv0
            rw [show i + 1 + j = i + (j + 1) by ring] at this
            exact this

theorem writeCells_ok_eq (ser : Nat → V → Option Bytes) (vals : List (Option V)) :
    ∀ (i : Nat) (bss : List Bytes), seqCells ser i vals = some bss →
    ∀ f : Bytes,
    writeCells ser f f.length i vals =
      .ok (f ++ bss.flatten, f.length + bss.flatten.length, posScan f.length bss) := by
  induction vals with
  | nil =>
    intro i bss h f
    rw [show seqCells ser i [] = some [] from rfl] at h
    injection h with h
    rw [← h]
    show Except.ok (f, f.length, []) = _
    rw [show posScan f.length ([] : List Bytes) = [] from rfl]
    simp
  | cons v t ih =>
    intro i bss h f
    match v with
    | none =>
      rw [show seqCells ser i (none :: t) =
        (seqCells ser (i + 1) t).map ([] :: ·) from rfl] at h
      match ht : seqCells ser (i + 1) t with
      | none => rw [ht] at h; exact absurd h (by simp)
      | some bs' =>
        rw [ht] at h
        injection h with h
        have hrec := ih (i + 1) bs' ht f
        simp only [writeCells, hrec]
        rw [← h]
        rw [show posScan f.length ([] :: bs') =
          (f.length + List.length ([] : Bytes)) :: posScan (f.length + List.length ([] : Bytes)) bs' from rfl]
        simp
    | some v =>
      rw [show seqCells ser i (some v :: t) =
        (ser i v).bind fun bs => (seqCells ser (i + 1) t).map (bs :: ·) from rfl] at h
      match hv : ser i v with
      | none => rw [hv] at h; exact absurd h (by simp)
      | some bs =>
        rw [hv] at h
        match ht : seqCells ser (i + 1) t with
        | none => rw [ht] at h; exact absurd h (by simp)
        | some bs' =>
          rw [ht] at h
          injection h with h
          have hlen : f.length + bs.length = (f ++ bs).length := by simp
          have hrec := ih (i + 1) bs' ht (f ++ bs)
          simp only [writeCells, hv, writeAt_append, hlen, hrec]
          rw [← h]
          rw [show posScan f.length (bs :: bs') =
            (f.length + bs.length) :: posScan (f.length + bs.length) bs' from rfl]
          rw [List.flatten_cons, ← List.append_assoc, hlen]
          simp
          omega

theorem writeCells_err (ser : Nat → V → Option Bytes) (vals : List (Option V)) :
    ∀ (i : Nat) (f : Bytes) (e : Bytes × Nat),
    writeCells ser f f.length i vals = .error e →
    e.2 = e.1.length ∧ ∃ ext, e.1 = f ++ ext := by
  induction vals with
  | nil =>
    intro i f e h
    rw [show writeCells ser f f.length i [] = .ok (f, f.length, []) from rfl] at h
    exact absurd h (by simp)
  | cons v t ih =>
    intro i f e h
    match v with
    | none =>
      match hw : writeCells ser f f.length (i + 1) t with
      | .ok (f1, p1, ps1) =>
        simp only [writeCells, hw] at h
        exact absurd h (by simp)
      | .error e' =>
        simp only [writeCells, hw] at h
        injection h with h
        rw [← h]
        exact ih (i + 1) f e' hw
    | some v =>
      match hv : ser i v with
      | none =>
        simp only [writeCells, hv] at h
        injection h with h
        rw [← h]
        exact ⟨rfl, [], by simp⟩
      | some bs =>
        have hlen : f.length + bs.length = (f ++ bs).length := by simp
        simp only [writeCells, hv, writeAt_append, hlen] at h
        match hw : writeCells ser (f ++ bs) (f ++ bs).length (i + 1) t with
        | .ok (f1, p1, ps1) =>
          rw [hw] at h
          exact absurd h (by simp)
        | .error e' =>
          rw [hw] at h
          injection h with h
          obtain ⟨h1, ext, h2⟩ := ih (i + 1) (f ++ bs) e' hw
          rw [← h]
          exact ⟨h1, bs ++ ext, by rw [h2, List.append_assoc]⟩

/-- The byte string the row-copy loop emits for one column. -/
theorem seqCellsRC_cons (ser : Nat → V → Option Bytes) (srcFile : Bytes)
    (offsets : List Nat) (cache : List (Option V)) (i n : Nat) :
    seqCellsRC ser srcFile offsets cache i (n + 1) =
      (match cache.get? i with
        | none => none
        | some (some v) => ser i v
        | some none =>
          match offsets.get? i, offsets.get? (i + 1) with
          | some a, some b => some (chunk srcFile a b)
          | _, _ => none).bind fun bs =>
      (seqCellsRC ser srcFile offsets cache (i + 1) n).map (bs :: ·) := rfl

theorem seqCellsRC_length (ser : Nat → V → Option Bytes) (srcFile : Bytes)
    (offsets : List Nat) (cache : List (Option V)) (n : Nat) :
    ∀ (i : Nat) (bss : List Bytes),
    seqCellsRC ser srcFile offsets cache i n = some bss → bss.length = n := by
  induction n with
  | zero =>
    intro i bss h
    rw [show seqCellsRC ser srcFile offsets cache i 0 = some [] from rfl] at h
    injection h with h
    rw [← h]
    rfl
  | succ n ih =>
    intro i bss h
    rw [seqCellsRC_cons] at h
    match hd : (match cache.get? i with
      | none => none
      | some (some v) => ser i v
      | some none =>
        match offsets.get? i, offsets.get? (i + 1) with
        | some a, some b => some (chunk srcFile a b)
        | _, _ => none : Option Bytes) with
    | none => rw [hd] at h; exact absurd h (by simp)
    | some bs =>
      rw [hd] at h
      match ht : seqCellsRC ser srcFile offsets cache (i + 1) n with
      | none => rw [ht] at h; exact absurd h (by simp)
      | some bs' =>
        rw [ht] at h
        injection h with h
        rw [← h, List.length_cons, ih (i + 1) bs' ht]

theorem rowCopyCells_ok_eq (ser : Nat → V → Option Bytes) (srcFile : Bytes)
    (offsets : List Nat) (cache : List (Option V)) (n : Nat) :
    ∀ (i : Nat) (bss : List Bytes),
    seqCellsRC ser srcFile offsets cache i n = some bss →
    ∀ f : Bytes,
    rowCopyCells ser srcFile offsets cache f f.length i n =
      .ok (f ++ bss.flatten, f.length + bss.flatten.length, posScan f.length bss) := by
  induction n with
  | zero =>
    intro i bss h f
    rw [show seqCellsRC ser srcFile offsets cache i 0 = some [] from rfl] at h
    injection h with h
    rw [← h]
    show Except.ok (f, f.length, []) = _
    rw [show posScan f.length ([] : List Bytes) = [] from rfl]
    simp
  | succ n ih =>
    intro i bss h f
    rw [seqCellsRC_cons] at h
    match hd : (match cache.get? i with
      | none => none
      | some (some v) => ser i v
      | some none =>
        match offsets.get? i, offsets.get? (i + 1) with
        | some a, some b => some (chunk srcFile a b)
        | _, _ => none : Option Bytes) with
    | none => rw [hd] at h; exact absurd h (by simp)
    | some bs =>
      rw [hd] at h
      match ht : seqCellsRC ser srcFile offsets cache (i + 1) n with
      | none => rw [ht] at h; exact absurd h (by simp)
      | some bs' =>
        rw [ht] at h
        injection h with h
        have hlen : f.length + bs.length = (f ++ bs).length := by simp
        have hrec := ih (i + 1) bs' ht (f ++ bs)
        simp only [rowCopyCells, hd, writeAt_append, hlen, hrec]
        rw [← h]
        rw [show posScan f.length (bs :: bs') =
          (f.length + bs.length) :: posScan (f.length + bs.length) bs' from rfl]
        rw [List.flatten_cons, ← List.append_assoc, hlen]
        simp
        omega

theorem rowCopyCells_err (ser : Nat → V → Option Bytes) (srcFile : Bytes)
    (offsets : List Nat) (cache : List (Option V)) (n : Nat) :
    ∀ (i : Nat) (f : Bytes) (e : Bytes × Nat),
    rowCopyCells ser srcFile offsets cache f f.length i n = .error e →
    e.2 = e.1.length ∧ ∃ ext, e.1 = f ++ ext := by
  induction n with
  | zero =>
    intro i f e h
    exact absurd h (by simp [rowCopyCells])
  | succ n ih =>
    intro i f e h
    match hd : (match cache.get? i with
      | none => none
      | some (some v) => ser i v
      | some none =>
        match offsets.get? i, offsets.get? (i + 1) with
        | some a, some b => some (chunk srcFile a b)
        | _, _ => none : Option Bytes) with
    | none =>
      simp only [rowCopyCells, hd] at h
      injection h with h
      rw [← h]
      exact ⟨rfl, [], by simp⟩
    | some bs =>
      have hlen : f.length + bs.length = (f ++ bs).length := by simp
      simp only [rowCopyCells, hd, writeAt_append, hlen] at h
      match hw : rowCopyCells ser srcFile offsets cache (f ++ bs) (f ++ bs).length
          (i + 1) n with
      | .ok (f1, p1, ps1) =>
        rw [hw] at h
        exact absurd h (by simp)
      | .error e' =>
        rw [hw] at h
        injection h with h
        obtain ⟨h1, ext, h2⟩ := ih (i + 1) (f ++ bs) e' hw
        rw [← h]
        exact ⟨h1, bs ++ ext, by rw [h2, List.append_assoc]⟩

theorem seqCellsRC_get_none (ser : Nat → V → Option Bytes) (srcFile : Bytes)
    (offsets : List Nat) (cache : List (Option V)) (n : Nat) :
    ∀ (i : Nat) (bss : List Bytes),
    seqCellsRC ser srcFile offsets cache i n = some bss →
    ∀ j, j < n → cache.get? (i + j) = some none →
    ∀ a b, offsets.get? (i + j) = some a → offsets.get? (i + j + 1) = some b →
    bss.getD j [] = chunk srcFile a b := by
  induction n with
  | zero => intro i bss _ j hj; simp at hj
  | succ n ih =>
    intro i bss h j hj hc a b ha hb
    rw [seqCellsRC_cons] at h
    match hd : (match cache.get? i with
      | none => none
      | some (some v) => ser i v
      | some none =>
        match offsets.get? i, offsets.get? (i + 1) with
        | some a, some b => some (chunk srcFile a b)
        | _, _ => none : Option Bytes) with
    | none => rw [hd] at h; exact absurd h (by simp)
    | some bs =>
      rw [hd] at h
      match ht : seqCellsRC ser srcFile offsets cache (i + 1) n with
      | none => rw [ht] at h; exact absurd h (by simp)
      | some bs' =>
        rw [ht] at h
        injection h with h
        match j with
        | 0 =>
          rw [Nat.add_zero] at hc ha
          rw [Nat.add_zero] at hb
          rw [hc, ha, hb] at hd
          rw [← h]
          show bs = chunk srcFile a b
          exact (Option.some.inj hd).symm
        | j + 1 =>
          rw [← h]
          show bs'.getD j [] = chunk srcFile a b
          exact ih (i + 1) bs' ht j (by omega) (by rw [show i + 1 + j = i + (j + 1) by ring]; exact hc)
            a b (by rw [show i + 1 + j = i + (j + 1) by ring]; exact ha)
            (by rw [show i + 1 + j + 1 = i + (j + 1) + 1 by ring]; exact hb)

theorem posScan_getD_step (bss : List Bytes) :
    ∀ (pos j : Nat), j < bss.length →
    (pos :: posScan pos bss).getD j 0 + (bss.getD j []).length =
      (posScan pos bss).getD j 0 := by
  induction bss with
  | nil => intro pos j hj; simp at hj
  | cons b t ih =>
    intro pos j hj
    rw [show posScan pos (b :: t) = (pos + b.length) :: posScan (pos + b.length) t
      from rfl]
    match j with
    | 0 => rfl
    | j + 1 =>
      show ((pos + b.length) :: posScan (pos + b.length) t).getD j 0 +
        (t.getD j []).length = (posScan (pos + b.length) t).getD j 0
      exact ih (pos + b.length) j (by simpa using hj)

end WriterCells

/-! ## Lemmas: `WFDD.__setitem__` -/

section WriterSet

variable {K V : Type} [DecidableEq K]

/-- What a successful write loop plus `self.index[key] = positions` does to
the writer state. -/
theorem writeRecord_spec (ser : Nat → V → Option Bytes) (s : WFDD K V)
    (rows : List (List Nat)) (key : K) (vals : List (Option V)) (bss : List Bytes)
    (hseq : seqCells ser 0 vals = some bss)
    (hpos : s.filePos = s.fileData.length)
    (hg : GWF s.index rows)
    (hk : key ∉ s.index.index)
    (hnv : s.index.num_vals = vals.length + 1)
    (hbound : s.fileData.length + bss.flatten.length < 256 ^ s.index.byte_width) :
    ∃ s', (match writeCells ser s.fileData s.filePos 0 vals with
        | Except.error e =>
          (Except.error { s with fileData := e.1, filePos := e.2 } :
            Except (WFDD K V) (WFDD K V))
        | Except.ok out => recordRow s key out s.filePos) = Except.ok s' ∧
      s'.fileData = s.fileData ++ bss.flatten ∧
      s'.filePos = s'.fileData.length ∧
      s'.index.index = s.index.index ++ [key] ∧
      s'.index.num_vals = s.index.num_vals ∧
      s'.index.byte_width = s.index.byte_width ∧
      s'.unfinished = s.unfinished ∧ s'.props = s.props ∧ s'.splits = s.splits ∧
      GWF s'.index (rows ++ [s.fileData.length :: posScan s.fileData.length bss]) ∧
      s'.index.lookupVals key =
        some (s.fileData.length :: posScan s.fileData.length bss) ∧
      (∀ k', k' ∈ s.index.index →
        s'.index.lookupVals k' = s.index.lookupVals k') := by
  have hwc := writeCells_ok_eq ser vals 0 bss hseq s.fileData
  rw [hpos, hwc]
  set positions := s.fileData.length :: posScan s.fileData.length bss with hps
  have hplen : positions.length = s.index.num_vals := by
    rw [hps, List.length_cons, posScan_length, seqCells_length ser vals 0 bss hseq,
      hnv]
  have hpbd : ∀ p ∈ positions, p < 256 ^ s.index.byte_width := by
    intro p hp
    rcases List.mem_cons.mp hp with h | h
    · omega
    · have := posScan_mem_le s.fileData.length bss p h
      omega
  obtain ⟨g', hset, hgwf, hidx, hnv', hw', hlook, hpres⟩ :=
    setK_new_spec s.index rows hg key positions hk hplen hpbd
  set s2 : WFDD K V := { s with fileData := s.fileData ++ bss.flatten, filePos := s.fileData.length + bss.flatten.length, index := g' } with hs2
  refine ⟨s2, ?_, rfl, by rw [hs2]; simp, hidx, hnv', hw', rfl, rfl, rfl,
    hgwf, hlook, hpres⟩
  show recordRow s key
    (s.fileData ++ bss.flatten, s.fileData.length + bss.flatten.length,
      posScan s.fileData.length bss) s.fileData.length = Except.ok s2
  unfold recordRow
  simp only [hset]

end WriterSet

/-! ## Lemmas: shapes of arbitrary write-loop outcomes -/

section WriterShapes

variable {V : Type}

theorem extendLE_mem_lt (w : Nat) (val : List Nat) :
    ∀ (buf b : Bytes), extendLE w buf val = .ok b → ∀ v ∈ val, v < 256 ^ w := by
  induction val with
  | nil => intro buf b _ v hv; simp at hv
  | cons x t ih =>
    intro buf b h v hv
    unfold extendLE at h
    by_cases hx : 256 ^ w ≤ x
    · rw [if_pos hx] at h
      exact absurd h (by simp)
    · rw [if_neg hx] at h
      rcases List.mem_cons.mp hv with h1 | h1
      · omega
      · exact ih _ _ h v h1

theorem extendLE_err_exists (w : Nat) (val : List Nat) :
    ∀ (buf b : Bytes), extendLE w buf val = .error b → ∃ v ∈ val, 256 ^ w ≤ v := by
  induction val with
  | nil => intro buf b h; exact absurd h (by simp [extendLE])
  | cons x t ih =>
    intro buf b h
    unfold extendLE at h
    by_cases hx : 256 ^ w ≤ x
    · exact ⟨x, by simp, hx⟩
    · rw [if_neg hx] at h
      obtain ⟨v, hv, hle⟩ := ih _ _ h
      exact ⟨v, List.mem_cons_of_mem _ hv, hle⟩

theorem writeCells_ok_shape (ser : Nat → V → Option Bytes) (vals : List (Option V)) :
    ∀ (i : Nat) (f f' : Bytes) (p' : Nat) (ps : List Nat),
    writeCells ser f f.length i vals = .ok (f', p', ps) →
    p' = f'.length ∧ (∃ ext, f' = f ++ ext) ∧
    List.Chain' (· ≤ ·) (f.length :: ps) ∧ (∀ x ∈ ps, x ≤ p') ∧ f.length ≤ p' ∧
    ps.length = vals.length := by
  induction vals with
  | nil =>
    intro i f f' p' ps h
    rw [show writeCells ser f f.length i [] = .ok (f, f.length, []) from rfl] at h
    injection h with h
    injection h with h1 h2
    injection h2 with h2 h3
    rw [← h1, ← h2, ← h3]
    exact ⟨rfl, ⟨[], by simp⟩, by simp, by simp, le_refl _, rfl⟩
  | cons v t ih =>
    intro i f f' p' ps h
    match v with
    | none =>
      match hw : writeCells ser f f.length (i + 1) t with
      | .ok (f1, p1, ps1) =>
        simp only [writeCells, hw] at h
        injection h with h
        injection h with h1 h2
        injection h2 with h2 h3
        obtain ⟨g1, ⟨ext, g2⟩, g3, g4, g5, g6⟩ := ih (i + 1) f f1 p1 ps1 hw
        rw [← h1, ← h2, ← h3]
        refine ⟨g1, ⟨ext, g2⟩, ?_, ?_, g5, by rw [List.length_cons, g6]; rfl⟩
        · rw [List.chain'_cons]
          rcases ps1 with _ | ⟨x, xs⟩
          · exact ⟨le_refl _, by simp⟩
          · rw [List.chain'_cons] at g3
            exact ⟨le_refl _, List.chain'_cons.mpr g3⟩
        · intro x hx
          rcases List.mem_cons.mp hx with h1 | h1
          · rw [h1]; exact g5
          · exact g4 x h1
      | .error e =>
        simp only [writeCells, hw] at h
        exact absurd h (by simp)
    | some v =>
      match hv : ser i v with
      | none =>
        simp only [writeCells, hv] at h
        exact absurd h (by simp)
      | some bs =>
        have hlen : f.length + bs.length = (f ++ bs).length := by simp
        match hw : writeCells ser (f ++ bs) (f ++ bs).length (i + 1) t with
        | .ok (f1, p1, ps1) =>
          simp only [writeCells, hv, writeAt_append, hlen, hw] at h
          injection h with h
          injection h with h1 h2
          injection h2 with h2 h3
          obtain ⟨g1, ⟨ext, g2⟩, g3, g4, g5, g6⟩ := ih (i + 1) (f ++ bs) f1 p1 ps1 hw
          rw [← h1, ← h2, ← h3]
          have hfb : f.length ≤ (f ++ bs).length := by simp
          refine ⟨g1, ⟨bs ++ ext, by rw [g2, List.append_assoc]⟩, ?_, ?_, by omega,
            by rw [List.length_cons, g6]; rfl⟩
          · rw [List.chain'_cons]
            constructor
            · simp
            · exact g3
          · intro x hx
            rcases List.mem_cons.mp hx with h1 | h1
            · rw [h1]; exact g5
            · exact g4 x h1
        | .error e =>
          simp only [writeCells, hv, writeAt_append, hlen, hw] at h
          exact absurd h (by simp)

theorem rowCopyCells_ok_shape (ser : Nat → V → Option Bytes) (srcFile : Bytes)
    (offsets : List Nat) (cache : List (Option V)) (n : Nat) :
    ∀ (i : Nat) (f f' : Bytes) (p' : Nat) (ps : List Nat),
    rowCopyCells ser srcFile offsets cache f f.length i n = .ok (f', p', ps) →
    p' = f'.length ∧ (∃ ext, f' = f ++ ext) ∧
    List.Chain' (· ≤ ·) (f.length :: ps) ∧ (∀ x ∈ ps, x ≤ p') ∧ f.length ≤ p' ∧
    ps.length = n := by
  induction n with
  | zero =>
    intro i f f' p' ps h
    rw [show rowCopyCells ser srcFile offsets cache f f.length i 0 =
      .ok (f, f.length, []) from rfl] at h
    injection h with h
    injection h with h1 h2
    injection h2 with h2 h3
    rw [← h1, ← h2, ← h3]
    exact ⟨rfl, ⟨[], by simp⟩, by simp, by simp, le_refl _, rfl⟩
  | succ n ih =>
    intro i f f' p' ps h
    match hd : (match cache.get? i with
      | none => none
      | some (some v) => ser i v
      | some none =>
        match offsets.get? i, offsets.get? (i + 1) with
        | some a, some b => some (chunk srcFile a b)
        | _, _ => none : Option Bytes) with
    | none =>
      simp only [rowCopyCells, hd] at h
      exact absurd h (by simp)
    | some bs =>
      have hlen : f.length + bs.length = (f ++ bs).length := by simp
      match hw : rowCopyCells ser srcFile offsets cache (f ++ bs) (f ++ bs).length
          (i + 1) n with
      | .ok (f1, p1, ps1) =>
        simp only [rowCopyCells, hd, writeAt_append, hlen, hw] at h
        injection h with h
        injection h with h1 h2
        injection h2 with h2 h3
        obtain ⟨g1, ⟨ext, g2⟩, g3, g4, g5, g6⟩ := ih (i + 1) (f ++ bs) f1 p1 ps1 hw
        rw [← h1, ← h2, ← h3]
        have hfb : f.length ≤ (f ++ bs).length := by simp
        refine ⟨g1, ⟨bs ++ ext, by rw [g2, List.append_assoc]⟩, ?_, ?_, by omega,
          by rw [List.length_cons, g6]⟩
        · rw [List.chain'_cons]
          constructor
          · simp
          · exact g3
        · intro x hx
          rcases List.mem_cons.mp hx with h1 | h1
          · rw [h1]; exact g5
          · exact g4 x h1
      | .error e =>
        simp only [rowCopyCells, hd, writeAt_append, hlen, hw] at h
        exact absurd h (by simp)

end WriterShapes

/-! ## Lemmas: failed `__setitem__` calls leave the row index unchanged -/

section WriterErr

variable {K V : Type} [DecidableEq K]

/-- A raised write loop or a raised `self.index[key] = positions` below the
offset-overflow bound leaves the index untouched. -/
theorem recordOrErr_spec (s : WFDD K V) (key : K)
    (res : Except (Bytes × Nat) (Bytes × Nat × List Nat)) (s' : WFDD K V)
    (hres_err : ∀ e, res = .error e → e.2 = e.1.length ∧ ∃ ext, e.1 = s.fileData ++ ext)
    (hres_ok : ∀ f' p' ps, res = .ok (f', p', ps) →
      p' = f'.length ∧ (∃ ext, f' = s.fileData ++ ext) ∧ (∀ x ∈ ps, x ≤ p') ∧
        s.fileData.length ≤ p')
    (hk : key ∉ s.index.index)
    (hpos : s.filePos = s.fileData.length)
    (herr : (match res with
      | Except.error e =>
        (Except.error { s with fileData := e.1, filePos := e.2 } :
          Except (WFDD K V) (WFDD K V))
      | Except.ok out => recordRow s key out s.filePos) = Except.error s')
    (hbound : s'.fileData.length < 256 ^ s.index.byte_width) :
    s'.index = s.index ∧ s'.filePos = s'.fileData.length ∧
    (∃ ext, s'.fileData = s.fileData ++ ext) ∧
    s'.unfinished = s.unfinished ∧ s'.props = s.props ∧ s'.splits = s.splits := by
  match hres : res with
  | .error e =>
    have herr2 : (Except.error { s with fileData := e.1, filePos := e.2 } :
        Except (WFDD K V) (WFDD K V)) = Except.error s' := herr
    injection herr2 with herr2
    obtain ⟨h1, ext, h2⟩ := hres_err e rfl
    rw [← herr2]
    exact ⟨rfl, by rw [h1], ⟨ext, h2⟩, rfl, rfl, rfl⟩
  | .ok (f1, p1, ps1) =>
    obtain ⟨hp1, ⟨ext, hf1⟩, hxs, hhd⟩ := hres_ok f1 p1 ps1 rfl
    have herr2 : recordRow s key (f1, p1, ps1) s.filePos = Except.error s' := herr
    unfold recordRow at herr2
    match hsk : s.index.setK key (s.filePos :: ps1) with
    | .ok g1 =>
      rw [hsk] at herr2
      exact absurd herr2 (by simp)
    | .error g1 =>
      rw [hsk] at herr2
      injection herr2 with herr
      rw [← herr]
      have hidx : g1 = s.index := by
        unfold FDDIndexGeneral.setK at hsk
        by_cases hl : (s.filePos :: ps1).length ≠ s.index.num_vals
        · rw [if_pos hl] at hsk
          injection hsk with hsk
          exact hsk.symm
        · rw [if_neg hl, if_neg hk] at hsk
          match hext : extendLE s.index.byte_width s.index.buffer (s.filePos :: ps1) with
          | .ok b => rw [hext] at hsk; exact absurd hsk (by simp)
          | .error b =>
            obtain ⟨v, hv, hge⟩ := extendLE_err_exists _ _ _ _ hext
            have hvle : v ≤ p1 := by
              rcases List.mem_cons.mp hv with h1 | h1
              · rw [h1, hpos]; exact hhd
              · exact hxs v h1
            have : s'.fileData = f1 := by rw [← herr]
            rw [this, ← hp1] at hbound
            omega
      exact ⟨hidx, by rw [hp1], ⟨ext, hf1⟩, rfl, rfl, rfl⟩

/-- Claim-level core: any raised `WFDD.__setitem__` below the 256-TB offset
bound leaves the writer's row index exactly as it was. -/
theorem setitemR_err_spec (cfg : WCfg V) (s : WFDD K V) (key : K) (item : WItem V)
    (s' : WFDD K V)
    (hpos : s.filePos = s.fileData.length)
    (herr : WFDD.setitemR cfg s key item = .error s')
    (hbound : s'.fileData.length < 256 ^ s.index.byte_width) :
    s'.index = s.index ∧ s'.filePos = s'.fileData.length ∧
    (∃ ext, s'.fileData = s.fileData ++ ext) ∧
    s'.unfinished = s.unfinished ∧ s'.props = s.props ∧ s'.splits = s.splits := by
  unfold WFDD.setitemR at herr
  by_cases hk : key ∈ s.index.index
  · rw [if_pos hk] at herr
    injection herr with herr
    rw [← herr]
    exact ⟨rfl, hpos, ⟨[], by simp⟩, rfl, rfl, rfl⟩
  · rw [if_neg hk] at herr
    match hcol : cfg.columns with
    | none =>
      rw [hcol] at herr
      match item with
      | .plain v =>
        rw [hpos] at herr
        refine recordOrErr_spec s key
          (writeCells (fun _ => cfg.noColSer) s.fileData s.fileData.length 0 [v]) s'
          (fun e he => writeCells_err _ _ _ _ _ he)
          (fun f' p' ps hok => ?_) hk hpos ?_ hbound
        · obtain ⟨h1, h2, _, h4, h5, _⟩ := writeCells_ok_shape _ _ _ _ _ _ _ hok
          exact ⟨h1, h2, h4, h5⟩
        · rw [hpos]
          exact herr
      | .rowv o c f =>
        have herr2 : (Except.error s : Except (WFDD K V) (WFDD K V)) =
            Except.error s' := herr
        injection herr2 with herr2
        rw [← herr2]
        exact ⟨rfl, hpos, ⟨[], by simp⟩, rfl, rfl, rfl⟩
      | .dict m =>
        injection herr with herr
        rw [← herr]
        exact ⟨rfl, hpos, ⟨[], by simp⟩, rfl, rfl, rfl⟩
      | .tup t =>
        injection herr with herr
        rw [← herr]
        exact ⟨rfl, hpos, ⟨[], by simp⟩, rfl, rfl, rfl⟩
      | .obj a =>
        injection herr with herr
        rw [← herr]
        exact ⟨rfl, hpos, ⟨[], by simp⟩, rfl, rfl, rfl⟩
    | some cols =>
      rw [hcol] at herr
      match item with
      | .rowv offsets cache srcFile =>
        rw [hpos] at herr
        refine recordOrErr_spec s key
          (rowCopyCells cfg.colSer srcFile offsets cache s.fileData
            s.fileData.length 0 cols.length) s'
          (fun e he => rowCopyCells_err _ _ _ _ _ _ _ _ he)
          (fun f' p' ps hok => ?_) hk hpos ?_ hbound
        · obtain ⟨h1, h2, _, h4, h5, _⟩ := rowCopyCells_ok_shape _ _ _ _ _ _ _ _ _ _ hok
          exact ⟨h1, h2, h4, h5⟩
        · rw [hpos]
          exact herr
      | .dict m =>
        have herr2 : (match normalizeItem cols (WItem.dict m : WItem V) with
            | none => (Except.error s : Except (WFDD K V) (WFDD K V))
            | some vals =>
              match writeCells cfg.colSer s.fileData s.filePos 0 vals with
              | Except.error e =>
                Except.error { s with fileData := e.1, filePos := e.2 }
              | Except.ok out => recordRow s key out s.filePos) =
            Except.error s' := herr
        match hn : normalizeItem cols (WItem.dict m : WItem V) with
        | none =>
          rw [hn] at herr2
          injection herr2 with herr2
          rw [← herr2]
          exact ⟨rfl, hpos, ⟨[], by simp⟩, rfl, rfl, rfl⟩
        | some vals =>
          rw [hn, hpos] at herr2
          refine recordOrErr_spec s key
            (writeCells cfg.colSer s.fileData s.fileData.length 0 vals) s'
            (fun e he => writeCells_err _ _ _ _ _ he)
            (fun f' p' ps hok => ?_) hk hpos ?_ hbound
          · obtain ⟨h1, h2, _, h4, h5, _⟩ := writeCells_ok_shape _ _ _ _ _ _ _ hok
            exact ⟨h1, h2, h4, h5⟩
          · rw [hpos]
            exact herr2
      | .tup t =>
        have herr2 : (match normalizeItem cols (WItem.tup t : WItem V) with
            | none => (Except.error s : Except (WFDD K V) (WFDD K V))
            | some vals =>
              match writeCells cfg.colSer s.fileData s.filePos 0 vals with
              | Except.error e =>
                Except.error { s with fileData := e.1, filePos := e.2 }
              | Except.ok out => recordRow s key out s.filePos) =
            Except.error s' := herr
        match hn : normalizeItem cols (WItem.tup t : WItem V) with
        | none =>
          rw [hn] at herr2
          injection herr2 with herr2
          rw [← herr2]
          exact ⟨rfl, hpos, ⟨[], by simp⟩, rfl, rfl, rfl⟩
        | some vals =>
          rw [hn, hpos] at herr2
          refine recordOrErr_spec s key
            (writeCells cfg.colSer s.fileData s.fileData.length 0 vals) s'
            (fun e he => writeCells_err _ _ _ _ _ he)
            (fun f' p' ps hok => ?_) hk hpos ?_ hbound
          · obtain ⟨h1, h2, _, h4, h5, _⟩ := writeCells_ok_shape _ _ _ _ _ _ _ hok
            exact ⟨h1, h2, h4, h5⟩
          · rw [hpos]
            exact herr2
      | .obj a =>
        have herr2 : (match normalizeItem cols (WItem.obj a : WItem V) with
            | none => (Except.error s : Except (WFDD K V) (WFDD K V))
            | some vals =>
              match writeCells cfg.colSer s.fileData s.filePos 0 vals with
              | Except.error e =>
                Except.error { s with fileData := e.1, filePos := e.2 }
              | Except.ok out => recordRow s key out s.filePos) =
            Except.error s' := herr
        match hn : normalizeItem cols (WItem.obj a : WItem V) with
        | none =>
          rw [hn] at herr2
          injection herr2 with herr2
          rw [← herr2]
          exact ⟨rfl, hpos, ⟨[], by simp⟩, rfl, rfl, rfl⟩
        | some vals =>
          rw [hn, hpos] at herr2
          refine recordOrErr_spec s key
            (writeCells cfg.colSer s.fileData s.fileData.length 0 vals) s'
            (fun e he => writeCells_err _ _ _ _ _ he)
            (fun f' p' ps hok => ?_) hk hpos ?_ hbound
          · obtain ⟨h1, h2, _, h4, h5, _⟩ := writeCells_ok_shape _ _ _ _ _ _ _ hok
            exact ⟨h1, h2, h4, h5⟩
          · rw [hpos]
            exact herr2
      | .plain v =>
        injection herr with herr
        rw [← herr]
        exact ⟨rfl, hpos, ⟨[], by simp⟩, rfl, rfl, rfl⟩

end WriterErr

/-! ## Lemmas: successful `__setitem__` calls preserve the writer invariant -/

section WriterOk

variable {K V : Type} [DecidableEq K]

theorem setK_ok_len (g : FDDIndexGeneral K) (key : K) (val : List Nat)
    (g' : FDDIndexGeneral K) (h : g.setK key val = .ok g') :
    val.length = g.num_vals := by
  unfold FDDIndexGeneral.setK at h
  by_cases hl : val.length ≠ g.num_vals
  · rw [if_pos hl] at h
    exact absurd h (by simp)
  · push_neg at hl
    exact hl

theorem setK_new_ok_inv (g : FDDIndexGeneral K) (key : K) (val : List Nat)
    (g' : FDDIndexGeneral K) (hk : key ∉ g.index) (h : g.setK key val = .ok g') :
    (∀ v ∈ val, v < 256 ^ g.byte_width) ∧
    g' = ⟨g.index ++ [key], g.buffer ++ packRow g.byte_width val,
      g.num_vals, g.byte_width⟩ := by
  have hl := setK_ok_len g key val g' h
  unfold FDDIndexGeneral.setK at h
  rw [if_neg (by rw [hl]; exact fun hc => hc rfl), if_neg hk] at h
  match hext : extendLE g.byte_width g.buffer val with
  | .error b =>
    rw [hext] at h
    exact absurd h (by simp)
  | .ok b =>
    have hb := extendLE_mem_lt _ _ _ _ hext
    have hbe := extendLE_ok g.byte_width g.buffer val hb
    simp only [hbe] at h
    injection h with h
    exact ⟨hb, h.symm⟩

/-- The effect of a successful `recordRow` after any successful write loop. -/
theorem recordOk_spec (s : WFDD K V) (key : K)
    (res : Except (Bytes × Nat) (Bytes × Nat × List Nat)) (s' : WFDD K V)
    (rows : List (List Nat))
    (hres_ok : ∀ f' p' ps, res = .ok (f', p', ps) →
      p' = f'.length ∧ (∃ ext, f' = s.fileData ++ ext) ∧
      List.Chain' (· ≤ ·) (s.fileData.length :: ps))
    (hk : key ∉ s.index.index)
    (hpos : s.filePos = s.fileData.length)
    (hg : GWF s.index rows)
    (hchain : ∀ r ∈ rows, List.Chain' (· ≤ ·) r)
    (hok : (match res with
      | Except.error e =>
        (Except.error { s with fileData := e.1, filePos := e.2 } :
          Except (WFDD K V) (WFDD K V))
      | Except.ok out => recordRow s key out s.filePos) = Except.ok s') :
    (∃ rows', GWF s'.index rows' ∧ ∀ r ∈ rows', List.Chain' (· ≤ ·) r) ∧
    s'.filePos = s'.fileData.length ∧
    s'.index.num_vals = s.index.num_vals ∧
    s'.index.byte_width = s.index.byte_width ∧
    (∃ ext, s'.fileData = s.fileData ++ ext) ∧
    s'.unfinished = s.unfinished ∧ s'.props = s.props ∧ s'.splits = s.splits := by
  match hres : res with
  | .error e =>
    have hok2 : (Except.error { s with fileData := e.1, filePos := e.2 } :
        Except (WFDD K V) (WFDD K V)) = Except.ok s' := hok
    exact absurd hok2 (by simp)
  | .ok (f1, p1, ps1) =>
    obtain ⟨hp1, ⟨ext, hf1⟩, hch⟩ := hres_ok f1 p1 ps1 rfl
    have hok2 : recordRow s key (f1, p1, ps1) s.filePos = Except.ok s' := hok
    unfold recordRow at hok2
    match hsk : s.index.setK key (s.filePos :: ps1) with
    | .error g1 =>
      rw [hsk] at hok2
      exact absurd hok2 (by simp)
    | .ok g1 =>
      rw [hsk] at hok2
      injection hok2 with hok2
      obtain ⟨hbd, hg1⟩ := setK_new_ok_inv _ _ _ _ hk hsk
      have hlen := setK_ok_len _ _ _ _ hsk
      have hgwf : GWF g1 (rows ++ [s.filePos :: ps1]) := by
        rw [hg1]
        exact gwf_append s.index rows hg key _ hk hlen hbd
      rw [← hok2]
      refine ⟨⟨rows ++ [s.filePos :: ps1], hgwf, ?_⟩, by rw [hp1],
        by rw [hg1], by rw [hg1], ⟨ext, hf1⟩, rfl, rfl, rfl⟩
      intro r hr
      rcases List.mem_append.mp hr with h | h
      · exact hchain r h
      · simp at h
        rw [h, hpos]
        exact hch

theorem setK_err_inv (g : FDDIndexGeneral K) (key : K) (val : List Nat)
    (g' : FDDIndexGeneral K) (hk : key ∉ g.index) (h : g.setK key val = .error g') :
    g'.num_vals = g.num_vals ∧ g'.byte_width = g.byte_width ∧
    (g' = g ∨ ∃ v ∈ val, 256 ^ g.byte_width ≤ v) := by
  unfold FDDIndexGeneral.setK at h
  by_cases hl : val.length ≠ g.num_vals
  · rw [if_pos hl] at h
    injection h with h
    rw [← h]
    exact ⟨rfl, rfl, Or.inl rfl⟩
  · rw [if_neg hl, if_neg hk] at h
    match hext : extendLE g.byte_width g.buffer val with
    | .ok b =>
      rw [hext] at h
      exact absurd h (by simp)
    | .error b =>
      simp only [hext] at h
      injection h with h
      rw [← h]
      exact ⟨rfl, rfl, Or.inr (extendLE_err_exists _ _ _ _ hext)⟩

/-- One assignment through `recordRow` (or a raised write loop), in both the
ok and the raised case: the cursor tracks the file end, the file only grows,
the index keeps its geometry, and — when the resulting file is still
addressable in `byte_width` bytes — a packed, in-bounds, non-decreasing row
set is carried to one for the new state. -/
theorem recordStep_spec (s : WFDD K V) (key : K)
    (res : Except (Bytes × Nat) (Bytes × Nat × List Nat)) (s' : WFDD K V)
    (x : Except (WFDD K V) (WFDD K V))
    (hx : (match res with
      | Except.error e =>
        (Except.error { s with fileData := e.1, filePos := e.2 } :
          Except (WFDD K V) (WFDD K V))
      | Except.ok out => recordRow s key out s.filePos) = x)
    (hok : ∀ f' p' ps, res = .ok (f', p', ps) →
      p' = f'.length ∧ (∃ ext, f' = s.fileData ++ ext) ∧
      List.Chain' (· ≤ ·) (s.fileData.length :: ps) ∧ (∀ x ∈ ps, x ≤ p') ∧
      s.fileData.length ≤ p')
    (herr : ∀ e, res = .error e → e.2 = e.1.length ∧ ∃ ext, e.1 = s.fileData ++ ext)
    (hk : key ∉ s.index.index)
    (hpos : s.filePos = s.fileData.length)
    (hstep : x = Except.ok s' ∨ x = Except.error s') :
    s'.filePos = s'.fileData.length ∧
    (∃ ext, s'.fileData = s.fileData ++ ext) ∧
    s'.index.byte_width = s.index.byte_width ∧
    s'.index.num_vals = s.index.num_vals ∧
    s'.unfinished = s.unfinished ∧ s'.props = s.props ∧ s'.splits = s.splits ∧
    (s'.fileData.length < 256 ^ s.index.byte_width →
      ∀ rows, GWF s.index rows →
      (∀ r ∈ rows, List.Chain' (· ≤ ·) r ∧ ∀ y ∈ r, y ≤ s.fileData.length) →
      ∃ rows', GWF s'.index rows' ∧
        ∀ r ∈ rows', List.Chain' (· ≤ ·) r ∧ ∀ y ∈ r, y ≤ s'.fileData.length) := by
  match hres : res with
  | .error e =>
    obtain ⟨he2, ext, he1⟩ := herr e rfl
    have hext_len : s.fileData.length ≤ e.1.length := by
      rw [he1]; simp
    have hx2 : (Except.error { s with fileData := e.1, filePos := e.2 } :
        Except (WFDD K V) (WFDD K V)) = x := hx
    rcases hstep with hs | hs
    · rw [hs] at hx2
      exact absurd hx2 (by simp)
    · rw [hs] at hx2
      injection hx2 with hx2
      rw [← hx2]
      refine ⟨he2, ⟨ext, he1⟩, rfl, rfl, rfl, rfl, rfl, ?_⟩
      intro _ rows hg hb
      exact ⟨rows, hg, fun r hr =>
        ⟨(hb r hr).1, fun y hy => le_trans ((hb r hr).2 y hy) hext_len⟩⟩
  | .ok (f1, p1, ps1) =>
    obtain ⟨hp1, ⟨ext, hf1⟩, hch, hle, hfle⟩ := hok f1 p1 ps1 rfl
    have hx2 : recordRow s key (f1, p1, ps1) s.filePos = x := hx
    unfold recordRow at hx2
    match hsk : s.index.setK key (s.filePos :: ps1) with
    | .ok g1 =>
      rw [hsk] at hx2
      rcases hstep with hs | hs
      · rw [hs] at hx2
        injection hx2 with hx2
        obtain ⟨hbd, hg1⟩ := setK_new_ok_inv _ _ _ _ hk hsk
        have hlen := setK_ok_len _ _ _ _ hsk
        rw [← hx2]
        refine ⟨hp1, ⟨ext, hf1⟩, by rw [hg1], by rw [hg1], rfl, rfl, rfl, ?_⟩
        intro _ rows hg hb
        refine ⟨rows ++ [s.filePos :: ps1], ?_, ?_⟩
        · rw [hg1]
          exact gwf_append s.index rows hg key _ hk hlen hbd
        · intro r hr
          rcases List.mem_append.mp hr with h | h
          · exact ⟨(hb r h).1, fun y hy =>
              le_trans ((hb r h).2 y hy) (by rw [hf1]; simp)⟩
          · simp at h
            rw [h]
            constructor
            · rw [hpos]
              exact hch
            · intro y hy
              rcases List.mem_cons.mp hy with h1 | h1
              · rw [h1, hpos]
                exact hp1 ▸ hfle
              · exact hp1 ▸ hle y h1
      · rw [hs] at hx2
        exact absurd hx2 (by simp)
    | .error g1 =>
      rw [hsk] at hx2
      rcases hstep with hs | hs
      · rw [hs] at hx2
        exact absurd hx2 (by simp)
      · rw [hs] at hx2
        injection hx2 with hx2
        obtain ⟨hnv1, hw1, hcase⟩ := setK_err_inv _ _ _ _ hk hsk
        rw [← hx2]
        refine ⟨hp1, ⟨ext, hf1⟩, hw1, hnv1, rfl, rfl, rfl, ?_⟩
        intro hbound rows hg hb
        rcases hcase with hsame | ⟨v, hv, hvge⟩
        · rw [hsame]
          refine ⟨rows, hg, fun r hr =>
            ⟨(hb r hr).1, fun y hy => le_trans ((hb r hr).2 y hy)
              (by rw [hf1]; simp)⟩⟩
        · exfalso
          have hvle : v ≤ p1 := by
            rcases List.mem_cons.mp hv with h1 | h1
            · rw [h1, hpos]
              exact hfle
            · exact hle v h1
          rw [hp1] at hvle
          exact absurd (lt_of_le_of_lt (le_trans hvge hvle) hbound) (lt_irrefl _)

/-- One `__setitem__` call, whether it returns or raises: the cursor tracks
the file end, the file only grows, the index geometry is kept, the setter
dict, custom properties and splits are untouched, and under the address-
bound the packed non-decreasing row set is carried along. -/
theorem setitemR_step (cfg : WCfg V) (s : WFDD K V) (key : K) (item : WItem V)
    (s' : WFDD K V)
    (hpos : s.filePos = s.fileData.length)
    (hstep : WFDD.setitemR cfg s key item = Except.ok s' ∨
      WFDD.setitemR cfg s key item = Except.error s') :
    s'.filePos = s'.fileData.length ∧
    (∃ ext, s'.fileData = s.fileData ++ ext) ∧
    s'.index.byte_width = s.index.byte_width ∧
    s'.index.num_vals = s.index.num_vals ∧
    s'.unfinished = s.unfinished ∧ s'.props = s.props ∧ s'.splits = s.splits ∧
    (s'.fileData.length < 256 ^ s.index.byte_width →
      ∀ rows, GWF s.index rows →
      (∀ r ∈ rows, List.Chain' (· ≤ ·) r ∧ ∀ y ∈ r, y ≤ s.fileData.length) →
      ∃ rows', GWF s'.index rows' ∧
        ∀ r ∈ rows', List.Chain' (· ≤ ·) r ∧ ∀ y ∈ r, y ≤ s'.fileData.length) := by
  unfold WFDD.setitemR at hstep
  by_cases hk : key ∈ s.index.index
  · rw [if_pos hk] at hstep
    rcases hstep with h | h
    · exact absurd h (by simp)
    · injection h with h
      rw [← h]
      exact ⟨hpos, ⟨[], by simp⟩, rfl, rfl, rfl, rfl, rfl,
        fun _ rows hg hb => ⟨rows, hg, hb⟩⟩
  · rw [if_neg hk] at hstep
    match hcol : cfg.columns with
    | none =>
      rw [hcol] at hstep
      match item with
      | .plain v =>
        rw [hpos] at hstep
        refine recordStep_spec s key
          (writeCells (fun _ => cfg.noColSer) s.fileData s.fileData.length 0 [v]) s'
          _ (by rw [hpos]) (fun f' p' ps h => ?_) (fun e he => writeCells_err _ _ _ _ _ he)
          hk hpos hstep
        obtain ⟨h1, h2, h3, h4, h5, _⟩ := writeCells_ok_shape _ _ _ _ _ _ _ h
        exact ⟨h1, h2, h3, h4, h5⟩
      | .rowv o c f =>
        have hstep2 : (Except.error s : Except (WFDD K V) (WFDD K V)) =
            Except.ok s' ∨
            (Except.error s : Except (WFDD K V) (WFDD K V)) = Except.error s' :=
          hstep
        rcases hstep2 with h | h
        · exact absurd h (by simp)
        · injection h with h
          rw [← h]
          exact ⟨hpos, ⟨[], by simp⟩, rfl, rfl, rfl, rfl, rfl,
            fun _ rows hg hb => ⟨rows, hg, hb⟩⟩
      | .dict m =>
        rcases hstep with h | h
        · exact absurd h (by simp)
        · injection h with h
          rw [← h]
          exact ⟨hpos, ⟨[], by simp⟩, rfl, rfl, rfl, rfl, rfl,
            fun _ rows hg hb => ⟨rows, hg, hb⟩⟩
      | .tup t =>
        rcases hstep with h | h
        · exact absurd h (by simp)
        · injection h with h
          rw [← h]
          exact ⟨hpos, ⟨[], by simp⟩, rfl, rfl, rfl, rfl, rfl,
            fun _ rows hg hb => ⟨rows, hg, hb⟩⟩
      | .obj a =>
        rcases hstep with h | h
        · exact absurd h (by simp)
        · injection h with h
          rw [← h]
          exact ⟨hpos, ⟨[], by simp⟩, rfl, rfl, rfl, rfl, rfl,
            fun _ rows hg hb => ⟨rows, hg, hb⟩⟩
    | some cols =>
      rw [hcol] at hstep
      match item with
      | .rowv offsets cache srcFile =>
        rw [hpos] at hstep
        refine recordStep_spec s key
          (rowCopyCells cfg.colSer srcFile offsets cache s.fileData
            s.fileData.length 0 cols.length) s'
          _ (by rw [hpos]) (fun f' p' ps h => ?_) (fun e he => rowCopyCells_err _ _ _ _ _ _ _ _ he)
          hk hpos hstep
        obtain ⟨h1, h2, h3, h4, h5, _⟩ := rowCopyCells_ok_shape _ _ _ _ _ _ _ _ _ _ h
        exact ⟨h1, h2, h3, h4, h5⟩
      | .dict m =>
        have hstep2 : (match normalizeItem cols (WItem.dict m : WItem V) with
            | none => (Except.error s : Except (WFDD K V) (WFDD K V))
            | some vals =>
              match writeCells cfg.colSer s.fileData s.filePos 0 vals with
              | Except.error e =>
                Except.error { s with fileData := e.1, filePos := e.2 }
              | Except.ok out => recordRow s key out s.filePos) = Except.ok s' ∨
            (match normalizeItem cols (WItem.dict m : WItem V) with
            | none => (Except.error s : Except (WFDD K V) (WFDD K V))
            | some vals =>
              match writeCells cfg.colSer s.fileData s.filePos 0 vals with
              | Except.error e =>
                Except.error { s with fileData := e.1, filePos := e.2 }
              | Except.ok out => recordRow s key out s.filePos) =
              Except.error s' := hstep
        match hn : normalizeItem cols (WItem.dict m : WItem V) with
        | none =>
          rw [hn] at hstep2
          rcases hstep2 with h | h
          · exact absurd h (by simp)
          · injection h with h
            rw [← h]
            exact ⟨hpos, ⟨[], by simp⟩, rfl, rfl, rfl, rfl, rfl,
              fun _ rows hg hb => ⟨rows, hg, hb⟩⟩
        | some vals =>
          rw [hn, hpos] at hstep2
          refine recordStep_spec s key
            (writeCells cfg.colSer s.fileData s.fileData.length 0 vals) s'
            _ (by rw [hpos]) (fun f' p' ps h => ?_) (fun e he => writeCells_err _ _ _ _ _ he)
            hk hpos hstep2
          obtain ⟨h1, h2, h3, h4, h5, _⟩ := writeCells_ok_shape _ _ _ _ _ _ _ h
          exact ⟨h1, h2, h3, h4, h5⟩
      | .tup t =>
        have hstep2 : (match normalizeItem cols (WItem.tup t : WItem V) with
            | none => (Except.error s : Except (WFDD K V) (WFDD K V))
            | some vals =>
              match writeCells cfg.colSer s.fileData s.filePos 0 vals with
              | Except.error e =>
                Except.error { s with fileData := e.1, filePos := e.2 }
              | Except.ok out => recordRow s key out s.filePos) = Except.ok s' ∨
            (match normalizeItem cols (WItem.tup t : WItem V) with
            | none => (Except.error s : Except (WFDD K V) (WFDD K V))
            | some vals =>
              match writeCells cfg.colSer s.fileData s.filePos 0 vals with
              | Except.error e =>
                Except.error { s with fileData := e.1, filePos := e.2 }
              | Except.ok out => recordRow s key out s.filePos) =
              Except.error s' := hstep
        match hn : normalizeItem cols (WItem.tup t : WItem V) with
        | none =>
          rw [hn] at hstep2
          rcases hstep2 with h | h
          · exact absurd h (by simp)
          · injection h with h
            rw [← h]
            exact ⟨hpos, ⟨[], by simp⟩, rfl, rfl, rfl, rfl, rfl,
              fun _ rows hg hb => ⟨rows, hg, hb⟩⟩
        | some vals =>
          rw [hn, hpos] at hstep2
          refine recordStep_spec s key
            (writeCells cfg.colSer s.fileData s.fileData.length 0 vals) s'
            _ (by rw [hpos]) (fun f' p' ps h => ?_) (fun e he => writeCells_err _ _ _ _ _ he)
            hk hpos hstep2
          obtain ⟨h1, h2, h3, h4, h5, _⟩ := writeCells_ok_shape _ _ _ _ _ _ _ h
          exact ⟨h1, h2, h3, h4, h5⟩
      | .obj a =>
        have hstep2 : (match normalizeItem cols (WItem.obj a : WItem V) with
            | none => (Except.error s : Except (WFDD K V) (WFDD K V))
            | some vals =>
              match writeCells cfg.colSer s.fileData s.filePos 0 vals with
              | Except.error e =>
                Except.error { s with fileData := e.1, filePos := e.2 }
              | Except.ok out => recordRow s key out s.filePos) = Except.ok s' ∨
            (match normalizeItem cols (WItem.obj a : WItem V) with
            | none => (Except.error s : Except (WFDD K V) (WFDD K V))
            | some vals =>
              match writeCells cfg.colSer s.fileData s.filePos 0 vals with
              | Except.error e =>
                Except.error { s with fileData := e.1, filePos := e.2 }
              | Except.ok out => recordRow s key out s.filePos) =
              Except.error s' := hstep
        match hn : normalizeItem cols (WItem.obj a : WItem V) with
        | none =>
          rw [hn] at hstep2
          rcases hstep2 with h | h
          · exact absurd h (by simp)
          · injection h with h
            rw [← h]
            exact ⟨hpos, ⟨[], by simp⟩, rfl, rfl, rfl, rfl, rfl,
              fun _ rows hg hb => ⟨rows, hg, hb⟩⟩
        | some vals =>
          rw [hn, hpos] at hstep2
          refine recordStep_spec s key
            (writeCells cfg.colSer s.fileData s.fileData.length 0 vals) s'
            _ (by rw [hpos]) (fun f' p' ps h => ?_) (fun e he => writeCells_err _ _ _ _ _ he)
            hk hpos hstep2
          obtain ⟨h1, h2, h3, h4, h5, _⟩ := writeCells_ok_shape _ _ _ _ _ _ _ h
          exact ⟨h1, h2, h3, h4, h5⟩
      | .plain v =>
        have hstep2 : (match normalizeItem cols (WItem.plain v : WItem V) with
            | none => (Except.error s : Except (WFDD K V) (WFDD K V))
            | some vals =>
              match writeCells cfg.colSer s.fileData s.filePos 0 vals with
              | Except.error e =>
                Except.error { s with fileData := e.1, filePos := e.2 }
              | Except.ok out => recordRow s key out s.filePos) = Except.ok s' ∨
            (match normalizeItem cols (WItem.plain v : WItem V) with
            | none => (Except.error s : Except (WFDD K V) (WFDD K V))
            | some vals =>
              match writeCells cfg.colSer s.fileData s.filePos 0 vals with
              | Except.error e =>
                Except.error { s with fileData := e.1, filePos := e.2 }
              | Except.ok out => recordRow s key out s.filePos) =
              Except.error s' := hstep
        rw [show normalizeItem cols (WItem.plain v : WItem V) = none from rfl]
          at hstep2
        rcases hstep2 with h | h
        · exact absurd h (by simp)
        · injection h with h
          rw [← h]
          exact ⟨hpos, ⟨[], by simp⟩, rfl, rfl, rfl, rfl, rfl,
            fun _ rows hg hb => ⟨rows, hg, hb⟩⟩

/-- Over any op sequence the cursor stays at the end, the file only grows
and the index geometry is fixed. -/
theorem runOps_mono (cfg : WCfg V) (ops : List (K × WItem V)) :
    ∀ s : WFDD K V, s.filePos = s.fileData.length →
    (runOps cfg s ops).filePos = (runOps cfg s ops).fileData.length ∧
    (∃ ext, (runOps cfg s ops).fileData = s.fileData ++ ext) ∧
    (runOps cfg s ops).index.byte_width = s.index.byte_width ∧
    (runOps cfg s ops).index.num_vals = s.index.num_vals := by
  induction ops with
  | nil =>
    intro s hpos
    exact ⟨hpos, ⟨[], by simp [runOps]⟩, rfl, rfl⟩
  | cons op t ih =>
    intro s hpos
    match hres : WFDD.setitemR cfg s op.1 op.2 with
    | .ok s1 =>
      have hrun : runOps cfg s (op :: t) = runOps cfg s1 t := by
        simp only [runOps, List.foldl_cons, hres]
      obtain ⟨h1, ⟨e1, h2⟩, h3, h4, _⟩ :=
        setitemR_step cfg s op.1 op.2 s1 hpos (Or.inl hres)
      obtain ⟨g1, ⟨e2, g2⟩, g3, g4⟩ := ih s1 h1
      rw [hrun]
      exact ⟨g1, ⟨e1 ++ e2, by rw [g2, h2, List.append_assoc]⟩,
        by rw [g3, h3], by rw [g4, h4]⟩
    | .error s1 =>
      have hrun : runOps cfg s (op :: t) = runOps cfg s1 t := by
        simp only [runOps, List.foldl_cons, hres]
      obtain ⟨h1, ⟨e1, h2⟩, h3, h4, _⟩ :=
        setitemR_step cfg s op.1 op.2 s1 hpos (Or.inr hres)
      obtain ⟨g1, ⟨e2, g2⟩, g3, g4⟩ := ih s1 h1
      rw [hrun]
      exact ⟨g1, ⟨e1 ++ e2, by rw [g2, h2, List.append_assoc]⟩,
        by rw [g3, h3], by rw [g4, h4]⟩

/-- The row-offset invariant holds after any op sequence, provided the final
file is still addressable in the index's `byte_width` bytes. -/
theorem runOps_inv (cfg : WCfg V) (ops : List (K × WItem V)) :
    ∀ s : WFDD K V, s.filePos = s.fileData.length →
    (runOps cfg s ops).fileData.length < 256 ^ s.index.byte_width →
    ∀ rows, GWF s.index rows →
    (∀ r ∈ rows, List.Chain' (· ≤ ·) r ∧ ∀ y ∈ r, y ≤ s.fileData.length) →
    ∃ rows', GWF (runOps cfg s ops).index rows' ∧
      ∀ r ∈ rows', List.Chain' (· ≤ ·) r ∧
        ∀ y ∈ r, y ≤ (runOps cfg s ops).fileData.length := by
  induction ops with
  | nil =>
    intro s _ _ rows hg hb
    exact ⟨rows, hg, hb⟩
  | cons op t ih =>
    intro s hpos hbound rows hg hb
    match hres : WFDD.setitemR cfg s op.1 op.2 with
    | .ok s1 =>
      have hrun : runOps cfg s (op :: t) = runOps cfg s1 t := by
        simp only [runOps, List.foldl_cons, hres]
      obtain ⟨h1, ⟨e1, h2⟩, h3, h4, _, _, _, hcond⟩ :=
        setitemR_step cfg s op.1 op.2 s1 hpos (Or.inl hres)
      rw [hrun] at hbound ⊢
      obtain ⟨_, ⟨e2, g2⟩, _, _⟩ := runOps_mono cfg t s1 h1
      have hb1 : s1.fileData.length < 256 ^ s.index.byte_width := by
        have : s1.fileData.length ≤ (runOps cfg s1 t).fileData.length := by
          rw [g2]; simp
        omega
      obtain ⟨rows1, hg1, hbb1⟩ := hcond hb1 rows hg hb
      exact ih s1 h1 (by rw [h3]; exact hbound) rows1 hg1 hbb1
    | .error s1 =>
      have hrun : runOps cfg s (op :: t) = runOps cfg s1 t := by
        simp only [runOps, List.foldl_cons, hres]
      obtain ⟨h1, ⟨e1, h2⟩, h3, h4, _, _, _, hcond⟩ :=
        setitemR_step cfg s op.1 op.2 s1 hpos (Or.inr hres)
      rw [hrun] at hbound ⊢
      obtain ⟨_, ⟨e2, g2⟩, _, _⟩ := runOps_mono cfg t s1 h1
      have hb1 : s1.fileData.length < 256 ^ s.index.byte_width := by
        have : s1.fileData.length ≤ (runOps cfg s1 t).fileData.length := by
          rw [g2]; simp
        omega
      obtain ⟨rows1, hg1, hbb1⟩ := hcond hb1 rows hg hb
      exact ih s1 h1 (by rw [h3]; exact hbound) rows1 hg1 hbb1

end WriterOk

/-! ## Lemmas: close writes the trailer, open reads it back -/

section CloseOpen

variable {K V : Type} [DecidableEq K]

theorem closeFlush_nil (cfg : WCfg V) (s : WFDD K V) (hu : s.unfinished = []) :
    closeFlush cfg s = some s := by
  unfold closeFlush
  rw [hu]
  rfl

theorem closeSections_nocols (cfg : WCfg V) (sys : SysCodec K) (s : WFDD K V)
    (hcol : cfg.columns = none) (hp : s.props = []) (hsp : s.splits = [])
    (hpos : s.filePos = s.fileData.length) :
    closeSections cfg sys s =
      ((s.fileData ++ sys.serIdx s.index,
        s.fileData.length + (sys.serIdx s.index).length),
       [("_split_all_rows",
         s.fileData.length, s.fileData.length + (sys.serIdx s.index).length)]) := by
  unfold closeSections
  rw [hcol, hp, hsp, hpos]
  simp [dictAssign, appendSec, writeAt_append]

theorem closeSections_cols (cfg : WCfg V) (sys : SysCodec K) (s : WFDD K V)
    (cols : List String)
    (hcol : cfg.columns = some cols) (hp : s.props = []) (hsp : s.splits = [])
    (hpos : s.filePos = s.fileData.length) :
    closeSections cfg sys s =
      ((s.fileData ++ cfg.colDefBytes ++ sys.serIdx s.index ++ sys.serCols cols,
        s.fileData.length + cfg.colDefBytes.length +
          (sys.serIdx s.index).length + (sys.serCols cols).length),
       [("_column_def_",
         s.fileData.length, s.fileData.length + cfg.colDefBytes.length),
        ("_split_all_rows",
         s.fileData.length + cfg.colDefBytes.length,
         s.fileData.length + cfg.colDefBytes.length + (sys.serIdx s.index).length),
        ("_columns_",
         s.fileData.length + cfg.colDefBytes.length + (sys.serIdx s.index).length,
         s.fileData.length + cfg.colDefBytes.length + (sys.serIdx s.index).length +
           (sys.serCols cols).length)]) := by
  unfold closeSections
  rw [hcol, hp, hsp, hpos]
  have h1 : writeAt s.fileData s.fileData.length cfg.colDefBytes =
      s.fileData ++ cfg.colDefBytes := writeAt_append _ _
  have h2 : writeAt (s.fileData ++ cfg.colDefBytes)
      (s.fileData.length + cfg.colDefBytes.length) (sys.serIdx s.index) =
      s.fileData ++ cfg.colDefBytes ++ sys.serIdx s.index := by
    have := writeAt_append (s.fileData ++ cfg.colDefBytes) (sys.serIdx s.index)
    rw [List.length_append] at this
    exact this
  have h3 : writeAt (s.fileData ++ cfg.colDefBytes ++ sys.serIdx s.index)
      (s.fileData.length + cfg.colDefBytes.length + (sys.serIdx s.index).length)
      (sys.serCols cols) =
      s.fileData ++ cfg.colDefBytes ++ sys.serIdx s.index ++ sys.serCols cols := by
    have := writeAt_append (s.fileData ++ cfg.colDefBytes ++ sys.serIdx s.index)
      (sys.serCols cols)
    rw [List.length_append, List.length_append] at this
    exact this
  simp [dictAssign, appendSec, h1, h2, h3]
  simp only [← List.append_assoc]
  exact h3

theorem close_nocols (cfg : WCfg V) (sys : SysCodec K) (s : WFDD K V)
    (hcol : cfg.columns = none) (hu : s.unfinished = [])
    (hp : s.props = []) (hsp : s.splits = [])
    (hpos : s.filePos = s.fileData.length) :
    WFDD.close cfg sys s = some
      (s.fileData ++ sys.serIdx s.index ++
        sys.serTable [("_split_all_rows",
          s.fileData.length, s.fileData.length + (sys.serIdx s.index).length)] ++
        natToLE 8 (sys.serTable [("_split_all_rows",
          s.fileData.length,
          s.fileData.length + (sys.serIdx s.index).length)]).length) := by
  have h2 : ∀ tb : Bytes,
      writeAt (s.fileData ++ sys.serIdx s.index)
        (s.fileData.length + (sys.serIdx s.index).length) tb =
      s.fileData ++ sys.serIdx s.index ++ tb := by
    intro tb
    have := writeAt_append (s.fileData ++ sys.serIdx s.index) tb
    rw [List.length_append] at this
    exact this
  have h3 : ∀ tb nl : Bytes,
      writeAt (s.fileData ++ sys.serIdx s.index ++ tb)
        (s.fileData.length + (sys.serIdx s.index).length + tb.length) nl =
      s.fileData ++ sys.serIdx s.index ++ tb ++ nl := by
    intro tb nl
    have := writeAt_append (s.fileData ++ sys.serIdx s.index ++ tb) nl
    rw [List.length_append, List.length_append] at this
    exact this
  unfold WFDD.close
  rw [closeFlush_nil cfg s hu]
  simp only [Option.map_some, Option.map_some', closeSections_nocols cfg sys s hcol hp hsp hpos,
    appendSec, h2, h3]

theorem close_cols (cfg : WCfg V) (sys : SysCodec K) (s : WFDD K V)
    (cols : List String)
    (hcol : cfg.columns = some cols) (hu : s.unfinished = [])
    (hp : s.props = []) (hsp : s.splits = [])
    (hpos : s.filePos = s.fileData.length) :
    WFDD.close cfg sys s = some
      (s.fileData ++ cfg.colDefBytes ++ sys.serIdx s.index ++ sys.serCols cols ++
        sys.serTable [("_column_def_",
          s.fileData.length, s.fileData.length + cfg.colDefBytes.length),
         ("_split_all_rows",
          s.fileData.length + cfg.colDefBytes.length,
          s.fileData.length + cfg.colDefBytes.length + (sys.serIdx s.index).length),
         ("_columns_",
          s.fileData.length + cfg.colDefBytes.length + (sys.serIdx s.index).length,
          s.fileData.length + cfg.colDefBytes.length + (sys.serIdx s.index).length +
            (sys.serCols cols).length)] ++
        natToLE 8 (sys.serTable [("_column_def_",
          s.fileData.length, s.fileData.length + cfg.colDefBytes.length),
         ("_split_all_rows",
          s.fileData.length + cfg.colDefBytes.length,
          s.fileData.length + cfg.colDefBytes.length + (sys.serIdx s.index).length),
         ("_columns_",
          s.fileData.length + cfg.colDefBytes.length + (sys.serIdx s.index).length,
          s.fileData.length + cfg.colDefBytes.length + (sys.serIdx s.index).length +
            (sys.serCols cols).length)]).length) := by
  have hlen : (s.fileData ++ cfg.colDefBytes ++ sys.serIdx s.index ++
      sys.serCols cols).length =
      s.fileData.length + cfg.colDefBytes.length + (sys.serIdx s.index).length +
        (sys.serCols cols).length := by
    simp only [List.length_append]
  have h2 : ∀ tb : Bytes,
      writeAt (s.fileData ++ cfg.colDefBytes ++ sys.serIdx s.index ++ sys.serCols cols)
        (s.fileData.length + cfg.colDefBytes.length + (sys.serIdx s.index).length +
          (sys.serCols cols).length) tb =
      s.fileData ++ cfg.colDefBytes ++ sys.serIdx s.index ++ sys.serCols cols ++ tb := by
    intro tb
    have := writeAt_append
      (s.fileData ++ cfg.colDefBytes ++ sys.serIdx s.index ++ sys.serCols cols) tb
    rw [hlen] at this
    exact this
  have h3 : ∀ tb nl : Bytes,
      writeAt (s.fileData ++ cfg.colDefBytes ++ sys.serIdx s.index ++
          sys.serCols cols ++ tb)
        (s.fileData.length + cfg.colDefBytes.length + (sys.serIdx s.index).length +
          (sys.serCols cols).length + tb.length) nl =
      s.fileData ++ cfg.colDefBytes ++ sys.serIdx s.index ++ sys.serCols cols ++
        tb ++ nl := by
    intro tb nl
    have := writeAt_append
      (s.fileData ++ cfg.colDefBytes ++ sys.serIdx s.index ++ sys.serCols cols ++ tb)
      nl
    rw [List.length_append, hlen] at this
    exact this
  unfold WFDD.close
  rw [closeFlush_nil cfg s hu]
  simp only [Option.map_some, Option.map_some', closeSections_cols cfg sys s cols hcol hp hsp hpos,
    appendSec, h2, h3]

theorem openReader_trailer (sys : SysCodec K) (split : String) (body tb : Bytes)
    (table : List (String × Nat × Nat))
    (hTb : sys.deserTable tb = some table)
    (hL : tb.length < 256 ^ 8) :
    openReader (V := V) sys split (body ++ tb ++ natToLE 8 tb.length) =
      ((match alookup table "_columns_" with
        | none => some none
        | some r =>
          (sys.deserCols (chunk (body ++ tb ++ natToLE 8 tb.length) r.1 r.2)).map
            fun cs => some (cs.enum.map fun p => (p.2, p.1))) :
        Option (Option (List (String × Nat)))).bind fun cols? =>
      (alookup (table.filterMap fun p =>
        if "_split_".data.isPrefixOf p.1.data then some (p.1.drop 7, p.2)
        else none) split).bind fun r =>
      if chunk (body ++ tb ++ natToLE 8 tb.length) r.1 (r.1 + 1) = [1] then none
      else
        (sys.deserIdx (chunk (body ++ tb ++ natToLE 8 tb.length) r.1 r.2)).map
          fun idx => ⟨body ++ tb ++ natToLE 8 tb.length, idx, cols?⟩ := by
  have hflen : (body ++ tb ++ natToLE 8 tb.length).length =
      body.length + tb.length + 8 := by
    simp [natToLE_length]
    omega
  have hlast : chunk (body ++ tb ++ natToLE 8 tb.length)
      (body.length + tb.length + 8 - 8) (body.length + tb.length + 8) =
      natToLE 8 tb.length := by
    have := chunk_at_append (body ++ tb) (natToLE 8 tb.length) []
    rw [List.append_nil, List.length_append, natToLE_length] at this
    rw [show body.length + tb.length + 8 - 8 = body.length + tb.length by omega]
    exact this
  have hmid : chunk (body ++ tb ++ natToLE 8 tb.length)
      (body.length + tb.length + 8 - 8 - tb.length)
      (body.length + tb.length + 8 - 8) = tb := by
    have := chunk_at_append body tb (natToLE 8 tb.length)
    rw [List.append_assoc]
    rw [show body.length + tb.length + 8 - 8 - tb.length = body.length by omega,
      show body.length + tb.length + 8 - 8 = body.length + tb.length by omega]
    exact this
  unfold openReader
  rw [hflen]
  rw [if_neg (by omega), hlast, leToNat_natToLE 8 tb.length hL,
    if_neg (by omega), hmid, hTb]
  rfl

theorem chunk_head_append (A B R : Bytes) (h : B ≠ []) :
    chunk (A ++ (B ++ R)) A.length (A.length + 1) = B.take 1 := by
  unfold chunk
  rw [List.drop_left, Nat.add_sub_cancel_left, List.take_append_eq_append_take]
  rw [Nat.sub_eq_zero_of_le (by cases B with
    | nil => exact absurd rfl h
    | cons a t => simp), List.take_zero, List.append_nil]

theorem reopen_nocols (sys : SysCodec K) (s : WFDD K V) (ib tb : Bytes)
    (hib : ib = sys.serIdx s.index)
    (htb : tb = sys.serTable [("_split_all_rows",
      s.fileData.length, s.fileData.length + ib.length)])
    (hTb : sys.deserTable tb = some [("_split_all_rows",
      s.fileData.length, s.fileData.length + ib.length)])
    (hL : tb.length < 256 ^ 8)
    (hibne : ib ≠ [])
    (hMark : ib.take 1 ≠ [1])
    (hIdx : sys.deserIdx ib = some s.index) :
    openReader (V := V) sys "all_rows"
      (s.fileData ++ ib ++ tb ++ natToLE 8 tb.length) =
      some ⟨s.fileData ++ ib ++ tb ++ natToLE 8 tb.length, s.index, none⟩ := by
  have htr := openReader_trailer (V := V) sys "all_rows" (s.fileData ++ ib) tb
    [("_split_all_rows", s.fileData.length, s.fileData.length + ib.length)] hTb hL
  simp only [List.append_assoc] at htr ⊢
  rw [htr]
  have hcols : alookup [(("_split_all_rows" : String),
      (s.fileData.length, s.fileData.length + ib.length))] "_columns_" = none := by
    simp [alookup]
  have hpre : ("_split_".data.isPrefixOf "_split_all_rows".data) = true := by decide
  have hdrop : ("_split_all_rows".drop 7) = "all_rows" := by decide
  have hmark1 : chunk (s.fileData ++ (ib ++ (tb ++ natToLE 8 tb.length)))
      s.fileData.length (s.fileData.length + 1) = ib.take 1 :=
    chunk_head_append _ _ _ hibne
  have hfull : chunk (s.fileData ++ (ib ++ (tb ++ natToLE 8 tb.length)))
      s.fileData.length (s.fileData.length + ib.length) = ib :=
    chunk_at_append _ _ _
  have hlook : alookup [(("all_rows" : String),
      (s.fileData.length, s.fileData.length + ib.length))] "all_rows" =
      some (s.fileData.length, s.fileData.length + ib.length) := by
    simp [alookup]
  simp only [hcols, Option.some_bind, List.filterMap_cons, List.filterMap_nil,
    hpre, hdrop, if_true, hlook, hmark1, hfull, if_neg hMark, hIdx,
    Option.map_some']

theorem reopen_cols (sys : SysCodec K) (s : WFDD K V) (cols : List String)
    (cd ib sc tb : Bytes)
    (hib : ib = sys.serIdx s.index) (hsc : sc = sys.serCols cols)
    (htb : tb = sys.serTable [("_column_def_",
        s.fileData.length, s.fileData.length + cd.length),
      ("_split_all_rows",
        s.fileData.length + cd.length,
        s.fileData.length + cd.length + ib.length),
      ("_columns_",
        s.fileData.length + cd.length + ib.length,
        s.fileData.length + cd.length + ib.length + sc.length)])
    (hTb : sys.deserTable tb = some [("_column_def_",
        s.fileData.length, s.fileData.length + cd.length),
      ("_split_all_rows",
        s.fileData.length + cd.length,
        s.fileData.length + cd.length + ib.length),
      ("_columns_",
        s.fileData.length + cd.length + ib.length,
        s.fileData.length + cd.length + ib.length + sc.length)])
    (hL : tb.length < 256 ^ 8)
    (hibne : ib ≠ [])
    (hMark : ib.take 1 ≠ [1])
    (hIdx : sys.deserIdx ib = some s.index)
    (hCols : sys.deserCols sc = some cols) :
    openReader (V := V) sys "all_rows"
      (s.fileData ++ cd ++ ib ++ sc ++ tb ++ natToLE 8 tb.length) =
      some ⟨s.fileData ++ cd ++ ib ++ sc ++ tb ++ natToLE 8 tb.length, s.index,
        some (cols.enum.map fun p => (p.2, p.1))⟩ := by
  have htr := openReader_trailer (V := V) sys "all_rows"
    (s.fileData ++ cd ++ ib ++ sc) tb
    [("_column_def_", s.fileData.length, s.fileData.length + cd.length),
     ("_split_all_rows",
       s.fileData.length + cd.length,
       s.fileData.length + cd.length + ib.length),
     ("_columns_",
       s.fileData.length + cd.length + ib.length,
       s.fileData.length + cd.length + ib.length + sc.length)] hTb hL
  simp only [List.append_assoc] at htr ⊢
  rw [htr]
  have hcollook : alookup
      [(("_column_def_" : String),
        (s.fileData.length, s.fileData.length + cd.length)),
       (("_split_all_rows" : String),
        (s.fileData.length + cd.length,
         s.fileData.length + cd.length + ib.length)),
       (("_columns_" : String),
        (s.fileData.length + cd.length + ib.length,
         s.fileData.length + cd.length + ib.length + sc.length))] "_columns_" =
      some (s.fileData.length + cd.length + ib.length,
        s.fileData.length + cd.length + ib.length + sc.length) := by
    simp [alookup]
  have hpre1 : ("_split_".data.isPrefixOf "_column_def_".data) = false := by decide
  have hpre2 : ("_split_".data.isPrefixOf "_split_all_rows".data) = true := by decide
  have hpre3 : ("_split_".data.isPrefixOf "_columns_".data) = false := by decide
  have hdrop : ("_split_all_rows".drop 7) = "all_rows" := by decide
  have hsc_chunk : chunk
      (s.fileData ++ (cd ++ (ib ++ (sc ++ (tb ++ natToLE 8 tb.length)))))
      (s.fileData.length + cd.length + ib.length)
      (s.fileData.length + cd.length + ib.length + sc.length) = sc := by
    have := chunk_at_append (s.fileData ++ cd ++ ib) sc (tb ++ natToLE 8 tb.length)
    rw [List.length_append, List.length_append] at this
    simp only [List.append_assoc] at this
    exact this
  have hmark1 : chunk
      (s.fileData ++ (cd ++ (ib ++ (sc ++ (tb ++ natToLE 8 tb.length)))))
      (s.fileData.length + cd.length) (s.fileData.length + cd.length + 1) =
      ib.take 1 := by
    have := chunk_head_append (s.fileData ++ cd) ib
      (sc ++ (tb ++ natToLE 8 tb.length))
    rw [List.length_append] at this
    simp only [List.append_assoc] at this
    exact this hibne
  have hib_chunk : chunk
      (s.fileData ++ (cd ++ (ib ++ (sc ++ (tb ++ natToLE 8 tb.length)))))
      (s.fileData.length + cd.length)
      (s.fileData.length + cd.length + ib.length) = ib := by
    have := chunk_at_append (s.fileData ++ cd) ib (sc ++ (tb ++ natToLE 8 tb.length))
    rw [List.length_append] at this
    simp only [List.append_assoc] at this
    exact this
  have hlook : alookup [(("all_rows" : String),
      (s.fileData.length + cd.length,
       s.fileData.length + cd.length + ib.length))] "all_rows" =
      some (s.fileData.length + cd.length,
        s.fileData.length + cd.length + ib.length) := by
    simp [alookup]
  simp only [hcollook, hsc_chunk, hCols, Option.map_some', Option.some_bind,
    List.filterMap_cons, List.filterMap_nil, hpre1, hpre2, hpre3, hdrop,
    if_true, Bool.false_eq_true, if_false, hlook, hmark1, hib_chunk,
    if_neg hMark, hIdx]

/-- The schemaless write/close/reopen/read round-trip, for a value whose
cell codec round-trips. -/
theorem pipeline_nocols (cfg : WCfg V) (sys : SysCodec K) (s : WFDD K V)
    (rows : List (List Nat)) (key : K) (v0 : V) (bs : Bytes)
    (hcol : cfg.columns = none)
    (hser : cfg.noColSer v0 = some bs)
    (hdeser : cfg.noColDeser bs = some (some v0))
    (hpos : s.filePos = s.fileData.length)
    (hg : GWF s.index rows)
    (hk : key ∉ s.index.index)
    (hnv : s.index.num_vals = 2)
    (hu : s.unfinished = []) (hp : s.props = []) (hsp : s.splits = [])
    (hbound : s.fileData.length + bs.length < 256 ^ s.index.byte_width)
    (hIdx : sys.deserIdx (sys.serIdx (pipeIdx cfg s key (.plain (some v0)))) =
      some (pipeIdx cfg s key (.plain (some v0))))
    (hTb : sys.deserTable
        (sys.serTable (pipeTable cfg sys s key (.plain (some v0)))) =
      some (pipeTable cfg sys s key (.plain (some v0))))
    (hL : (sys.serTable (pipeTable cfg sys s key (.plain (some v0)))).length <
      256 ^ 8)
    (hibne : sys.serIdx (pipeIdx cfg s key (.plain (some v0))) ≠ [])
    (hMark : (sys.serIdx (pipeIdx cfg s key (.plain (some v0)))).take 1 ≠ [1]) :
    pipeline cfg sys s key (.plain (some v0)) = some (.plain (some v0)) := by
  have hseq : seqCells (fun _ => cfg.noColSer) 0 [some v0] = some [bs] := by
    simp [seqCells, hser]
  have hnv2 : s.index.num_vals = [some v0].length + 1 := by
    rw [hnv]; rfl
  have hbd2 : s.fileData.length + ([bs] : List Bytes).flatten.length <
      256 ^ s.index.byte_width := by
    simpa using hbound
  obtain ⟨s1, hmatch, hfd, hfp, hidx, hnv', hw', hunf, hprops, hsplits,
    hgwf', hlook, hpres⟩ :=
    writeRecord_spec (fun _ => cfg.noColSer) s rows key [some v0] [bs]
      hseq hpos hg hk hnv2 hbd2
  have hset : WFDD.setitemR cfg s key (WItem.plain (some v0)) = Except.ok s1 := by
    unfold WFDD.setitemR
    rw [if_neg hk, hcol]
    exact hmatch
  have hafter : afterSet cfg s key (WItem.plain (some v0)) = some s1 := by
    unfold afterSet
    rw [hset]
  have hu1 : s1.unfinished = [] := by rw [hunf, hu]
  have hp1 : s1.props = [] := by rw [hprops, hp]
  have hsp1 : s1.splits = [] := by rw [hsplits, hsp]
  have hpi : pipeIdx cfg s key (WItem.plain (some v0)) = s1.index := by
    unfold pipeIdx
    rw [hafter]
  have hfd' : s1.fileData = s.fileData ++ bs := by simpa using hfd
  have hpt : pipeTable cfg sys s key (WItem.plain (some v0)) =
      [("_split_all_rows", s1.fileData.length,
        s1.fileData.length + (sys.serIdx s1.index).length)] := by
    unfold pipeTable
    rw [hafter]
    show (closeSections cfg sys s1).2 = _
    rw [closeSections_nocols cfg sys s1 hcol hp1 hsp1 hfp]
  rw [hpi] at hIdx hibne hMark
  rw [hpt] at hTb hL
  have hclosed := close_nocols cfg sys s1 hcol hu1 hp1 hsp1 hfp
  have hreopen := reopen_nocols sys s1 (sys.serIdx s1.index)
    (sys.serTable [("_split_all_rows", s1.fileData.length,
      s1.fileData.length + (sys.serIdx s1.index).length)])
    rfl rfl hTb hL hibne hMark hIdx
  unfold pipeline setAndClose
  rw [hafter, Option.some_bind, hclosed, Option.some_bind, hreopen,
    Option.some_bind]
  have hkey_mem : key ∈ s1.index.index := by
    rw [hidx]
    simp
  unfold RFDD.getit
  rw [if_neg (by simpa using hkey_mem)]
  have hps : s.fileData.length :: posScan s.fileData.length [bs] =
      [s.fileData.length, s.fileData.length + bs.length] := rfl
  rw [hps] at hlook
  rw [hlook, Option.some_bind]
  have hchunk : chunk (s1.fileData ++ sys.serIdx s1.index ++
      sys.serTable [("_split_all_rows", s1.fileData.length,
        s1.fileData.length + (sys.serIdx s1.index).length)] ++
      natToLE 8 (sys.serTable [("_split_all_rows", s1.fileData.length,
        s1.fileData.length + (sys.serIdx s1.index).length)]).length)
      s.fileData.length (s.fileData.length + bs.length) = bs := by
    rw [List.append_assoc, List.append_assoc,
      chunk_append_of_le _ _ _ _ (by rw [hfd']; simp)]
    rw [hfd', show s.fileData ++ bs = s.fileData ++ (bs ++ []) by simp]
    exact chunk_at_append _ _ _
  show (cfg.noColDeser _).map RRes.plain = _
  rw [hchunk, hdeser]
  rfl

theorem alookup_enumFrom {α : Type} [DecidableEq α] (l : List α) (d : α) :
    ∀ (n j : Nat), l.Nodup → j < l.length →
    alookup ((List.enumFrom n l).map fun p => (p.2, p.1)) (l.getD j d) =
      some (n + j) := by
  induction l with
  | nil =>
    intro n j _ hj
    simp at hj
  | cons c t ih =>
    intro n j hnd hj
    rw [List.enumFrom_cons]
    match j with
    | 0 => simp [alookup]
    | j + 1 =>
      have hjt : j < t.length := by simpa using hj
      have hne : c ≠ t.getD j d := by
        intro he
        have hmem : t.getD j d ∈ t := by
          rw [List.getD_eq_getElem t d hjt]
          exact List.getElem_mem _
        exact (List.nodup_cons.mp hnd).1 (he ▸ hmem)
      rw [List.getD_cons_succ]
      simp only [List.map_cons, alookup]
      rw [if_neg hne]
      rw [ih (n + 1) j (List.nodup_cons.mp hnd).2 hjt]
      congr 1
      omega

theorem alookup_enum {α : Type} [DecidableEq α] (l : List α) (d : α)
    (j : Nat) (hnd : l.Nodup) (hj : j < l.length) :
    alookup (l.enum.map fun p => (p.2, p.1)) (l.getD j d) = some j := by
  have := alookup_enumFrom l d 0 j hnd hj
  rw [Nat.zero_add] at this
  exact this

/-- The schema'd write/close/reopen/read round-trip from a mapping: the read
yields a row view; a column the mapping leaves `None`-valued or absent reads
as `None`; a supplied column with a non-empty, round-tripping encoding reads
back as the supplied value. -/
theorem pipeline_cols (cfg : WCfg V) (sys : SysCodec K) (s : WFDD K V)
    (rows : List (List Nat)) (key : K) (cols : List String)
    (m : List (String × Option V)) (bss : List Bytes)
    (hcol : cfg.columns = some cols)
    (hnd : cols.Nodup)
    (hne : (cols.all fun c => decide (c ∉ m.map Prod.fst)) = false)
    (hsub : (m.any fun p => decide (p.1 ∉ cols)) = false)
    (hseq : seqCells cfg.colSer 0 (cols.map fun c => (alookup m c).bind id) =
      some bss)
    (hpos : s.filePos = s.fileData.length)
    (hg : GWF s.index rows)
    (hk : key ∉ s.index.index)
    (hnv : s.index.num_vals = cols.length + 1)
    (hu : s.unfinished = []) (hp : s.props = []) (hsp : s.splits = [])
    (hbound : s.fileData.length + bss.flatten.length < 256 ^ s.index.byte_width)
    (hIdx : sys.deserIdx (sys.serIdx (pipeIdx cfg s key (.dict m))) =
      some (pipeIdx cfg s key (.dict m)))
    (hTb : sys.deserTable (sys.serTable (pipeTable cfg sys s key (.dict m))) =
      some (pipeTable cfg sys s key (.dict m)))
    (hL : (sys.serTable (pipeTable cfg sys s key (.dict m))).length < 256 ^ 8)
    (hibne : sys.serIdx (pipeIdx cfg s key (.dict m)) ≠ [])
    (hMark : (sys.serIdx (pipeIdx cfg s key (.dict m))).take 1 ≠ [1])
    (hColsRT : sys.deserCols (sys.serCols cols) = some cols) :
    ∃ F, setAndClose cfg sys s key (.dict m) = some F ∧
      pipeline cfg sys s key (.dict m) =
        some (.view (s.fileData.length :: posScan s.fileData.length bss)
          (List.replicate cols.length none)) ∧
      (∀ j, j < cols.length → (alookup m (cols.getD j "")).bind id = none →
        viewGetName cfg (some (cols.enum.map fun p => (p.2, p.1))) F
          (s.fileData.length :: posScan s.fileData.length bss)
          (List.replicate cols.length none) (cols.getD j "") =
          some (none, List.replicate cols.length none)) ∧
      (∀ j v, j < cols.length →
        (alookup m (cols.getD j "")).bind id = some v →
        bss.getD j [] ≠ [] →
        cfg.colDeser j (bss.getD j []) = some (some v) →
        viewGetName cfg (some (cols.enum.map fun p => (p.2, p.1))) F
          (s.fileData.length :: posScan s.fileData.length bss)
          (List.replicate cols.length none) (cols.getD j "") =
          some (some v, (List.replicate cols.length none).set j (some v))) := by
  have hnorm : normalizeItem cols (WItem.dict m : WItem V) =
      some (cols.map fun c => (alookup m c).bind id) := by
    simp only [normalizeItem, hne, hsub, Bool.false_eq_true, if_false]
  have hblen : bss.length = cols.length := by
    have := seqCells_length cfg.colSer _ 0 bss hseq
    rw [this, List.length_map]
  have hnv2 : s.index.num_vals =
      (cols.map fun c => (alookup m c).bind id).length + 1 := by
    rw [hnv, List.length_map]
  obtain ⟨s1, hmatch, hfd, hfp, hidx, hnv', hw', hunf, hprops, hsplits,
    hgwf', hlook, hpres⟩ :=
    writeRecord_spec cfg.colSer s rows key
      (cols.map fun c => (alookup m c).bind id) bss hseq hpos hg hk hnv2 hbound
  have hset : WFDD.setitemR cfg s key (WItem.dict m) = Except.ok s1 := by
    unfold WFDD.setitemR
    rw [if_neg hk, hcol]
    show (match normalizeItem cols (WItem.dict m : WItem V) with
      | none => (Except.error s : Except (WFDD K V) (WFDD K V))
      | some vals =>
        match writeCells cfg.colSer s.fileData s.filePos 0 vals with
        | Except.error e => Except.error { s with fileData := e.1, filePos := e.2 }
        | Except.ok out => recordRow s key out s.filePos) = Except.ok s1
    rw [hnorm]
    exact hmatch
  have hafter : afterSet cfg s key (WItem.dict m) = some s1 := by
    unfold afterSet
    rw [hset]
  have hu1 : s1.unfinished = [] := by rw [hunf, hu]
  have hp1 : s1.props = [] := by rw [hprops, hp]
  have hsp1 : s1.splits = [] := by rw [hsplits, hsp]
  have hpi : pipeIdx cfg s key (WItem.dict m) = s1.index := by
    unfold pipeIdx
    rw [hafter]
  have hpt : pipeTable cfg sys s key (WItem.dict m) =
      [("_column_def_", s1.fileData.length,
        s1.fileData.length + cfg.colDefBytes.length),
       ("_split_all_rows",
        s1.fileData.length + cfg.colDefBytes.length,
        s1.fileData.length + cfg.colDefBytes.length + (sys.serIdx s1.index).length),
       ("_columns_",
        s1.fileData.length + cfg.colDefBytes.length + (sys.serIdx s1.index).length,
        s1.fileData.length + cfg.colDefBytes.length + (sys.serIdx s1.index).length +
          (sys.serCols cols).length)] := by
    unfold pipeTable
    rw [hafter]
    show (closeSections cfg sys s1).2 = _
    rw [closeSections_cols cfg sys s1 cols hcol hp1 hsp1 hfp]
  rw [hpi] at hIdx hibne hMark
  rw [hpt] at hTb hL
  have hclosed := close_cols cfg sys s1 cols hcol hu1 hp1 hsp1 hfp
  have hreopen := reopen_cols sys s1 cols cfg.colDefBytes (sys.serIdx s1.index)
    (sys.serCols cols)
    (sys.serTable [("_column_def_", s1.fileData.length,
        s1.fileData.length + cfg.colDefBytes.length),
      ("_split_all_rows",
        s1.fileData.length + cfg.colDefBytes.length,
        s1.fileData.length + cfg.colDefBytes.length + (sys.serIdx s1.index).length),
      ("_columns_",
        s1.fileData.length + cfg.colDefBytes.length + (sys.serIdx s1.index).length,
        s1.fileData.length + cfg.colDefBytes.length + (sys.serIdx s1.index).length +
          (sys.serCols cols).length)])
    rfl rfl rfl hTb hL hibne hMark hIdx hColsRT
  have hsc : setAndClose cfg sys s key (WItem.dict m) =
      some (s1.fileData ++ cfg.colDefBytes ++ sys.serIdx s1.index ++
        sys.serCols cols ++
        sys.serTable [("_column_def_", s1.fileData.length,
            s1.fileData.length + cfg.colDefBytes.length),
          ("_split_all_rows",
            s1.fileData.length + cfg.colDefBytes.length,
            s1.fileData.length + cfg.colDefBytes.length +
              (sys.serIdx s1.index).length),
          ("_columns_",
            s1.fileData.length + cfg.colDefBytes.length +
              (sys.serIdx s1.index).length,
            s1.fileData.length + cfg.colDefBytes.length +
              (sys.serIdx s1.index).length + (sys.serCols cols).length)] ++
        natToLE 8 (sys.serTable [("_column_def_", s1.fileData.length,
            s1.fileData.length + cfg.colDefBytes.length),
          ("_split_all_rows",
            s1.fileData.length + cfg.colDefBytes.length,
            s1.fileData.length + cfg.colDefBytes.length +
              (sys.serIdx s1.index).length),
          ("_columns_",
            s1.fileData.length + cfg.colDefBytes.length +
              (sys.serIdx s1.index).length,
            s1.fileData.length + cfg.colDefBytes.length +
              (sys.serIdx s1.index).length +
              (sys.serCols cols).length)]).length) := by
    unfold setAndClose
    rw [hafter, Option.some_bind, hclosed]
  refine ⟨_, hsc, ?_, ?_, ?_⟩
  · unfold pipeline
    rw [show (setAndClose cfg sys s key (WItem.dict m)).bind
        (fun f => (openReader sys "all_rows" f).bind fun r => r.getit cfg key) =
        _ from rfl]
    rw [hsc, Option.some_bind, hreopen, Option.some_bind]
    unfold RFDD.getit
    have hkey_mem : key ∈ s1.index.index := by
      rw [hidx]
      simp
    rw [if_neg (by simpa using hkey_mem)]
    rw [hlook]
    show some (RRes.view _ _) = some (RRes.view _ _)
    congr 2
    rw [List.length_cons, posScan_length, hblen]
    simp
  · intro j hj hcell
    simp only [viewGetName]
    simp only [alookup_enum cols "" j hnd hj]
    simp only [rowGet]
    have hcache : (List.replicate cols.length (none : Option V)).get? j =
        some none := by
      rw [List.get?_eq_getElem?]
      simp [List.getElem?_replicate, hj]
    simp only [hcache]
    have hjb : j < bss.length := by rw [hblen]; exact hj
    have hLlen : (s.fileData.length :: posScan s.fileData.length bss).length =
        bss.length + 1 := by
      rw [List.length_cons, posScan_length]
    have hoj : (s.fileData.length :: posScan s.fileData.length bss).get? j =
        some ((s.fileData.length :: posScan s.fileData.length bss).getD j 0) := by
      rw [List.get?_eq_getElem?, List.getD_eq_getElem _ _ (by omega),
        List.getElem?_eq_getElem (by omega)]
    have hoj1 : (s.fileData.length :: posScan s.fileData.length bss).get? (j + 1) =
        some ((posScan s.fileData.length bss).getD j 0) := by
      rw [List.get?_eq_getElem?, List.getElem?_eq_getElem (by
        rw [hLlen]; omega)]
      congr 1
      rw [List.getElem_cons_succ, ← List.getD_eq_getElem _ 0 (by
        rw [posScan_length]; omega)]
    simp only [hoj, hoj1]
    have hbj : bss.getD j [] = [] := by
      have := (seqCells_get cfg.colSer _ 0 bss hseq j (by
        rw [List.length_map]; exact hj)).1
      apply this
      rw [List.getD_eq_getElem _ _ (by rw [List.length_map]; exact hj),
        List.getElem_map, ← List.getD_eq_getElem cols "" hj]
      exact hcell
    have hstep := posScan_getD_step bss s.fileData.length j hjb
    rw [hbj] at hstep
    simp only [List.length_nil, Nat.add_zero] at hstep
    rw [if_pos hstep]
  · intro j v hj hcell hbne hdes
    simp only [viewGetName]
    simp only [alookup_enum cols "" j hnd hj]
    simp only [rowGet]
    have hcache : (List.replicate cols.length (none : Option V)).get? j =
        some none := by
      rw [List.get?_eq_getElem?]
      simp [List.getElem?_replicate, hj]
    simp only [hcache]
    have hjb : j < bss.length := by rw [hblen]; exact hj
    have hLlen : (s.fileData.length :: posScan s.fileData.length bss).length =
        bss.length + 1 := by
      rw [List.length_cons, posScan_length]
    have hoj : (s.fileData.length :: posScan s.fileData.length bss).get? j =
        some ((s.fileData.length :: posScan s.fileData.length bss).getD j 0) := by
      rw [List.get?_eq_getElem?, List.getD_eq_getElem _ _ (by omega),
        List.getElem?_eq_getElem (by omega)]
    have hoj1 : (s.fileData.length :: posScan s.fileData.length bss).get? (j + 1) =
        some ((posScan s.fileData.length bss).getD j 0) := by
      rw [List.get?_eq_getElem?, List.getElem?_eq_getElem (by
        rw [hLlen]; omega)]
      congr 1
      rw [List.getElem_cons_succ, ← List.getD_eq_getElem _ 0 (by
        rw [posScan_length]; omega)]
    simp only [hoj, hoj1]
    have hstep := posScan_getD_step bss s.fileData.length j hjb
    have hneq : (s.fileData.length :: posScan s.fileData.length bss).getD j 0 ≠
        (posScan s.fileData.length bss).getD j 0 := by
      intro he
      rw [he] at hstep
      have : (bss.getD j []).length = 0 := by omega
      exact hbne (List.length_eq_zero.mp this)
    rw [if_neg hneq]
    have hchunk : chunk (s1.fileData ++ cfg.colDefBytes ++ sys.serIdx s1.index ++
        sys.serCols cols ++
        sys.serTable [("_column_def_", s1.fileData.length,
            s1.fileData.length + cfg.colDefBytes.length),
          ("_split_all_rows",
            s1.fileData.length + cfg.colDefBytes.length,
            s1.fileData.length + cfg.colDefBytes.length +
              (sys.serIdx s1.index).length),
          ("_columns_",
            s1.fileData.length + cfg.colDefBytes.length +
              (sys.serIdx s1.index).length,
            s1.fileData.length + cfg.colDefBytes.length +
              (sys.serIdx s1.index).length + (sys.serCols cols).length)] ++
        natToLE 8 (sys.serTable [("_column_def_", s1.fileData.length,
            s1.fileData.length + cfg.colDefBytes.length),
          ("_split_all_rows",
            s1.fileData.length + cfg.colDefBytes.length,
            s1.fileData.length + cfg.colDefBytes.length +
              (sys.serIdx s1.index).length),
          ("_columns_",
            s1.fileData.length + cfg.colDefBytes.length +
              (sys.serIdx s1.index).length,
            s1.fileData.length + cfg.colDefBytes.length +
              (sys.serIdx s1.index).length +
              (sys.serCols cols).length)]).length)
        ((s.fileData.length :: posScan s.fileData.length bss).getD j 0)
        ((posScan s.fileData.length bss).getD j 0) = bss.getD j [] := by
      have hub : (posScan s.fileData.length bss).getD j 0 ≤
          s.fileData.length + bss.flatten.length := by
        have hmem : (posScan s.fileData.length bss).getD j 0 ∈
            posScan s.fileData.length bss := by
          rw [List.getD_eq_getElem _ _ (by rw [posScan_length]; omega)]
          exact List.getElem_mem _
        exact (posScan_mem_le _ _ _ hmem).2
      rw [List.append_assoc, List.append_assoc, List.append_assoc,
        List.append_assoc,
        chunk_append_of_le _ _ _ _ (by rw [hfd, List.length_append]; exact hub)]
      rw [hfd]
      exact chunk_posScan bss s.fileData j hjb
    rw [hchunk, hdes]
    rfl

/-- A mapping whose keys are column names and that supplies at least one
column is recorded; every column it leaves out (or maps to `None`) gets an
empty cell, its start offset equal to its end offset. -/
theorem setitem_dict_spec (cfg : WCfg V) (s : WFDD K V)
    (rows : List (List Nat)) (key : K) (cols : List String)
    (m : List (String × Option V)) (bss : List Bytes)
    (hcol : cfg.columns = some cols)
    (hne : (cols.all fun c => decide (c ∉ m.map Prod.fst)) = false)
    (hsub : (m.any fun p => decide (p.1 ∉ cols)) = false)
    (hseq : seqCells cfg.colSer 0 (cols.map fun c => (alookup m c).bind id) =
      some bss)
    (hpos : s.filePos = s.fileData.length)
    (hg : GWF s.index rows)
    (hk : key ∉ s.index.index)
    (hnv : s.index.num_vals = cols.length + 1)
    (hbound : s.fileData.length + bss.flatten.length < 256 ^ s.index.byte_width) :
    ∃ s1, WFDD.setitemR cfg s key (WItem.dict m) = Except.ok s1 ∧
      s1.index.lookupVals key =
        some (s.fileData.length :: posScan s.fileData.length bss) ∧
      s1.unfinished = s.unfinished ∧
      ∀ j, j < cols.length → (alookup m (cols.getD j "")).bind id = none →
        (s.fileData.length :: posScan s.fileData.length bss).getD j 0 =
        (s.fileData.length :: posScan s.fileData.length bss).getD (j + 1) 0 := by
  have hnorm : normalizeItem cols (WItem.dict m : WItem V) =
      some (cols.map fun c => (alookup m c).bind id) := by
    simp only [normalizeItem, hne, hsub, Bool.false_eq_true, if_false]
  have hblen : bss.length = cols.length := by
    have := seqCells_length cfg.colSer _ 0 bss hseq
    rw [this, List.length_map]
  have hnv2 : s.index.num_vals =
      (cols.map fun c => (alookup m c).bind id).length + 1 := by
    rw [hnv, List.length_map]
  obtain ⟨s1, hmatch, hfd, hfp, hidx, hnv', hw', hunf, hprops, hsplits,
    hgwf', hlook, hpres⟩ :=
    writeRecord_spec cfg.colSer s rows key
      (cols.map fun c => (alookup m c).bind id) bss hseq hpos hg hk hnv2 hbound
  have hset : WFDD.setitemR cfg s key (WItem.dict m) = Except.ok s1 := by
    unfold WFDD.setitemR
    rw [if_neg hk, hcol]
    show (match normalizeItem cols (WItem.dict m : WItem V) with
      | none => (Except.error s : Except (WFDD K V) (WFDD K V))
      | some vals =>
        match writeCells cfg.colSer s.fileData s.filePos 0 vals with
        | Except.error e => Except.error { s with fileData := e.1, filePos := e.2 }
        | Except.ok out => recordRow s key out s.filePos) = Except.ok s1
    rw [hnorm]
    exact hmatch
  refine ⟨s1, hset, hlook, hunf, ?_⟩
  intro j hj hcell
  have hjb : j < bss.length := by rw [hblen]; exact hj
  have hbj : bss.getD j [] = [] := by
    have := (seqCells_get cfg.colSer _ 0 bss hseq j (by
      rw [List.length_map]; exact hj)).1
    apply this
    rw [List.getD_eq_getElem _ _ (by rw [List.length_map]; exact hj),
      List.getElem_map, ← List.getD_eq_getElem cols "" hj]
    exact hcell
  have hstep := posScan_getD_step bss s.fileData.length j hjb
  rw [hbj] at hstep
  simp only [List.length_nil, Nat.add_zero] at hstep
  rw [hstep, List.getD_cons_succ]

/-- A mapping containing any key that is not a column name is rejected, with
the writer untouched. -/
theorem setitem_dict_reject (cfg : WCfg V) (s : WFDD K V) (key : K)
    (cols : List String) (m : List (String × Option V))
    (hcol : cfg.columns = some cols)
    (hbad : (m.any fun p => decide (p.1 ∉ cols)) = true) :
    WFDD.setitemR cfg s key (WItem.dict m) = Except.error s := by
  unfold WFDD.setitemR
  by_cases hk : key ∈ s.index.index
  · rw [if_pos hk]
  · rw [if_neg hk, hcol]
    show (match normalizeItem cols (WItem.dict m : WItem V) with
      | none => (Except.error s : Except (WFDD K V) (WFDD K V))
      | some vals =>
        match writeCells cfg.colSer s.fileData s.filePos 0 vals with
        | Except.error e => Except.error { s with fileData := e.1, filePos := e.2 }
        | Except.ok out => recordRow s key out s.filePos) = Except.error s
    have hnorm : normalizeItem cols (WItem.dict m : WItem V) = none := by
      simp only [normalizeItem]
      by_cases hfirst : (cols.all fun c => decide (c ∉ m.map Prod.fst)) = true
      · rw [if_pos hfirst]
      · rw [if_neg hfirst, if_pos hbad]
    rw [hnorm]

/-- The empty mapping is rejected: `columns` non-empty means the
"no entries" check fires. -/
theorem setitem_dict_empty_reject (cfg : WCfg V) (s : WFDD K V) (key : K)
    (cols : List String)
    (hcol : cfg.columns = some cols) :
    WFDD.setitemR cfg s key (WItem.dict ([] : List (String × Option V))) =
      Except.error s := by
  unfold WFDD.setitemR
  by_cases hk : key ∈ s.index.index
  · rw [if_pos hk]
  · rw [if_neg hk, hcol]
    show (match normalizeItem cols (WItem.dict [] : WItem V) with
      | none => (Except.error s : Except (WFDD K V) (WFDD K V))
      | some vals =>
        match writeCells cfg.colSer s.fileData s.filePos 0 vals with
        | Except.error e => Except.error { s with fileData := e.1, filePos := e.2 }
        | Except.ok out => recordRow s key out s.filePos) = Except.error s
    have hnorm : normalizeItem cols (WItem.dict [] : WItem V) = none := by
      simp only [normalizeItem]
      rw [if_pos (by simp)]
    rw [hnorm]

/-- `FDDSetter.finalize` on an accumulated partial dict: writes through
`parent[key] = data` and drops the setter; missing columns become empty
cells. -/
theorem finalize_spec (cfg : WCfg V) (s : WFDD K V)
    (rows : List (List Nat)) (key : K) (cols : List String)
    (data : List (String × Option V)) (bss : List Bytes)
    (hfound : alookup s.unfinished key = some data)
    (hcol : cfg.columns = some cols)
    (hne : (cols.all fun c => decide (c ∉ data.map Prod.fst)) = false)
    (hsub : (data.any fun p => decide (p.1 ∉ cols)) = false)
    (hseq : seqCells cfg.colSer 0 (cols.map fun c => (alookup data c).bind id) =
      some bss)
    (hpos : s.filePos = s.fileData.length)
    (hg : GWF s.index rows)
    (hk : key ∉ s.index.index)
    (hnv : s.index.num_vals = cols.length + 1)
    (hbound : s.fileData.length + bss.flatten.length < 256 ^ s.index.byte_width) :
    ∃ s2, finalizeSetter cfg s key = Except.ok s2 ∧
      s2.index.lookupVals key =
        some (s.fileData.length :: posScan s.fileData.length bss) ∧
      s2.unfinished = removeKey s.unfinished key ∧
      ∀ j, j < cols.length → (alookup data (cols.getD j "")).bind id = none →
        (s.fileData.length :: posScan s.fileData.length bss).getD j 0 =
        (s.fileData.length :: posScan s.fileData.length bss).getD (j + 1) 0 := by
  obtain ⟨s1, hset, hlook, hunf, hcells⟩ :=
    setitem_dict_spec cfg s rows key cols data bss hcol hne hsub hseq hpos hg hk
      hnv hbound
  refine ⟨{ s1 with unfinished := removeKey s1.unfinished key }, ?_, hlook, by
    rw [hunf], hcells⟩
  unfold finalizeSetter
  simp only [hfound, hset]

end CloseOpen

/-! ## Lemmas: in-place cell overwrite (`FDDReadRow.write_to_disk`) -/

section CellOverwrite

variable {α : Type}

theorem chunk_writeAt_self (f bs : Bytes) (pos : Nat)
    (hbd : pos + bs.length ≤ f.length) :
    chunk (writeAt f pos bs) pos (pos + bs.length) = bs := by
  rw [writeAt_eq_of_le _ _ _ hbd, List.append_assoc]
  have hlen : (f.take pos).length = pos := by
    rw [List.length_take]
    omega
  have := chunk_at_append (f.take pos) bs (f.drop (pos + bs.length))
  rw [hlen] at this
  exact this

/-- `write_to_disk` succeeds exactly when the re-encoded cell has the
original cell's length; on success it overwrites that byte range, keeps the
file length and the saved position, and touches no byte outside the
range. -/
theorem writeToDisk_spec (colSer : Nat → α → Bytes) (rowIndex : List Nat)
    (position : Nat) (value : α) (file : Bytes) (pos : Nat) (es ee : Nat)
    (hes : rowIndex.get? position = some es)
    (hee : rowIndex.get? (position + 1) = some ee)
    (hbd : ee ≤ file.length) (hle : es ≤ ee) :
    ((colSer position value).length ≠ ee - es →
      writeToDisk colSer rowIndex position value file pos = none) ∧
    ((colSer position value).length = ee - es →
      writeToDisk colSer rowIndex position value file pos =
        some (writeAt file es (colSer position value), pos) ∧
      (writeAt file es (colSer position value)).length = file.length ∧
      chunk (writeAt file es (colSer position value)) es ee =
        colSer position value ∧
      (∀ a b, b ≤ es →
        chunk (writeAt file es (colSer position value)) a b = chunk file a b) ∧
      (∀ a b, ee ≤ a →
        chunk (writeAt file es (colSer position value)) a b =
          chunk file a b)) := by
  constructor
  · intro hne
    unfold writeToDisk
    simp only [hes, hee]
    rw [if_neg hne]
  · intro heq
    have hbd3 : es + (colSer position value).length ≤ file.length := by omega
    refine ⟨?_, writeAt_length _ _ _ hbd3, ?_, ?_, ?_⟩
    · unfold writeToDisk
      simp only [hes, hee]
      rw [if_pos heq]
    · have := chunk_writeAt_self file (colSer position value) es hbd3
      rw [show es + (colSer position value).length = ee by omega] at this
      exact this
    · intro a b hb
      exact chunk_writeAt_left _ _ _ _ _ hbd3 (by omega)
    · intro a b ha
      exact chunk_writeAt_right _ _ _ _ _ hbd3 (by omega)

end CellOverwrite

/-! ## Lemmas: keyless in-place rewrite and out-of-bounds set -/

section KeylessSet

theorem setIdx_rewrite_spec (k : FDDIndexKeyless) (rows : List (List Nat))
    (hk : KWF k rows) (i : Nat) (hi : i < rows.length)
    (val : List Nat) (hv : val.length = k.num_vals)
    (hb : ∀ v ∈ val, v < 256 ^ k.byte_width) :
    k.setIdx i val = .ok ⟨k.buffer.take (i * k.num_vals * k.byte_width) ++
        packRow k.byte_width val ++
        k.buffer.drop (i * k.num_vals * k.byte_width +
          k.num_vals * k.byte_width), k.num_vals, k.byte_width⟩ ∧
      (k.buffer.take (i * k.num_vals * k.byte_width) ++
        packRow k.byte_width val ++
        k.buffer.drop (i * k.num_vals * k.byte_width +
          k.num_vals * k.byte_width)).length = k.buffer.length ∧
      KWF ⟨k.buffer.take (i * k.num_vals * k.byte_width) ++
        packRow k.byte_width val ++
        k.buffer.drop (i * k.num_vals * k.byte_width +
          k.num_vals * k.byte_width), k.num_vals, k.byte_width⟩
        (rows.set i val) := by
  obtain ⟨hbuf, hp, hnv, hw⟩ := hk
  have hsize := kwf_size k rows ⟨hbuf, hp, hnv, hw⟩
  have hblen : k.buffer.length = rows.length * (k.num_vals * k.byte_width) := by
    rw [hbuf, flatten_pack_length _ _ _ hp.1]
  have hbase : i * k.num_vals * k.byte_width = i * (k.num_vals * k.byte_width) := by
    ring
  have hble : i * k.num_vals * k.byte_width + (0 + val.length) * k.byte_width ≤
      k.buffer.length := by
    rw [hblen, hbase, hv, Nat.zero_add]
    have : i * (k.num_vals * k.byte_width) + k.num_vals * k.byte_width =
        (i + 1) * (k.num_vals * k.byte_width) := by ring
    rw [this]
    exact Nat.mul_le_mul_right _ (by omega)
  have hrw := rewriteLE_ok k.byte_width (i * k.num_vals * k.byte_width) val
    k.buffer 0 hb hble
  have hset : k.setIdx i val = .ok ⟨k.buffer.take (i * k.num_vals * k.byte_width) ++
      packRow k.byte_width val ++
      k.buffer.drop (i * k.num_vals * k.byte_width +
        k.num_vals * k.byte_width), k.num_vals, k.byte_width⟩ := by
    unfold FDDIndexKeyless.setIdx
    rw [if_neg (by omega), if_neg (by omega), hrw]
    simp only [Nat.zero_mul, Nat.add_zero, Nat.zero_add, hv]
  have hbuf' : k.buffer.take (i * k.num_vals * k.byte_width) ++
      packRow k.byte_width val ++
      k.buffer.drop (i * k.num_vals * k.byte_width + k.num_vals * k.byte_width) =
      ((rows.set i val).map (packRow k.byte_width)).flatten := by
    rw [List.set_eq_take_append_cons_drop, if_pos hi, hbuf]
    rw [show i * k.num_vals * k.byte_width + k.num_vals * k.byte_width =
      (i + 1) * (k.num_vals * k.byte_width) by ring, hbase]
    rw [flatten_pack_take _ _ _ hp.1 i (by omega),
      flatten_pack_drop _ _ _ hp.1 (i + 1) (by omega)]
    simp
  refine ⟨hset, ?_, ?_⟩
  · simp only [List.length_append, List.length_take, List.length_drop,
      packRow_length, hv]
    rw [hblen]
    have h1 : i * k.num_vals * k.byte_width ≤
        rows.length * (k.num_vals * k.byte_width) := by
      rw [hbase]
      exact Nat.mul_le_mul_right _ (by omega)
    have h2 : i * k.num_vals * k.byte_width + k.num_vals * k.byte_width ≤
        rows.length * (k.num_vals * k.byte_width) := by
      rw [hbase, show i * (k.num_vals * k.byte_width) + k.num_vals * k.byte_width =
        (i + 1) * (k.num_vals * k.byte_width) by ring]
      exact Nat.mul_le_mul_right _ (by omega)
    rw [min_eq_left h1]
    omega
  · refine ⟨hbuf', ⟨?_, ?_⟩, hnv, hw⟩
    · intro r hr
      rcases List.mem_or_eq_of_mem_set hr with h | h
      · exact hp.1 r h
      · rw [h, hv]
    · intro r hr
      rcases List.mem_or_eq_of_mem_set hr with h | h
      · exact hp.2 r h
      · rw [h]
        exact hb

theorem setIdx_oob (k : FDDIndexKeyless) (i : Nat) (val : List Nat)
    (hgt : k.size < i) : k.setIdx i val = .error k := by
  unfold FDDIndexKeyless.setIdx
  rw [if_neg (by omega), if_pos hgt]

end KeylessSet

/-! ## Lemmas: key iteration order -/

section KeyOrder

variable {K : Type} [DecidableEq K]

theorem setK_keeps_geometry (g : FDDIndexGeneral K) (key : K) (val : List Nat) :
    ∀ g', (g.setK key val = .ok g' ∨ g.setK key val = .error g') →
    g'.num_vals = g.num_vals ∧ g'.byte_width = g.byte_width := by
  intro g' h
  unfold FDDIndexGeneral.setK at h
  by_cases hl : val.length ≠ g.num_vals
  · rw [if_pos hl] at h
    rcases h with h | h
    · exact absurd h (by simp)
    · injection h with h
      rw [← h]
      exact ⟨rfl, rfl⟩
  · rw [if_neg hl] at h
    by_cases hm : key ∈ g.index
    · rw [if_pos hm] at h
      match hr : rewriteLE g.byte_width (g.slot key * g.num_vals * g.byte_width)
          g.buffer 0 val with
      | .ok b =>
        rw [hr] at h
        rcases h with h | h
        · injection h with h
          rw [← h]
          exact ⟨rfl, rfl⟩
        · exact absurd h (by simp)
      | .error b =>
        rw [hr] at h
        rcases h with h | h
        · exact absurd h (by simp)
        · injection h with h
          rw [← h]
          exact ⟨rfl, rfl⟩
    · rw [if_neg hm] at h
      match hr : extendLE g.byte_width g.buffer val with
      | .ok b =>
        rw [hr] at h
        rcases h with h | h
        · injection h with h
          rw [← h]
          exact ⟨rfl, rfl⟩
        · exact absurd h (by simp)
      | .error b =>
        rw [hr] at h
        rcases h with h | h
        · exact absurd h (by simp)
        · injection h with h
          rw [← h]
          exact ⟨rfl, rfl⟩

/-- When every assignment carries a tuple of the right arity whose values
fit `byte_width` bytes, replaying the assignments keeps the key list in
first-insertion order (a Python dict's iteration order). -/
theorem buildG_keys (ops : List (K × List Nat)) :
    ∀ g : FDDIndexGeneral K,
    (∀ p ∈ ops, p.2.length = g.num_vals ∧ ∀ v ∈ p.2, v < 256 ^ g.byte_width) →
    (buildG g ops).index = ops.foldl (fun l p => insertKey l p.1) g.index := by
  induction ops with
  | nil =>
    intro g _
    rfl
  | cons op t ih =>
    intro g hops
    obtain ⟨hlen, hbd⟩ := hops op (by simp)
    have hstep : ∀ g1, (g.setK op.1 op.2 = .ok g1 ∨ g.setK op.1 op.2 = .error g1) →
        buildG g (op :: t) = buildG g1 t ∧ g1.index = insertKey g.index op.1 ∧
        g1.num_vals = g.num_vals ∧ g1.byte_width = g.byte_width := by
      intro g1 hg1
      have hrun : buildG g (op :: t) = buildG (match g.setK op.1 op.2 with
          | .ok g' => g' | .error g' => g') t := by
        rfl
      obtain ⟨hnv1, hw1⟩ := setK_keeps_geometry g op.1 op.2 g1 hg1
      by_cases hm : op.1 ∈ g.index
      · have hidx : g1.index = g.index := by
          have h2 := hg1
          unfold FDDIndexGeneral.setK at h2
          rw [if_neg (by rw [hlen]; exact fun hc => hc rfl), if_pos hm] at h2
          match hr : rewriteLE g.byte_width
              (g.slot op.1 * g.num_vals * g.byte_width) g.buffer 0 op.2 with
          | .ok b =>
            rw [hr] at h2
            rcases h2 with h2 | h2
            · injection h2 with h2
              rw [← h2]
            · exact absurd h2 (by simp)
          | .error b =>
            rw [hr] at h2
            rcases h2 with h2 | h2
            · exact absurd h2 (by simp)
            · injection h2 with h2
              rw [← h2]
        refine ⟨?_, ?_, hnv1, hw1⟩
        · rw [hrun]
          congr 1
          rcases hg1 with h | h <;> rw [h]
        · rw [hidx, insertKey, if_pos hm]
      · have hok := setK_new_ok_inv g op.1 op.2
        have hEok : g.setK op.1 op.2 = .ok ⟨g.index ++ [op.1],
            g.buffer ++ packRow g.byte_width op.2, g.num_vals, g.byte_width⟩ := by
          unfold FDDIndexGeneral.setK
          rw [if_neg (by rw [hlen]; exact fun hc => hc rfl), if_neg hm,
            extendLE_ok _ _ _ hbd]
        have hg1eq : g1 = ⟨g.index ++ [op.1],
            g.buffer ++ packRow g.byte_width op.2, g.num_vals, g.byte_width⟩ := by
          rcases hg1 with h | h
          · rw [hEok] at h
            injection h with h
            rw [← h]
          · rw [hEok] at h
            exact absurd h (by simp)
        refine ⟨?_, ?_, hnv1, hw1⟩
        · rw [hrun]
          congr 1
          rcases hg1 with h | h <;> rw [h]
        · rw [hg1eq, insertKey, if_neg hm]
    match hres : g.setK op.1 op.2 with
    | .ok g1 =>
      obtain ⟨hrun, hidx, hnv1, hw1⟩ := hstep g1 (Or.inl hres)
      rw [hrun, List.foldl_cons, ih g1 (by
        intro p hp
        obtain ⟨h1, h2⟩ := hops p (List.mem_cons_of_mem _ hp)
        rw [hnv1, hw1]
        exact ⟨h1, h2⟩), hidx]
    | .error g1 =>
      obtain ⟨hrun, hidx, hnv1, hw1⟩ := hstep g1 (Or.inr hres)
      rw [hrun, List.foldl_cons, ih g1 (by
        intro p hp
        obtain ⟨h1, h2⟩ := hops p (List.mem_cons_of_mem _ hp)
        rw [hnv1, hw1]
        exact ⟨h1, h2⟩), hidx]

end KeyOrder

/-! ## Lemmas: `FDDIntList.__getitem__` semantics -/

section IntListGet

theorem getI_nonneg (l : FDDIntList) (i : Nat) (hi : i < l.length) :
    l.getI i = some (leToNat (chunk l.buffer
      (l.start_in_buffer + i * l.byte_width)
      (l.start_in_buffer + (i + 1) * l.byte_width))) := by
  unfold FDDIntList.getI
  rw [if_neg (by push_cast; omega)]
  rw [if_neg (by push_cast; omega)]
  simp

theorem getI_oob_pos (l : FDDIntList) (i : Nat) (hi : l.length ≤ i) :
    l.getI i = none := by
  unfold FDDIntList.getI
  rw [if_pos (by push_cast; omega)]

theorem getI_oob_neg (l : FDDIntList) (i : Int) (hi : i < -(l.length : Int)) :
    l.getI i = none := by
  unfold FDDIntList.getI
  rw [if_pos (by omega)]

/-- A negative index in `[-length, 0)` is normalised by adding the length:
it does not raise. -/
theorem getI_neg (l : FDDIntList) (i : Nat) (h1 : 0 < i) (h2 : i ≤ l.length) :
    l.getI (-(i : Int)) = l.getI ((l.length - i : Nat) : Int) := by
  have hj : (if (-(i : Int)) < 0 then (l.length : Int) + -(i : Int)
      else -(i : Int)) = ((l.length - i : Nat) : Int) := by omega
  rw [getI_nonneg l (l.length - i) (by omega)]
  unfold FDDIntList.getI
  rw [if_neg (by omega)]
  simp only [hj]
  simp

end IntListGet

/-! ## Lemmas: the `None` cache sentinel of `FDDReadRow` -/

section NoneSentinel

variable {V : Type}

theorem set_get_self {α : Type} (l : List α) :
    ∀ (i : Nat) (a : α), l.get? i = some a → l.set i a = l := by
  induction l with
  | nil =>
    intro i a h
    simp at h
  | cons x t ih =>
    intro i a h
    match i with
    | 0 =>
      injection h with h
      rw [List.set_cons_zero, h]
    | i + 1 =>
      rw [List.set_cons_succ, ih i a h]

/-- A read that yields `None` never populates the cache: the next access
decodes from the file again. -/
theorem rowGet_none_transparent (deser : Nat → Bytes → Option (Option V))
    (file : Bytes) (offsets : List Nat) (cache : List (Option V)) (i : Nat)
    (res : Option V × List (Option V))
    (h : rowGet deser file offsets cache i = some res) (hnone : res.1 = none) :
    res.2 = cache := by
  unfold rowGet at h
  match hc : cache.get? i with
  | none =>
    simp only [hc] at h
    exact absurd h (by simp)
  | some (some v) =>
    simp only [hc] at h
    injection h with h
    rw [← h]
  | some none =>
    simp only [hc] at h
    match ha : offsets.get? i, hb : offsets.get? (i + 1) with
    | some a, some b =>
      simp only [ha, hb] at h
      by_cases hab : a = b
      · rw [if_pos hab] at h
        injection h with h
        rw [← h]
      · rw [if_neg hab] at h
        match hd : deser i (chunk file a b) with
        | none =>
          simp only [hd] at h
          exact absurd h (by simp)
        | some v =>
          simp only [hd] at h
          injection h with h
          rw [← h] at hnone ⊢
          simp only at hnone ⊢
          rw [hnone]
          exact set_get_self cache i none hc
    | some a, none =>
      simp only [ha, hb] at h
      exact absurd h (by simp)
    | none, _ =>
      simp only [ha] at h
      exact absurd h (by simp)

/-- Assigning `None` through the row view's item assignment has no lasting
effect: the next read of the cell goes back to the stored bytes. -/
theorem rowSetIdx_none_reread (deser : Nat → Bytes → Option (Option V))
    (file : Bytes) (offsets : List Nat) (cache : List (Option V)) (i : Nat)
    (hi : i < cache.length) (a b : Nat)
    (ha : offsets.get? i = some a) (hb : offsets.get? (i + 1) = some b) :
    rowSetIdx cache i none = some (cache.set i none) ∧
    rowGet deser file offsets (cache.set i none) i =
      (if a = b then some (none, cache.set i none)
       else (deser i (chunk file a b)).map fun v =>
         (v, (cache.set i none).set i v)) := by
  constructor
  · unfold rowSetIdx
    rw [if_pos hi]
  · have hc : (cache.set i none).get? i = some none := by
      rw [List.get?_eq_getElem?, List.getElem?_set_self (by simpa using hi)]
    unfold rowGet
    rw [hc, ha, hb]

end NoneSentinel

/-! ## The claims -/

section Claims

/-- Claim C1.  Write/read round-trip, as the source supports it: a
schemaless `writer[k] = v` whose value serialises (`v` not `None`, codec
round-trips) reads back equal after close/reopen; a schema'd
`writer[k] = m` for a mapping over column names yields a row view whose
supplied columns read back (when their encodings are non-empty and
round-trip) and whose missing columns read as `None`; a mapping with a
non-column key is rejected.  (The unqualified original claim fails:
`None`-valued and empty-encoding cells do not round-trip, see the
counterexample.) -/
theorem C1_roundtrip :
    (∀ (K V : Type) [inst : DecidableEq K] (cfg : WCfg V) (sys : SysCodec K)
      (s : WFDD K V) (rows : List (List Nat)) (key : K) (v0 : V) (bs : Bytes),
      cfg.columns = none →
      cfg.noColSer v0 = some bs →
      cfg.noColDeser bs = some (some v0) →
      s.filePos = s.fileData.length →
      GWF s.index rows →
      key ∉ s.index.index →
      s.index.num_vals = 2 →
      s.unfinished = [] → s.props = [] → s.splits = [] →
      s.fileData.length + bs.length < 256 ^ s.index.byte_width →
      sys.deserIdx (sys.serIdx (pipeIdx cfg s key (.plain (some v0)))) =
        some (pipeIdx cfg s key (.plain (some v0))) →
      sys.deserTable (sys.serTable (pipeTable cfg sys s key (.plain (some v0)))) =
        some (pipeTable cfg sys s key (.plain (some v0))) →
      (sys.serTable (pipeTable cfg sys s key (.plain (some v0)))).length <
        256 ^ 8 →
      sys.serIdx (pipeIdx cfg s key (.plain (some v0))) ≠ [] →
      (sys.serIdx (pipeIdx cfg s key (.plain (some v0)))).take 1 ≠ [1] →
      pipeline cfg sys s key (.plain (some v0)) = some (.plain (some v0))) ∧
    (∀ (K V : Type) [inst : DecidableEq K] (cfg : WCfg V) (sys : SysCodec K)
      (s : WFDD K V) (rows : List (List Nat)) (key : K) (cols : List String)
      (m : List (String × Option V)) (bss : List Bytes),
      cfg.columns = some cols →
      cols.Nodup →
      (cols.all fun c => decide (c ∉ m.map Prod.fst)) = false →
      (m.any fun p => decide (p.1 ∉ cols)) = false →
      seqCells cfg.colSer 0 (cols.map fun c => (alookup m c).bind id) =
        some bss →
      s.filePos = s.fileData.length →
      GWF s.index rows →
      key ∉ s.index.index →
      s.index.num_vals = cols.length + 1 →
      s.unfinished = [] → s.props = [] → s.splits = [] →
      s.fileData.length + bss.flatten.length < 256 ^ s.index.byte_width →
      sys.deserIdx (sys.serIdx (pipeIdx cfg s key (.dict m))) =
        some (pipeIdx cfg s key (.dict m)) →
      sys.deserTable (sys.serTable (pipeTable cfg sys s key (.dict m))) =
        some (pipeTable cfg sys s key (.dict m)) →
      (sys.serTable (pipeTable cfg sys s key (.dict m))).length < 256 ^ 8 →
      sys.serIdx (pipeIdx cfg s key (.dict m)) ≠ [] →
      (sys.serIdx (pipeIdx cfg s key (.dict m))).take 1 ≠ [1] →
      sys.deserCols (sys.serCols cols) = some cols →
      ∃ F, setAndClose cfg sys s key (.dict m) = some F ∧
        pipeline cfg sys s key (.dict m) =
          some (.view (s.fileData.length :: posScan s.fileData.length bss)
            (List.replicate cols.length none)) ∧
        (∀ j, j < cols.length → (alookup m (cols.getD j "")).bind id = none →
          viewGetName cfg (some (cols.enum.map fun p => (p.2, p.1))) F
            (s.fileData.length :: posScan s.fileData.length bss)
            (List.replicate cols.length none) (cols.getD j "") =
            some (none, List.replicate cols.length none)) ∧
        (∀ j v, j < cols.length →
          (alookup m (cols.getD j "")).bind id = some v →
          bss.getD j [] ≠ [] →
          cfg.colDeser j (bss.getD j []) = some (some v) →
          viewGetName cfg (some (cols.enum.map fun p => (p.2, p.1))) F
            (s.fileData.length :: posScan s.fileData.length bss)
            (List.replicate cols.length none) (cols.getD j "") =
            some (some v, (List.replicate cols.length none).set j (some v)))) ∧
    (∀ (K V : Type) [inst : DecidableEq K] (cfg : WCfg V) (s : WFDD K V)
      (key : K) (cols : List String) (m : List (String × Option V)),
      cfg.columns = some cols →
      (m.any fun p => decide (p.1 ∉ cols)) = true →
      WFDD.setitemR cfg s key (WItem.dict m) = Except.error s) :=
  ⟨fun _ _ _ cfg sys s rows key v0 bs h1 h2 h3 h4 h5 h6 h7 h8 h9 h10 h11 h12 h13
      h14 h15 h16 =>
    pipeline_nocols cfg sys s rows key v0 bs h1 h2 h3 h4 h5 h6 h7 h8 h9 h10 h11
      h12 h13 h14 h15 h16,
   fun _ _ _ cfg sys s rows key cols m bss h1 h2 h3 h4 h5 h6 h7 h8 h9 h10 h11 h12
      h13 h14 h15 h16 h17 h18 h19 =>
    pipeline_cols cfg sys s rows key cols m bss h1 h2 h3 h4 h5 h6 h7 h8 h9 h10
      h11 h12 h13 h14 h15 h16 h17 h18 h19,
   fun _ _ _ cfg s key cols m h1 h2 => setitem_dict_reject cfg s key cols m h1 h2⟩

set_option maxRecDepth 8000 in
/-- The schemaless writer accepts `writer[5] = None`, but the reader raises
on the empty cell (`pkl.loads(b'')`): the unqualified round-trip of the
original claim fails. -/
theorem C1_none_value_counterexample :
    (afterSet toyCfgNoCols (WFDD.init Nat Nat toyCfgNoCols) 5
      (.plain none)).isSome = true ∧
    pipeline toyCfgNoCols toySys (WFDD.init Nat Nat toyCfgNoCols) 5
      (.plain none) = none := by
  constructor
  · decide
  · decide

set_option maxRecDepth 8000 in
theorem C1_roundtrip_witness :
    toyCfgNoCols.noColSer 3 = some [4] ∧
    pipeline toyCfgNoCols toySys (WFDD.init Nat Nat toyCfgNoCols) 5
      (.plain (some 3)) = some (.plain (some 3)) :=
  ⟨by decide,
    C1_roundtrip.1 Nat Nat toyCfgNoCols toySys (WFDD.init Nat Nat toyCfgNoCols)
      [] 5 3 [4] rfl (by decide) (by decide) rfl
      ⟨rfl, rfl, ⟨fun r hr => absurd hr (List.not_mem_nil r),
        fun r hr => absurd hr (List.not_mem_nil r)⟩, List.nodup_nil,
        by decide, by decide⟩
      (by decide) rfl rfl rfl rfl (by decide) (by decide) (by decide)
      (by decide) (by decide) (by decide)⟩

/-- Claim C2.  Split union laws, as the source supports them: for the
general and sorted-comparable variants `A+B` has key set
`keys(A) ∪ keys(B)` (sorted for the comparable variant), a shared key maps
to the last operand's offsets, and general `A+A` has key set `keys(A)`
with unchanged lookups; keyless operands are deduplicated by full offset
tuple and re-keyed `0..N-1`.  (The original claim's "key set is
keys(A) ∪ keys(B)" is false for the keyless variant, see the
counterexample.) -/
theorem C2_split_union :
    (∀ (K : Type) [inst : DecidableEq K] (A B : FDDIndexGeneral K)
      (rowsA rowsB : List (List Nat)),
      GWF A rowsA → GWF B rowsB → B.num_vals = A.num_vals →
      B.byte_width = A.byte_width →
      ∃ U, unionGeneral [A, B] = some U ∧
        (∀ k, k ∈ U.index ↔ k ∈ A.index ∨ k ∈ B.index) ∧
        (∀ k, k ∈ B.index → U.lookupVals k = B.lookupVals k) ∧
        (∀ k, k ∈ A.index → k ∉ B.index → U.lookupVals k = A.lookupVals k)) ∧
    (∀ (K : Type) [inst : DecidableEq K] [inst2 : LinearOrder K]
      (A B : FDDIndexComparableKey K) (rowsA rowsB : List (List Nat)),
      CWF A rowsA → CWF B rowsB → B.num_vals = A.num_vals →
      A.byte_width = 6 → B.byte_width = 6 → A.skeys ≠ [] →
      ∃ U, unionComparable [A, B] = some U ∧
        (∀ k, k ∈ U.skeys ↔ k ∈ A.skeys ∨ k ∈ B.skeys) ∧
        U.skeys.Sorted (· ≤ ·) ∧
        (∀ k, k ∈ B.skeys → U.lookupVals k = B.lookupVals k) ∧
        (∀ k, k ∈ A.skeys → k ∉ B.skeys → U.lookupVals k = A.lookupVals k)) ∧
    (∀ (A B : FDDIndexKeyless) (rowsA rowsB : List (List Nat)),
      KWF A rowsA → KWF B rowsB → B.num_vals = A.num_vals →
      B.byte_width = A.byte_width →
      ∃ U, unionKeyless [A, B] = some U ∧
        U.valuesList = dedupeRows (rowsA ++ rowsB) ∧
        U.keysList = List.range (dedupeRows (rowsA ++ rowsB)).length ∧
        (dedupeRows (rowsA ++ rowsB)).Nodup ∧
        (∀ t, t ∈ U.valuesList ↔ t ∈ rowsA ∨ t ∈ rowsB)) ∧
    (∀ (K : Type) [inst : DecidableEq K] (A A2 : FDDIndexGeneral K)
      (rowsA : List (List Nat)),
      GWF A rowsA → GWF A2 rowsA → A2.index = A.index →
      A2.num_vals = A.num_vals → A2.byte_width = A.byte_width →
      ∃ U, unionGeneral [A, A2] = some U ∧
        (∀ k, k ∈ U.index ↔ k ∈ A.index) ∧
        (∀ k, k ∈ A.index → U.lookupVals k = A.lookupVals k)) :=
  ⟨fun _ _ A B rowsA rowsB h1 h2 h3 h4 =>
    unionGeneral_pair A B rowsA rowsB h1 h2 h3 h4,
   fun _ _ _ A B rowsA rowsB h1 h2 h3 h4 h5 h6 =>
    unionComparable_pair A B rowsA rowsB h1 h2 h3 h4 h5 h6,
   fun A B rowsA rowsB h1 h2 h3 h4 => unionKeyless_pair A B rowsA rowsB h1 h2 h3 h4,
   fun _ _ A A2 rowsA h1 h2 h3 h4 h5 => unionGeneral_self A A2 rowsA h1 h2 h3 h4 h5⟩

/-- Keyless `A+B`: the union's key set is `range(#distinct tuples)`, not
`keys(A) ∪ keys(B)`; and keyless `A+A` with duplicate tuples shrinks below
`keys(A)`. -/
theorem C2_keyless_union_counterexample :
    (unionKeyless [(⟨packRow 6 [0, 7], 2, 6⟩ : FDDIndexKeyless),
        ⟨packRow 6 [0, 9], 2, 6⟩]).map FDDIndexKeyless.keysList =
      some [0, 1] ∧
    (⟨packRow 6 [0, 7], 2, 6⟩ : FDDIndexKeyless).keysList = [0] ∧
    (⟨packRow 6 [0, 9], 2, 6⟩ : FDDIndexKeyless).keysList = [0] ∧
    (unionKeyless [(⟨packRow 6 [0, 7] ++ packRow 6 [0, 7], 2, 6⟩ :
        FDDIndexKeyless),
        ⟨packRow 6 [0, 7] ++ packRow 6 [0, 7], 2, 6⟩]).map
      FDDIndexKeyless.keysList = some [0] ∧
    (⟨packRow 6 [0, 7] ++ packRow 6 [0, 7], 2, 6⟩ :
      FDDIndexKeyless).keysList = [0, 1] := by
  refine ⟨?_, ?_, ?_, ?_, ?_⟩ <;> decide

theorem C2_split_union_witness :
    GWF (⟨[1], packRow 6 [0, 2], 2, 6⟩ : FDDIndexGeneral Nat) [[0, 2]] ∧
    ∃ U, unionGeneral [(⟨[1], packRow 6 [0, 2], 2, 6⟩ : FDDIndexGeneral Nat),
        ⟨[4], packRow 6 [0, 3], 2, 6⟩] = some U ∧
      (∀ k, k ∈ U.index ↔ k ∈ [1] ∨ k ∈ [4]) ∧
      (∀ k, k ∈ [4] →
        U.lookupVals k =
          (⟨[4], packRow 6 [0, 3], 2, 6⟩ : FDDIndexGeneral Nat).lookupVals k) ∧
      (∀ k, k ∈ [1] → k ∉ [4] →
        U.lookupVals k =
          (⟨[1], packRow 6 [0, 2], 2, 6⟩ : FDDIndexGeneral Nat).lookupVals k) :=
  ⟨⟨rfl, rfl, ⟨by decide, by decide⟩, by decide, by decide, by decide⟩,
    C2_split_union.1 Nat (⟨[1], packRow 6 [0, 2], 2, 6⟩ : FDDIndexGeneral Nat)
      ⟨[4], packRow 6 [0, 3], 2, 6⟩ [[0, 2]] [[0, 3]]
      ⟨rfl, rfl, ⟨by decide, by decide⟩, by decide, by decide, by decide⟩
      ⟨rfl, rfl, ⟨by decide, by decide⟩, by decide, by decide, by decide⟩
      rfl rfl⟩

/-- Claim C3.  In-place cell overwrite: with cell bounds
`offsets[i], offsets[i+1]` in the row index, the overwrite succeeds exactly
when the re-encoded value has the cell's byte length; on success the new
bytes land on that range, the saved position is restored and every byte
outside the range (hence every other cell) is unchanged; on a length
mismatch it raises with no byte written. -/
theorem C3_cell_overwrite :
    ∀ (α : Type) (colSer : Nat → α → Bytes) (rowIndex : List Nat)
      (position : Nat) (value : α) (file : Bytes) (pos es ee : Nat),
    rowIndex.get? position = some es →
    rowIndex.get? (position + 1) = some ee →
    ee ≤ file.length → es ≤ ee →
    (((colSer position value).length ≠ ee - es →
      writeToDisk colSer rowIndex position value file pos = none) ∧
     ((colSer position value).length = ee - es →
      writeToDisk colSer rowIndex position value file pos =
        some (writeAt file es (colSer position value), pos) ∧
      (writeAt file es (colSer position value)).length = file.length ∧
      chunk (writeAt file es (colSer position value)) es ee =
        colSer position value ∧
      (∀ a b, b ≤ es →
        chunk (writeAt file es (colSer position value)) a b = chunk file a b) ∧
      (∀ a b, ee ≤ a →
        chunk (writeAt file es (colSer position value)) a b =
          chunk file a b))) :=
  fun _ colSer rowIndex position value file pos es ee h1 h2 h3 h4 =>
    writeToDisk_spec colSer rowIndex position value file pos es ee h1 h2 h3 h4

theorem C3_cell_overwrite_witness :
    ((fun (_ : Nat) (v : Nat) => [v, v]) 0 9).length = 2 - 0 ∧
    writeToDisk (fun (_ : Nat) (v : Nat) => [v, v]) [0, 2] 0 9 [1, 2, 3] 77 =
      some (writeAt [1, 2, 3] 0 [9, 9], 77) ∧
    writeToDisk (fun (_ : Nat) (v : Nat) => [v, v]) [0, 2] 0 9 [1, 2, 3] 77 =
      some ([9, 9, 3], 77) :=
  ⟨by decide,
    ((C3_cell_overwrite Nat (fun _ v => [v, v]) [0, 2] 0 9 [1, 2, 3] 77 0 2
      rfl rfl (by decide) (by decide)).2 (by decide)).1,
    by decide⟩

/-- Claim C4.  Mapping-shaped set and partial-row finalize, as the source
supports them: a mapping over column names that supplies at least one
column is recorded, every absent (or `None`-valued) column becoming an
empty cell (start offset equal to end offset); a mapping with a non-column
key raises; `finalize()` writes the accumulated column values the same way
and drops the setter.  (The original "succeeds for every mapping whose
keys are a subset of the column names" fails on the empty mapping, see the
counterexample.) -/
theorem C4_mapping_set :
    (∀ (K V : Type) [inst : DecidableEq K] (cfg : WCfg V) (s : WFDD K V)
      (rows : List (List Nat)) (key : K) (cols : List String)
      (m : List (String × Option V)) (bss : List Bytes),
      cfg.columns = some cols →
      (cols.all fun c => decide (c ∉ m.map Prod.fst)) = false →
      (m.any fun p => decide (p.1 ∉ cols)) = false →
      seqCells cfg.colSer 0 (cols.map fun c => (alookup m c).bind id) =
        some bss →
      s.filePos = s.fileData.length →
      GWF s.index rows →
      key ∉ s.index.index →
      s.index.num_vals = cols.length + 1 →
      s.fileData.length + bss.flatten.length < 256 ^ s.index.byte_width →
      ∃ s1, WFDD.setitemR cfg s key (WItem.dict m) = Except.ok s1 ∧
        s1.index.lookupVals key =
          some (s.fileData.length :: posScan s.fileData.length bss) ∧
        s1.unfinished = s.unfinished ∧
        ∀ j, j < cols.length → (alookup m (cols.getD j "")).bind id = none →
          (s.fileData.length :: posScan s.fileData.length bss).getD j 0 =
          (s.fileData.length :: posScan s.fileData.length bss).getD (j + 1) 0) ∧
    (∀ (K V : Type) [inst : DecidableEq K] (cfg : WCfg V) (s : WFDD K V)
      (key : K) (cols : List String) (m : List (String × Option V)),
      cfg.columns = some cols →
      (m.any fun p => decide (p.1 ∉ cols)) = true →
      WFDD.setitemR cfg s key (WItem.dict m) = Except.error s) ∧
    (∀ (K V : Type) [inst : DecidableEq K] (cfg : WCfg V) (s : WFDD K V)
      (rows : List (List Nat)) (key : K) (cols : List String)
      (data : List (String × Option V)) (bss : List Bytes),
      alookup s.unfinished key = some data →
      cfg.columns = some cols →
      (cols.all fun c => decide (c ∉ data.map Prod.fst)) = false →
      (data.any fun p => decide (p.1 ∉ cols)) = false →
      seqCells cfg.colSer 0 (cols.map fun c => (alookup data c).bind id) =
        some bss →
      s.filePos = s.fileData.length →
      GWF s.index rows →
      key ∉ s.index.index →
      s.index.num_vals = cols.length + 1 →
      s.fileData.length + bss.flatten.length < 256 ^ s.index.byte_width →
      ∃ s2, finalizeSetter cfg s key = Except.ok s2 ∧
        s2.index.lookupVals key =
          some (s.fileData.length :: posScan s.fileData.length bss) ∧
        s2.unfinished = removeKey s.unfinished key ∧
        ∀ j, j < cols.length → (alookup data (cols.getD j "")).bind id = none →
          (s.fileData.length :: posScan s.fileData.length bss).getD j 0 =
          (s.fileData.length :: posScan s.fileData.length bss).getD (j + 1) 0) :=
  ⟨fun _ _ _ cfg s rows key cols m bss h1 h2 h3 h4 h5 h6 h7 h8 h9 =>
    setitem_dict_spec cfg s rows key cols m bss h1 h2 h3 h4 h5 h6 h7 h8 h9,
   fun _ _ _ cfg s key cols m h1 h2 => setitem_dict_reject cfg s key cols m h1 h2,
   fun _ _ _ cfg s rows key cols data bss h0 h1 h2 h3 h4 h5 h6 h7 h8 h9 =>
    finalize_spec cfg s rows key cols data bss h0 h1 h2 h3 h4 h5 h6 h7 h8 h9⟩

/-- The empty mapping's keys are (vacuously) a subset of the column names,
yet `writer[0] = {}` raises: the source checks "no entries" first. -/
theorem C4_empty_mapping_counterexample :
    (([] : List (String × Option Nat)).all fun p => decide (p.1 ∈ ["a"])) =
      true ∧
    WFDD.setitemR (toyCfgCols ["a"]) (WFDD.init Nat Nat (toyCfgCols ["a"])) 0
      (WItem.dict []) =
      Except.error (WFDD.init Nat Nat (toyCfgCols ["a"])) := by
  constructor
  · decide
  · rfl

set_option maxRecDepth 8000 in
theorem C4_mapping_set_witness :
    seqCells (toyCfgCols ["a", "b"]).colSer 0
      ((["a", "b"] : List String).map fun c =>
        (alookup [("a", some 7)] c).bind id) = some [[8], []] ∧
    ∃ s1, WFDD.setitemR (toyCfgCols ["a", "b"])
        (WFDD.init Nat Nat (toyCfgCols ["a", "b"])) 5
        (WItem.dict [("a", some 7)]) = Except.ok s1 ∧
      s1.index.lookupVals 5 = some (0 :: posScan 0 [[8], []]) ∧
      s1.unfinished = (WFDD.init Nat Nat (toyCfgCols ["a", "b"])).unfinished ∧
      ∀ j, j < (["a", "b"] : List String).length →
        (alookup [("a", some 7)] ((["a", "b"] : List String).getD j "")).bind
          id = none →
        ((0 : Nat) :: posScan 0 [[8], []]).getD j 0 =
        ((0 : Nat) :: posScan 0 [[8], []]).getD (j + 1) 0 :=
  ⟨by decide,
    C4_mapping_set.1 Nat Nat (toyCfgCols ["a", "b"])
      (WFDD.init Nat Nat (toyCfgCols ["a", "b"])) [] 5 ["a", "b"]
      [("a", some 7)] [[8], []] rfl (by decide) (by decide) (by decide) rfl
      ⟨rfl, rfl, ⟨fun r hr => absurd hr (List.not_mem_nil r),
        fun r hr => absurd hr (List.not_mem_nil r)⟩, List.nodup_nil,
        by decide, by decide⟩
      (by decide) rfl (by decide)⟩

/-- Claim C5.  Iteration order per index variant: replaying well-formed
assignments keeps a general index's key list in first-insertion order; a
sorted-comparable index built from a mapping lists the mapping's keys in
ascending order (a sorted permutation of them); a keyless index holding
the rows of `rows` lists exactly `0 .. N-1` in order. -/
theorem C5_iteration_order :
    (∀ (K : Type) [inst : DecidableEq K] (ops : List (K × List Nat))
      (g : FDDIndexGeneral K),
      (∀ p ∈ ops, p.2.length = g.num_vals ∧ ∀ v ∈ p.2, v < 256 ^ g.byte_width) →
      (buildG g ops).index = ops.foldl (fun l p => insertKey l p.1) g.index) ∧
    (∀ (K : Type) [inst : DecidableEq K] [inst2 : LinearOrder K]
      (d : List (K × List Nat)) (w nv : Nat),
      0 < w → 0 < nv → d ≠ [] → (d.map Prod.fst).Nodup →
      (∀ k ∈ d.map Prod.fst, ((alookup d k).getD []).length = nv) →
      (∀ k ∈ d.map Prod.fst, ∀ v ∈ (alookup d k).getD [], v < 256 ^ w) →
      ∃ c, FDDIndexComparableKey.fromDict d w = some c ∧
        c.skeys.Sorted (· ≤ ·) ∧ c.skeys.Perm (d.map Prod.fst)) ∧
    (∀ (k : FDDIndexKeyless) (rows : List (List Nat)), KWF k rows →
      k.keysList = List.range rows.length) := by
  refine ⟨?_, ?_, ?_⟩
  · intro K _ ops g hops
    exact buildG_keys ops g hops
  · intro K _ _ d w nv hw hnv hne hnd hlen hbd
    obtain ⟨c, hc, hks, _, _, _, _⟩ := fromDict_spec d w nv hw hnv hne hnd hlen hbd
    refine ⟨c, hc, ?_, ?_⟩
    · rw [hks]
      exact List.sorted_insertionSort _ _
    · rw [hks]
      exact List.perm_insertionSort _ _
  · intro k rows hk
    unfold FDDIndexKeyless.keysList
    rw [kwf_size k rows hk]

theorem C5_iteration_order_witness :
    (∀ p ∈ [((3 : Nat), [1, 2]), (3, [4, 5]), (8, [6, 7])],
      p.2.length = (⟨[], [], 2, 6⟩ : FDDIndexGeneral Nat).num_vals ∧
      ∀ v ∈ p.2, v < 256 ^ (⟨[], [], 2, 6⟩ : FDDIndexGeneral Nat).byte_width) ∧
    (buildG (⟨[], [], 2, 6⟩ : FDDIndexGeneral Nat)
      [(3, [1, 2]), (3, [4, 5]), (8, [6, 7])]).index = [3, 8] := by
  refine ⟨by decide, ?_⟩
  rw [C5_iteration_order.1 Nat [(3, [1, 2]), (3, [4, 5]), (8, [6, 7])]
    (⟨[], [], 2, 6⟩ : FDDIndexGeneral Nat) (by decide)]
  decide

/-- Claim C6.  `FDDIntList` indexing, as the source implements it: an index
in `[0, length)` returns the unsigned little-endian integer of the
`byte_width` bytes at `start_in_buffer + i*byte_width`; an index `≥ length`
or `< -length` raises; but a negative index in `[-length, 0)` is
normalised by adding the length instead of raising (the original "any i
outside [0, length) fails" is false, see the counterexample). -/
theorem C6_intlist_get :
    (∀ (l : FDDIntList) (i : Nat), i < l.length →
      l.getI i = some (leToNat (chunk l.buffer
        (l.start_in_buffer + i * l.byte_width)
        (l.start_in_buffer + (i + 1) * l.byte_width)))) ∧
    (∀ (l : FDDIntList) (i : Nat), l.length ≤ i → l.getI i = none) ∧
    (∀ (l : FDDIntList) (i : Int), i < -(l.length : Int) → l.getI i = none) ∧
    (∀ (l : FDDIntList) (i : Nat), 0 < i → i ≤ l.length →
      l.getI (-(i : Int)) = l.getI ((l.length - i : Nat) : Int)) :=
  ⟨getI_nonneg, getI_oob_pos, getI_oob_neg, getI_neg⟩

/-- `lst[-1]` on a two-entry `FDDIntList` returns the last entry instead of
raising: indices in `[-length, 0)` do not fail. -/
theorem C6_negative_index_counterexample :
    FDDIntList.getI ⟨2, [5, 0, 7, 0], 2, 0⟩ (-1) = some 7 := by
  decide

theorem C6_intlist_get_witness :
    (0 : Nat) < (⟨2, [5, 0, 7, 0], 2, 0⟩ : FDDIntList).length ∧
    FDDIntList.getI ⟨2, [5, 0, 7, 0], 2, 0⟩ ((0 : Nat) : Int) =
      some (leToNat (chunk [5, 0, 7, 0] 0 2)) :=
  ⟨by decide, C6_intlist_get.1 ⟨2, [5, 0, 7, 0], 2, 0⟩ 0 (by decide)⟩

/-- Claim C7.  Keyless index assignment: on an index holding `N` rows,
setting index `N` with a fitting tuple appends, growing the buffer by
exactly `num_vals * byte_width` bytes and the length to `N+1`; setting
`i < N` rewrites that entry's bytes in place with the buffer length
unchanged; setting `i > N` raises out-of-bounds. -/
theorem C7_keyless_set :
    (∀ (k : FDDIndexKeyless) (rows : List (List Nat)), KWF k rows →
      ∀ val : List Nat, val.length = k.num_vals →
      (∀ v ∈ val, v < 256 ^ k.byte_width) →
      k.setIdx rows.length val =
        .ok ⟨k.buffer ++ packRow k.byte_width val, k.num_vals, k.byte_width⟩ ∧
      (k.buffer ++ packRow k.byte_width val).length =
        k.buffer.length + k.num_vals * k.byte_width ∧
      (⟨k.buffer ++ packRow k.byte_width val, k.num_vals, k.byte_width⟩ :
        FDDIndexKeyless).size = rows.length + 1) ∧
    (∀ (k : FDDIndexKeyless) (rows : List (List Nat)), KWF k rows →
      ∀ (i : Nat), i < rows.length →
      ∀ val : List Nat, val.length = k.num_vals →
      (∀ v ∈ val, v < 256 ^ k.byte_width) →
      k.setIdx i val = .ok ⟨k.buffer.take (i * k.num_vals * k.byte_width) ++
        packRow k.byte_width val ++
        k.buffer.drop (i * k.num_vals * k.byte_width +
          k.num_vals * k.byte_width), k.num_vals, k.byte_width⟩ ∧
      (k.buffer.take (i * k.num_vals * k.byte_width) ++
        packRow k.byte_width val ++
        k.buffer.drop (i * k.num_vals * k.byte_width +
          k.num_vals * k.byte_width)).length = k.buffer.length) ∧
    (∀ (k : FDDIndexKeyless) (i : Nat) (val : List Nat),
      k.size < i → k.setIdx i val = .error k) := by
  refine ⟨?_, ?_, ?_⟩
  · intro k rows hk val hv hb
    obtain ⟨hset, hk'⟩ := setIdx_append_spec k rows hk val hv hb
    refine ⟨hset, ?_, ?_⟩
    · rw [List.length_append, packRow_length, hv]
    · rw [kwf_size _ _ hk', List.length_append, List.length_cons]
      rfl
  · intro k rows hk i hi val hv hb
    obtain ⟨hset, hlen, _⟩ := setIdx_rewrite_spec k rows hk i hi val hv hb
    exact ⟨hset, hlen⟩
  · exact setIdx_oob

theorem C7_keyless_set_witness :
    KWF (⟨packRow 6 [1, 2], 2, 6⟩ : FDDIndexKeyless) [[1, 2]] ∧
    FDDIndexKeyless.setIdx ⟨packRow 6 [1, 2], 2, 6⟩ 1 [3, 4] =
      .ok ⟨packRow 6 [1, 2] ++ packRow 6 [3, 4], 2, 6⟩ ∧
    (packRow 6 [1, 2] ++ packRow 6 [3, 4]).length =
      (packRow 6 [1, 2]).length + 2 * 6 ∧
    (⟨packRow 6 [1, 2] ++ packRow 6 [3, 4], 2, 6⟩ : FDDIndexKeyless).size = 2 :=
  ⟨⟨rfl, ⟨by decide, by decide⟩, by decide, by decide⟩,
    C7_keyless_set.1 ⟨packRow 6 [1, 2], 2, 6⟩ [[1, 2]]
      ⟨rfl, ⟨by decide, by decide⟩, by decide, by decide⟩ [3, 4]
      (by decide) (by decide)⟩

/-- Claim C8.  Row-offset invariant: after any sequence of writer set
operations on a fresh writer (with the final file still addressable in the
index's byte width), the index is a packing of offset tuples in which every
tuple has `len(columns)+1` entries (2 schemaless), is non-decreasing, and
stays within the file, so cell `i` occupies the byte range
`[p_i, p_{i+1})` of the file. -/
theorem C8_row_offsets :
    ∀ (K V : Type) [inst : DecidableEq K] (cfg : WCfg V)
      (ops : List (K × WItem V)),
    (runOps cfg (WFDD.init K V cfg) ops).fileData.length <
      256 ^ (WFDD.init K V cfg).index.byte_width →
    ∃ rows, GWF (runOps cfg (WFDD.init K V cfg) ops).index rows ∧
      ∀ r ∈ rows, r.length = expectedNV cfg ∧ List.Chain' (· ≤ ·) r ∧
        ∀ y ∈ r, y ≤ (runOps cfg (WFDD.init K V cfg) ops).fileData.length := by
  intro K V _ cfg ops hbound
  have hnv0 : 0 < expectedNV cfg := by
    unfold expectedNV
    cases hcc : cfg.columns
    · simp
    · simp
  have hg0 : GWF (WFDD.init K V cfg).index ([] : List (List Nat)) :=
    ⟨rfl, rfl, ⟨fun r hr => absurd hr (List.not_mem_nil r),
      fun r hr => absurd hr (List.not_mem_nil r)⟩, List.nodup_nil, hnv0,
      by show (0 : Nat) < 6; decide⟩
  obtain ⟨rows, hg, hb⟩ := runOps_inv cfg ops (WFDD.init K V cfg) rfl hbound
    [] hg0 (fun r hr => absurd hr (List.not_mem_nil r))
  refine ⟨rows, hg, fun r hr => ⟨?_, (hb r hr).1, (hb r hr).2⟩⟩
  have hlen := (hg.2.2.1).1 r hr
  have hnv := (runOps_mono cfg ops (WFDD.init K V cfg) rfl).2.2.2
  rw [hlen, hnv]
  rfl

set_option maxRecDepth 8000 in
theorem C8_row_offsets_witness :
    (runOps toyCfgNoCols (WFDD.init Nat Nat toyCfgNoCols)
      [(5, .plain (some 3))]).fileData.length <
      256 ^ (WFDD.init Nat Nat toyCfgNoCols).index.byte_width ∧
    ∃ rows, GWF (runOps toyCfgNoCols (WFDD.init Nat Nat toyCfgNoCols)
        [(5, .plain (some 3))]).index rows ∧
      ∀ r ∈ rows, r.length = expectedNV toyCfgNoCols ∧
        List.Chain' (· ≤ ·) r ∧
        ∀ y ∈ r, y ≤ (runOps toyCfgNoCols (WFDD.init Nat Nat toyCfgNoCols)
          [(5, .plain (some 3))]).fileData.length :=
  ⟨by decide,
    C8_row_offsets Nat Nat toyCfgNoCols [(5, .plain (some 3))] (by decide)⟩

/-- Claim C9.  Index atomicity of failed writes: a raised `__setitem__`
(duplicate key, bad shape, or an encoder exception) leaves the row index
unchanged — provided the bytes appended so far still fit `byte_width`
addressing, which rules out the offsets-overflow edge — even though payload
bytes may already be in the file; the cursor still tracks the file end and
setters, properties and splits are untouched. -/
theorem C9_failed_set_atomicity :
    ∀ (K V : Type) [inst : DecidableEq K] (cfg : WCfg V) (s : WFDD K V)
      (key : K) (item : WItem V) (s' : WFDD K V),
    s.filePos = s.fileData.length →
    WFDD.setitemR cfg s key item = Except.error s' →
    s'.fileData.length < 256 ^ s.index.byte_width →
    s'.index = s.index ∧ s'.filePos = s'.fileData.length ∧
    (∃ ext, s'.fileData = s.fileData ++ ext) ∧
    s'.unfinished = s.unfinished ∧ s'.props = s.props ∧ s'.splits = s.splits :=
  fun _ _ _ cfg s key item s' h1 h2 h3 =>
    setitemR_err_spec cfg s key item s' h1 h2 h3

theorem C9_failed_set_atomicity_witness :
    WFDD.setitemR (toyCfgCols ["a"]) (WFDD.init Nat Nat (toyCfgCols ["a"])) 0
      (WItem.dict [("b", some 1)]) =
      Except.error (WFDD.init Nat Nat (toyCfgCols ["a"])) ∧
    (WFDD.init Nat Nat (toyCfgCols ["a"])).index =
      (WFDD.init Nat Nat (toyCfgCols ["a"])).index :=
  ⟨rfl,
    (C9_failed_set_atomicity Nat Nat (toyCfgCols ["a"])
      (WFDD.init Nat Nat (toyCfgCols ["a"])) 0 (WItem.dict [("b", some 1)])
      (WFDD.init Nat Nat (toyCfgCols ["a"])) rfl rfl (by decide)).1⟩

set_option maxRecDepth 16000 in
/-- When the file has outgrown `256 ^ byte_width` (here `byte_width = 1`
for a small example), a raising `__setitem__` is *not* atomic: the key is
inserted into the index dict before `to_bytes` raises on the first
offset. -/
theorem C9_overflow_counterexample :
    WFDD.setitemR toyCfgNoCols
      (⟨List.replicate 256 0, 256, ⟨[], [], 2, 1⟩, [], [], []⟩ : WFDD Nat Nat)
      7 (.plain (some 3)) =
      Except.error ⟨List.replicate 256 0 ++ [4], 257, ⟨[7], [], 2, 1⟩,
        [], [], []⟩ ∧
    ([7] : List Nat) ≠ [] := by
  constructor
  · rfl
  · decide

/-- Claim C10.  `None` is the row-view cache's not-loaded sentinel: a read
that yields `None` (an empty cell included) leaves the cache as it was, so
the cell is re-read and re-decoded on each access; assigning `None`
through item assignment just resets the slot, and the next read decodes
the stored bytes again; and the writer's row-copy loop emits the raw cell
bytes `read_chunk(offsets[i], offsets[i+1])` for every uncached cell,
never an encoding of `None`. -/
theorem C10_none_sentinel :
    (∀ (V : Type) (deser : Nat → Bytes → Option (Option V)) (file : Bytes)
      (offsets : List Nat) (cache : List (Option V)) (i : Nat)
      (res : Option V × List (Option V)),
      rowGet deser file offsets cache i = some res → res.1 = none →
      res.2 = cache) ∧
    (∀ (V : Type) (deser : Nat → Bytes → Option (Option V)) (file : Bytes)
      (offsets : List Nat) (cache : List (Option V)) (i a : Nat),
      cache.get? i = some none → offsets.get? i = some a →
      offsets.get? (i + 1) = some a →
      rowGet deser file offsets cache i = some (none, cache)) ∧
    (∀ (V : Type) (deser : Nat → Bytes → Option (Option V)) (file : Bytes)
      (offsets : List Nat) (cache : List (Option V)) (i : Nat),
      i < cache.length → ∀ a b : Nat,
      offsets.get? i = some a → offsets.get? (i + 1) = some b →
      rowSetIdx cache i none = some (cache.set i none) ∧
      rowGet deser file offsets (cache.set i none) i =
        (if a = b then some (none, cache.set i none)
         else (deser i (chunk file a b)).map fun v =>
           (v, (cache.set i none).set i v))) ∧
    (∀ (V : Type) (ser : Nat → V → Option Bytes) (srcFile : Bytes)
      (offsets : List Nat) (cache : List (Option V)) (n i : Nat)
      (bss : List Bytes),
      seqCellsRC ser srcFile offsets cache i n = some bss →
      (∀ j, j < n → cache.get? (i + j) = some none →
        ∀ a b, offsets.get? (i + j) = some a →
          offsets.get? (i + j + 1) = some b →
          bss.getD j [] = chunk srcFile a b) ∧
      (∀ f : Bytes, rowCopyCells ser srcFile offsets cache f f.length i n =
        .ok (f ++ bss.flatten, f.length + bss.flatten.length,
          posScan f.length bss))) := by
  refine ⟨?_, ?_, ?_, ?_⟩
  · intro V deser file offsets cache i res h hn
    exact rowGet_none_transparent deser file offsets cache i res h hn
  · intro V deser file offsets cache i a hc ha hb
    unfold rowGet
    rw [hc, ha, hb]
    show (if a = a then some ((none : Option V), cache) else _) = _
    rw [if_pos rfl]
  · intro V deser file offsets cache i hi a b ha hb
    exact rowSetIdx_none_reread deser file offsets cache i hi a b ha hb
  · intro V ser srcFile offsets cache n i bss hseq
    exact ⟨fun j hj hc a b ha hb =>
        seqCellsRC_get_none ser srcFile offsets cache n i bss hseq j hj hc a b
          ha hb,
      fun f => rowCopyCells_ok_eq ser srcFile offsets cache n i bss hseq f⟩

theorem C10_none_sentinel_witness :
    rowGet (fun _ => toyDeser) [0, 4] [0, 1, 2] [none, none] 0 =
      some ((none : Option Nat), [none, none]) ∧
    ((none : Option Nat), ([none, none] : List (Option Nat))).2 =
      [none, none] :=
  ⟨by decide,
    C10_none_sentinel.1 Nat (fun _ => toyDeser) [0, 4] [0, 1, 2] [none, none] 0
      (none, [none, none]) (by decide) rfl⟩

end Claims

end FDD
